import Mathlib

/-!
# Scene graph node (`src/scene/scene_graphnode.js`)

A shallow embedding of `pc.scene.GraphNode`.  JavaScript objects live in a
heap: a node reference is a natural number and the heap maps every reference
to the record of its fields.  Numbers are taken exactly, in an arbitrary
commutative ring `R`; vectors, quaternions and 4x4 matrices are the flat
arrays of the source (a matrix is the 16-entry column-major array).
-/

set_option linter.unusedSectionVars false

namespace Scene

/-- A `pc.math.vec3`: a 3-entry array. -/
abbrev Vec3 (R : Type) := Fin 3 → R

/-- A `pc.math.quat`: the 4-entry array `[x, y, z, w]`. -/
abbrev Quat (R : Type) := Fin 4 → R

/-- A `pc.math.mat4`: a 16-entry array, entry `4 * column + row`. -/
abbrev Mat4 (R : Type) := Fin 16 → R

/-- The values `_graphId` can hold: a number or a string from a data file. -/
inductive GraphId where
  | num (n : Int)
  | str (s : String)
deriving DecidableEq, Repr

/-- The fields set up by the constructor `GraphNode(name)` (lines 12-29).
`parent` is `_parent` (`none` for `null`), `children` is `_children`, the
matrices `ltm`/`wtm` are `_ltm`/`_wtm`, `labels` lists the keys of `_labels`. -/
structure GraphNode (R : Type) where
  name : String
  translation : Vec3 R
  rotation : Quat R
  scale : Vec3 R
  dirtyLocal : Bool
  dirtyWorld : Bool
  ltm : Mat4 R
  wtm : Mat4 R
  parent : Option Nat
  children : List Nat
  labels : List String
  graphId : Option GraphId

/-- The heap: every reference denotes a node. -/
abbrev Heap (R : Type) := Nat → GraphNode R

/-- The only error the file throws: `Error("GraphNode is already parented")`. -/
inductive GraphError where
  | alreadyParented
deriving DecidableEq, Repr

/-- What a call that may throw leaves behind: the heap and the error thrown,
if any. -/
structure Outcome (R : Type) where
  heap : Heap R
  error : Option GraphError

/-- The index of entry (`row`, `col`) in the column-major array. -/
def idx (row col : Fin 4) : Fin 16 := ⟨col.val * 4 + row.val, by omega⟩

section Defs

variable {R : Type} [CommRing R]

/-- The array of the sixteen entries `a0`, ..., `a15`, in index order. -/
def Mat4.ofEntries (a0 a1 a2 a3 a4 a5 a6 a7 a8 a9 a10 a11 a12 a13 a14 a15 : R) : Mat4 R :=
  fun i => match i.val with
    | 0 => a0 | 1 => a1 | 2 => a2 | 3 => a3
    | 4 => a4 | 5 => a5 | 6 => a6 | 7 => a7
    | 8 => a8 | 9 => a9 | 10 => a10 | 11 => a11
    | 12 => a12 | 13 => a13 | 14 => a14 | _ => a15

/-- Modelled from the spec: `pc.math.mat4.create()` without arguments, which
is not in this file; the spec says a fresh node's matrices are the identity. -/
def mat4Identity : Mat4 R :=
  Mat4.ofEntries
    1 0 0 0
    0 1 0 0
    0 0 1 0
    0 0 0 1

/-- Modelled from the spec: `pc.math.mat4.copy(src, dst)`, which is not in this
file; `dst` receives the entries of `src`. -/
def mat4Copy (src : Mat4 R) : Mat4 R := src

/-- Modelled from the spec: `pc.math.mat4.multiply(a, b, out)`, which is not in
this file; the spec fixes it as the standard product `a × b` of column-major
4x4 matrices: entry (`r`, `c`) of the result is the sum over `k` of
`a(r, k) * b(k, c)`. -/
def mat4Multiply (a b : Mat4 R) : Mat4 R := fun i =>
  let r : Fin 4 := ⟨i.val % 4, by omega⟩
  let c : Fin 4 := ⟨i.val / 4, by omega⟩
  a (idx r 0) * b (idx 0 c) + a (idx r 1) * b (idx 1 c)
    + a (idx r 2) * b (idx 2 c) + a (idx r 3) * b (idx 3 c)

/-- The constructor `new GraphNode(name)` (lines 12-29). -/
def GraphNode.create (name : String) : GraphNode R where
  name := name
  translation := ![0, 0, 0]
  rotation := ![0, 0, 0, 1]
  scale := ![1, 1, 1]
  dirtyLocal := false
  dirtyWorld := false
  ltm := mat4Identity
  wtm := mat4Identity
  parent := none
  children := []
  labels := []
  graphId := some (GraphId.num (-1))

/-- A heap of freshly constructed nodes. -/
def freshHeap : Heap R := fun _ => GraphNode.create ""

/-- Method `getParent` (lines 198-200). -/
def getParent (h : Heap R) (self : Nat) : Option Nat := (h self).parent

/-- Method `getChildren` (lines 209-211). -/
def getChildren (h : Heap R) (self : Nat) : List Nat := (h self).children

/-- Method `setParent` (lines 316-318). -/
def setParent (h : Heap R) (self : Nat) (node : Option Nat) : Heap R :=
  Function.update h self { h self with parent := node }

/-- Method `setLocalTranslation`, three-scalar form (lines 353-357). -/
def setLocalTranslation (h : Heap R) (self : Nat) (x y z : R) : Heap R :=
  Function.update h self { h self with translation := ![x, y, z], dirtyLocal := true }

/-- Method `setLocalTranslation`, single-vector form (lines 349-351, 357). -/
def setLocalTranslationVec (h : Heap R) (self : Nat) (pos : Vec3 R) : Heap R :=
  Function.update h self
    { h self with translation := ![pos 0, pos 1, pos 2], dirtyLocal := true }

/-- Method `setLocalRotation`, quaternion form (lines 361-362, 366);
`pc.math.quat.copy(src, dst)` copies the four entries. -/
def setLocalRotation (h : Heap R) (self : Nat) (q : Quat R) : Heap R :=
  Function.update h self { h self with rotation := ![q 0, q 1, q 2, q 3], dirtyLocal := true }

/-- Method `addChild` (lines 411-418): throws when `node` has a parent, before any
write; otherwise pushes `node` on `_children` and then sets its parent. -/
def addChild (h : Heap R) (self node : Nat) : Outcome R :=
  if getParent h node ≠ none then
    { heap := h, error := some GraphError.alreadyParented }
  else
    let h1 := Function.update h self { h self with children := (h self).children ++ [node] }
    { heap := setParent h1 node (some self), error := none }

/-- The loop of `removeChild` (lines 434-439): `n` iterations are left, the
index is `i`; the first `i` with `_children[i] === child` is spliced out. -/
def removeChildLoop (child : Nat) (cs : List Nat) : Nat → Nat → List Nat
  | 0, _ => cs
  | n + 1, i => if cs[i]? = some child then cs.eraseIdx i
      else removeChildLoop child cs n (i + 1)

/-- Method `removeChild` (lines 426-440): clears the parent of `child`, then runs the
loop over the `length` children of `self`. -/
def removeChild (h : Heap R) (self child : Nat) : Heap R :=
  let length := (h self).children.length
  let h1 := setParent h child none
  Function.update h1 self
    { h1 self with children := removeChildLoop child (h1 self).children length 0 }

/-- The local matrix written by `sync` (lines 525-561) from translation `t`,
rotation `q` and scale `s`. -/
def localFromTRS (t : Vec3 R) (q : Quat R) (s : Vec3 R) : Mat4 R :=
  let qx := q 0
  let qy := q 1
  let qz := q 2
  let qw := q 3
  let x2 := qx + qx
  let y2 := qy + qy
  let z2 := qz + qz
  let xx := qx * x2
  let xy := qx * y2
  let xz := qx * z2
  let yy := qy * y2
  let yz := qy * z2
  let zz := qz * z2
  let wx := qw * x2
  let wy := qw * y2
  let wz := qw * z2
  Mat4.ofEntries
    ((1 - (yy + zz)) * s 0) ((xy - wz) * s 0) ((xz + wy) * s 0) 0
    ((xy + wz) * s 1) ((1 - (xx + zz)) * s 1) ((yz - wx) * s 1) 0
    ((xz - wy) * s 2) ((yz + wx) * s 2) ((1 - (xx + yy)) * s 2) 0
    (t 0) (t 1) (t 2) 1

/-- The first block of `sync` (lines 524-565) on the node's record. -/
def syncLocal (n : GraphNode R) : GraphNode R :=
  if n.dirtyLocal then
    { n with ltm := localFromTRS n.translation n.rotation n.scale,
             dirtyLocal := false, dirtyWorld := true }
  else n

/-- The loop of `sync` (lines 574-576): every child gets `dirtyWorld = true`. -/
def markChildren (h : Heap R) (cs : List Nat) : Heap R :=
  cs.foldl (fun acc c => Function.update acc c { acc c with dirtyWorld := true }) h

/-- Method `sync` (lines 523-580). -/
def sync (h : Heap R) (self : Nat) : Heap R :=
  let h1 := Function.update h self (syncLocal (h self))
  if (h1 self).dirtyWorld then
    let w := match (h1 self).parent with
      | none => mat4Copy (h1 self).ltm
      | some p => mat4Multiply (h1 p).wtm (h1 self).ltm
    let h2 := Function.update h1 self { h1 self with wtm := w }
    let h3 := markChildren h2 (h2 self).children
    Function.update h3 self { h3 self with dirtyWorld := false }
  else h1

/-- Method `syncHierarchy` (lines 514-521): `sync`, then `syncHierarchy` on each child
in order.  The recursion of the source is bounded by `fuel`; `none` means the
fuel ran out.  (`sync` and `syncHierarchy` never write `_children`, so the loop
runs over the array as it is after `sync`.) -/
def syncHierarchy : Nat → Heap R → Nat → Option (Heap R)
  | 0, _, _ => none
  | fuel + 1, h, self =>
    ((sync h self) self).children.foldlM (fun acc c => syncHierarchy fuel acc c) (sync h self)

/-- The `while` loop of `getRoot` (lines 186-189), bounded by `fuel`. -/
def getRootLoop : Nat → Heap R → Nat → Option Nat
  | 0, _, _ => none
  | fuel + 1, h, parent =>
    match getParent h parent with
    | some pp => getRootLoop fuel h pp
    | none => some parent

/-- Method `getRoot` (lines 180-190); `none` means the loop ran out of fuel. -/
def getRoot (fuel : Nat) (h : Heap R) (self : Nat) : Option Nat :=
  match getParent h self with
  | none => some self
  | some parent => getRootLoop fuel h parent

/-- A call of one of the two tree operations, with its arguments. -/
inductive TreeOp where
  | attach (parent child : Nat)
  | detach (parent child : Nat)
deriving DecidableEq, Repr

/-- The heap after one call; a call of `addChild` that throws leaves the heap
`addChild` leaves. -/
def applyOp (h : Heap R) : TreeOp → Heap R
  | TreeOp.attach p c => (addChild h p c).heap
  | TreeOp.detach p c => removeChild h p c

/-- The heap after a sequence of calls. -/
def runOps (h : Heap R) (ops : List TreeOp) : Heap R := ops.foldl applyOp h

/-- The node `k` parent links above `n`, if the chain is that long. -/
def ancestor (h : Heap R) : Nat → Nat → Option Nat
  | 0, n => some n
  | k + 1, n =>
    match (h n).parent with
    | none => none
    | some p => ancestor h k p

/-- Every `removeChild(p, c)` of the sequence is called on a child whose parent
is `p`, or that has no parent. -/
def detachesOwn (h : Heap R) : List TreeOp → Prop
  | [] => True
  | TreeOp.attach p c :: ops => detachesOwn (addChild h p c).heap ops
  | TreeOp.detach p c :: ops =>
    ((h c).parent = some p ∨ (h c).parent = none) ∧ detachesOwn (removeChild h p c) ops

/-- Every `addChild(p, c)` of the sequence that does not throw is called with
`c` neither `p` nor an ancestor of `p`. -/
def attachesBelow (h : Heap R) : List TreeOp → Prop
  | [] => True
  | TreeOp.attach p c :: ops =>
    ((h c).parent = none → ∀ k, ancestor h k p ≠ some c) ∧
      attachesBelow (addChild h p c).heap ops
  | TreeOp.detach p c :: ops => attachesBelow (removeChild h p c) ops

/-- The parent and children links agree, and no children array repeats a node. -/
def Consistent (h : Heap R) : Prop :=
  (∀ p c, c ∈ (h p).children ↔ (h c).parent = some p) ∧ ∀ p, (h p).children.Nodup

/-- Every chain of parent links ends. -/
def Grounded (h : Heap R) : Prop := ∀ n, ∃ k, ancestor h k n = none

/-- A finite forest of node references: empty, or a first tree (its root `id`
and the forest `kids` of its children, in order) followed by the forest `rest`
of its next siblings. -/
inductive Forest where
  | nil
  | cons (id : Nat) (kids : Forest) (rest : Forest)
deriving DecidableEq, Repr

/-- The roots of the trees of the forest, in order. -/
def Forest.roots : Forest → List Nat
  | Forest.nil => []
  | Forest.cons id _ rest => id :: rest.roots

/-- All the nodes of the forest, in depth-first pre-order. -/
def Forest.ids : Forest → List Nat
  | Forest.nil => []
  | Forest.cons id kids rest => id :: (kids.ids ++ rest.ids)

/-- The number of levels of the forest. -/
def Forest.height : Forest → Nat
  | Forest.nil => 0
  | Forest.cons _ kids rest => max (kids.height + 1) rest.height

/-- The heap holds the forest `f` under the parent `po`: every root of `f` has
parent `po`, and the children array of every node of `f` lists the roots of its
`kids`. -/
def Shaped (h : Heap R) (po : Option Nat) : Forest → Prop
  | Forest.nil => True
  | Forest.cons id kids rest =>
    (h id).parent = po ∧ (h id).children = kids.roots ∧
      Shaped h (some id) kids ∧ Shaped h po rest

/-- The forest `f`, whose roots have a parent with world matrix `pw` (or no
parent), is fully synchronized: on every node both flags are clear, the local
matrix is the one `sync` computes from the TRS, and the world matrix is the
parent's world matrix times the local matrix (the local matrix itself for a
node without parent). -/
def Synced (h : Heap R) (pw : Option (Mat4 R)) : Forest → Prop
  | Forest.nil => True
  | Forest.cons id kids rest =>
    (h id).dirtyLocal = false ∧ (h id).dirtyWorld = false ∧
      (h id).ltm = localFromTRS (h id).translation (h id).rotation (h id).scale ∧
      (h id).wtm = (match pw with
        | none => (h id).ltm
        | some w => mat4Multiply w (h id).ltm) ∧
      Synced h (some (h id).wtm) kids ∧ Synced h pw rest

/-- The product of the local matrices along the chain of `k` parent links that
ends at `n`, from the top of the chain down to `n`. -/
def worldAlong (h : Heap R) : Nat → Nat → Mat4 R
  | 0, n => (h n).ltm
  | k + 1, n =>
    match (h n).parent with
    | none => (h n).ltm
    | some p => mat4Multiply (worldAlong h k p) (h n).ltm

/-- Method `getWorldTranslation` (lines 287-297): both forms deliver the entries
12, 13 and 14 of `_wtm`. -/
def getWorldTranslation (h : Heap R) (self : Nat) : Vec3 R :=
  ![(h self).wtm 12, (h self).wtm 13, (h self).wtm 14]

/-- Method `setName` (lines 401-403). -/
def setName (h : Heap R) (self : Nat) (name : String) : Heap R :=
  Function.update h self { h self with name := name }

/-- Method `setLocalScale`, three-scalar form (lines 375-379). -/
def setLocalScale (h : Heap R) (self : Nat) (x y z : R) : Heap R :=
  Function.update h self { h self with scale := ![x, y, z], dirtyLocal := true }

/-- Method `setLocalScale`, single-vector form (lines 371-373, 379). -/
def setLocalScaleVec (h : Heap R) (self : Nat) (v : Vec3 R) : Heap R :=
  Function.update h self { h self with scale := ![v 0, v 1, v 2], dirtyLocal := true }

/-- Modelled from the spec: `pc.scene.Space`, which is not in this file; the
spec names a local and a world space. -/
inductive Space where
  | LOCAL
  | WORLD
deriving DecidableEq, Repr

/-- Method `translate` with three scalars and an optional space (the branch
`arguments.length >= 3`, lines 653-660); `none` is an omitted space. -/
def translate (h : Heap R) (self : Nat) (x y z : R) (relativeTo : Option Space) : Heap R :=
  if relativeTo = none ∨ relativeTo = some Space.LOCAL then
    Function.update h self
      { h self with
        translation := ![(h self).translation 0 + x, (h self).translation 1 + y,
          (h self).translation 2 + z],
        dirtyLocal := true }
  else h

/-- Method `translate` with one vector and an optional space (the branch
`arguments.length < 3`, lines 661-669). -/
def translateVec (h : Heap R) (self : Nat) (v : Vec3 R) (relativeTo : Option Space) :
    Heap R :=
  if relativeTo = none ∨ relativeTo = some Space.LOCAL then
    Function.update h self
      { h self with
        translation := ![(h self).translation 0 + v 0, (h self).translation 1 + v 1,
          (h self).translation 2 + v 2],
        dirtyLocal := true }
  else h

/-- Modelled from the spec: `pc.math.quat.multiply(a, b, out)`, which is not in
this file; the standard (Hamilton) product `a × b` of quaternions `[x, y, z, w]`. -/
def quatMultiply (a b : Quat R) : Quat R :=
  ![a 3 * b 0 + a 0 * b 3 + a 1 * b 2 - a 2 * b 1,
    a 3 * b 1 - a 0 * b 2 + a 1 * b 3 + a 2 * b 0,
    a 3 * b 2 + a 0 * b 1 - a 1 * b 0 + a 2 * b 3,
    a 3 * b 3 - a 0 * b 0 - a 1 * b 1 - a 2 * b 2]

/-- Method `rotate` (lines 672-676).  The library function
`pc.math.quat.setFromEulers`, which is not in this file, is the parameter
`setFromEulers`: the quaternion it writes for three Euler angles. -/
def rotate (setFromEulers : R → R → R → Quat R) (h : Heap R) (self : Nat) (x y z : R) :
    Heap R :=
  Function.update h self
    { h self with
      rotation := quatMultiply (h self).rotation (setFromEulers x y z),
      dirtyLocal := true }

/-- Modelled from the spec: `pc.math.vec3.yaxis`, which is not in this file; the
world space y axis. -/
def vec3Yaxis : Vec3 R := ![0, 1, 0]

/-- Method `lookAt` with a target and an up vector (case 2, lines 599-602 and
612-613).  The library functions `pc.math.mat4.makeLookAt` and
`pc.math.mat4.toQuat`, which are not in this file, are parameters. -/
def lookAt (makeLookAt : Vec3 R → Vec3 R → Vec3 R → Mat4 R) (toQuat : Mat4 R → Quat R)
    (h : Heap R) (self : Nat) (target up : Vec3 R) : Heap R :=
  Function.update h self
    { h self with rotation := toQuat (makeLookAt (h self).translation target up) }

/-- Method `lookAt` with a target only (case 1, lines 595-598). -/
def lookAtTarget (makeLookAt : Vec3 R → Vec3 R → Vec3 R → Mat4 R) (toQuat : Mat4 R → Quat R)
    (h : Heap R) (self : Nat) (target : Vec3 R) : Heap R :=
  lookAt makeLookAt toQuat h self target vec3Yaxis

/-- Method `lookAt` with three scalars (case 3, lines 603-609). -/
def lookAtXYZ (makeLookAt : Vec3 R → Vec3 R → Vec3 R → Mat4 R) (toQuat : Mat4 R → Quat R)
    (h : Heap R) (self : Nat) (x y z : R) : Heap R :=
  lookAt makeLookAt toQuat h self ![x, y, z] vec3Yaxis

/-- The loop of `findByName` (lines 150-153) and of `findOne` (lines 129-134) on
one child: once a node is found the loop has returned; `none` is a search that
ran out of fuel, `some none` is the result `null`. -/
def firstStep (search : Nat → Option (Option Nat)) (acc : Option (Option Nat)) (c : Nat) :
    Option (Option Nat) :=
  match acc with
  | some none => search c
  | other => other

/-- Method `findByName` (lines 147-155). -/
def findByName : Nat → Heap R → Nat → String → Option (Option Nat)
  | 0, _, _, _ => none
  | fuel + 1, h, self, name =>
    if (h self).name = name then some (some self)
    else (h self).children.foldl (firstStep fun c => findByName fuel h c name) (some none)

/-- The names every object literal `{}` resolves through `Object.prototype`, all
to truthy values; `_labels` is such an object (line 27). -/
def objectPrototypeKeys : List String :=
  ["constructor", "toString", "toLocaleString", "valueOf", "hasOwnProperty",
   "isPrototypeOf", "propertyIsEnumerable", "__proto__", "__defineGetter__",
   "__defineSetter__", "__lookupGetter__", "__lookupSetter__"]

/-- Method `addLabel` (lines 450-452): the assignment `_labels[label] = true`
adds the own key `label` unless it is there; on the name `__proto__` the
inherited setter takes the assignment and no own key is made. -/
def addLabel (h : Heap R) (self : Nat) (label : String) : Heap R :=
  if label = "__proto__" then h
  else if label ∈ (h self).labels then h
  else Function.update h self { h self with labels := (h self).labels ++ [label] }

/-- Method `getLabels` (lines 460-462): the own keys of `_labels`, listed in
insertion order (JavaScript lists keys that are array indices first; the spec
takes the order as not significant). -/
def getLabels (h : Heap R) (self : Nat) : List String := (h self).labels

/-- Method `hasLabel` (lines 471-473): `!!this._labels[label]`, a lookup that
finds an own key (its value is `true`) or a name of `Object.prototype`. -/
def hasLabel (h : Heap R) (self : Nat) (label : String) : Bool :=
  decide (label ∈ (h self).labels) || decide (label ∈ objectPrototypeKeys)

/-- Method `removeLabel` (lines 481-483): `delete` removes the own key. -/
def removeLabel (h : Heap R) (self : Nat) (label : String) : Heap R :=
  Function.update h self
    { h self with labels := (h self).labels.filter fun k => decide (k ≠ label) }

/-- Method `findByLabel` (lines 493-506); `results` is `none` when the argument
is omitted. -/
def findByLabel : Nat → Heap R → Nat → String → Option (List Nat) → Option (List Nat)
  | 0, _, _, _, _ => none
  | fuel + 1, h, self, label, results =>
    (h self).children.foldlM
      (fun res c => findByLabel fuel h c label (some res))
      (if hasLabel h self label then results.getD [] ++ [self] else results.getD [])

/-- Method `setLocalRotation`, Euler form (lines 363-366); `setFromEulers` is the
library function of `rotate`. -/
def setLocalRotationEulers (setFromEulers : R → R → R → Quat R) (h : Heap R) (self : Nat)
    (x y z : R) : Heap R :=
  Function.update h self { h self with rotation := setFromEulers x y z, dirtyLocal := true }

/-- Method `_cloneInternal` (lines 33-39) on the records of `this` and of the
clone.  The field `_lables` is written nowhere in the file, so `this._lables`
is `undefined` on every node and the value of `pc.extend(this._lables, {})`, a
library call that is not in this file, does not depend on the node: its keys
are the parameter `extendLables`. -/
def cloneInternal (extendLables : List String) (this clone : GraphNode R) : GraphNode R :=
  { clone with
    name := this.name,
    ltm := mat4Copy this.ltm,
    wtm := mat4Copy this.wtm,
    labels := extendLables,
    graphId := this.graphId }

/-- Method `clone` (lines 41-45): `new pc.scene.GraphNode()` makes a node at the
unused reference `c`, with the name `""` of an omitted argument, and
`_cloneInternal` fills it; the result is the heap, the returned node is `c`. -/
def clone (extendLables : List String) (h : Heap R) (self c : Nat) : Heap R :=
  Function.update h c (cloneInternal extendLables (h self) (GraphNode.create ""))


section Find

/-- The arrays and the object a node keeps in its fields (lines 15-27).  The
constructor makes each of them once and the methods modelled here write into
them in place, so two of them are the same object exactly when they are the
same field of the same node. -/
inductive Slot where
  | translation
  | rotation
  | scale
  | ltm
  | wtm
  | children
  | labels
deriving DecidableEq, Repr

/-- A JavaScript value as far as `===` tells values apart: the primitive values
(numbers are the integers `_graphId` is modelled with), a node, an array or
object held in a field of a node, the object `GraphNode.prototype` (line 31),
and any other object or function, known by its identity `k`. -/
inductive Value where
  | undefined
  | null
  | bool (b : Bool)
  | number (x : Int)
  | string (s : String)
  | node (n : Nat)
  | slot (n : Nat) (s : Slot)
  | prototype
  | object (k : Nat)
deriving DecidableEq, Repr

/-- The condition of `if (x)`: `undefined`, `null`, `false`, `0` and `""` are
falsy, every object is truthy. -/
def truthy : Value → Bool
  | Value.undefined => false
  | Value.null => false
  | Value.bool b => b
  | Value.number x => decide (x ≠ 0)
  | Value.string s => decide (s ≠ "")
  | Value.node _ => true
  | Value.slot _ _ => true
  | Value.prototype => true
  | Value.object _ => true

/-- What a call returns: a value that was there before the call, or an object
the call has just made, which is identical to nothing the caller holds. -/
inductive Returned where
  | value (v : Value)
  | fresh
deriving DecidableEq, Repr

/-- The comparison `testValue === value` (lines 91 and 124). -/
def strictEquals : Returned → Value → Bool
  | Returned.value a, v => decide (a = v)
  | Returned.fresh, _ => false

/-- What `this[attr]` evaluates to: a function, or another value (`undefined`
when the node has no property of that name). -/
inductive Member where
  | value (v : Value)
  | function
deriving DecidableEq, Repr

/-- How a call ends: it returns `result` and leaves the heap `heap`; it throws
a `TypeError`, which no code of this file catches; or it takes the node to a
state the record `GraphNode` cannot hold (a field set to `undefined`, a library
function called on `undefined`, a node made by `new`). -/
inductive Completion (R : Type) (α : Type) where
  | normal (heap : Heap R) (result : α)
  | typeError
  | outside

/-- The result of a call put through `f`; the heap and the other endings are
kept. -/
def Completion.map {α β : Type} (f : α → β) : Completion R α → Completion R β
  | Completion.normal heap result => Completion.normal heap (f result)
  | Completion.typeError => Completion.typeError
  | Completion.outside => Completion.outside

/-- The value read from `_parent` (line 24, 317): `null` or a node. -/
def parentValue (a : GraphNode R) : Value :=
  match a.parent with
  | none => Value.null
  | some p => Value.node p

/-- The value read from `_graphId` (lines 28, 55, 65): `undefined` once it is
deleted. -/
def graphIdValue (a : GraphNode R) : Value :=
  match a.graphId with
  | none => Value.undefined
  | some (GraphId.num x) => Value.number x
  | some (GraphId.str s) => Value.string s

/-- The methods of `GraphNode.prototype` (lines 31-677). -/
def prototypeMethods : List String :=
  ["_cloneInternal", "clone", "addGraphId", "removeGraphId", "find", "findOne",
   "findByName", "findByGraphId", "getRoot", "getParent", "getChildren",
   "getLocalTranslation", "getLocalTransform", "getName", "getWorldTranslation",
   "getWorldTransform", "setParent", "setChildren", "setLocalTranslation",
   "setLocalRotation", "setLocalScale", "setLocalTransform", "setName", "addChild",
   "removeChild", "addLabel", "getLabels", "hasLabel", "removeLabel", "findByLabel",
   "syncHierarchy", "sync", "lookAt", "translate", "rotate"]

/-- The lookup `this[attr]` on a node (lines 85-89, 118-122): the fields the
constructor sets (lines 13-28), then the methods of the prototype, then what
`Object.prototype` gives every object: its functions and, under `__proto__`,
the prototype of the node. -/
def member (a : GraphNode R) (self : Nat) (attr : String) : Member :=
  match attr with
  | "_name" => Member.value (Value.string a.name)
  | "translation" => Member.value (Value.slot self Slot.translation)
  | "rotation" => Member.value (Value.slot self Slot.rotation)
  | "scale" => Member.value (Value.slot self Slot.scale)
  | "dirtyLocal" => Member.value (Value.bool a.dirtyLocal)
  | "dirtyWorld" => Member.value (Value.bool a.dirtyWorld)
  | "_ltm" => Member.value (Value.slot self Slot.ltm)
  | "_wtm" => Member.value (Value.slot self Slot.wtm)
  | "_parent" => Member.value (parentValue a)
  | "_children" => Member.value (Value.slot self Slot.children)
  | "_labels" => Member.value (Value.slot self Slot.labels)
  | "_graphId" => Member.value (graphIdValue a)
  | "__proto__" => Member.value Value.prototype
  | other =>
    if other ∈ prototypeMethods ∨ other ∈ objectPrototypeKeys then Member.function
    else Member.value Value.undefined

/-- Method `findByGraphId` (lines 163-172); `id` is `none` for `undefined`. -/
def findByGraphId : Nat → Heap R → Nat → Option GraphId → Option (Option Nat)
  | 0, _, _, _ => none
  | fuel + 1, h, self, id =>
    if (h self).graphId = id then some (some self)
    else (h self).children.foldl (firstStep fun c => findByGraphId fuel h c id) (some none)

/-- Method `findByName` (lines 147-155) called without an argument: `name` is
`undefined`, which no string `_name` is identical to, so the test of line 148
fails at every node. -/
def findByNameUndefined : Nat → Heap R → Nat → Option (Option Nat)
  | 0, _, _ => none
  | fuel + 1, h, self =>
    (h self).children.foldl (firstStep fun c => findByNameUndefined fuel h c) (some none)

/-- The value of a node or of `null` returned by a search. -/
def nodeOrNull : Option Nat → Value
  | none => Value.null
  | some n => Value.node n

/-- The call `this[attr]()` of lines 87 and 120: the function named `attr` runs
on the node without arguments, so every parameter is `undefined` and
`arguments.length` is 0.  `findRec` and `findOneRec` are `find` and `findOne`
themselves, for the nodes that are searched by the name of a search. -/
def invoke (findRec : Heap R → Nat → String → Value → Option (Completion R (List Nat)))
    (findOneRec : Heap R → Nat → String → Value → Option (Completion R (Option Nat)))
    (fuel : Nat) (h : Heap R) (self : Nat) (attr : String) :
    Option (Completion R Returned) :=
  match attr with
  -- getters (lines 198-200, 209-211, 236-238, 248-250, 260-262, 306-308)
  | "getParent" => some (Completion.normal h (Returned.value (parentValue (h self))))
  | "getChildren" => some (Completion.normal h (Returned.value (Value.slot self Slot.children)))
  | "getLocalTranslation" =>
    some (Completion.normal h (Returned.value (Value.slot self Slot.translation)))
  | "getLocalTransform" => some (Completion.normal h (Returned.value (Value.slot self Slot.ltm)))
  | "getName" => some (Completion.normal h (Returned.value (Value.string (h self).name)))
  | "getWorldTransform" => some (Completion.normal h (Returned.value (Value.slot self Slot.wtm)))
  -- line 295: a new vector; line 461: a new array
  | "getWorldTranslation" => some (Completion.normal h Returned.fresh)
  | "getLabels" => some (Completion.normal h Returned.fresh)
  -- line 472 with the key "undefined"
  | "hasLabel" =>
    some (Completion.normal h (Returned.value (Value.bool (hasLabel h self "undefined"))))
  -- searches called with every argument `undefined`
  | "find" =>
    (findRec h self "undefined" Value.undefined).map (Completion.map fun _ => Returned.fresh)
  | "findOne" =>
    (findOneRec h self "undefined" Value.undefined).map
      (Completion.map fun r => Returned.value (nodeOrNull r))
  | "findByName" =>
    (findByNameUndefined fuel h self).map
      fun r => Completion.normal h (Returned.value (nodeOrNull r))
  | "findByGraphId" =>
    (findByGraphId fuel h self none).map
      fun r => Completion.normal h (Returned.value (nodeOrNull r))
  | "findByLabel" =>
    (findByLabel fuel h self "undefined" none).map fun _ => Completion.normal h Returned.fresh
  | "getRoot" =>
    (getRoot fuel h self).map fun r => Completion.normal h (Returned.value (Value.node r))
  -- methods that write and return `undefined`
  | "sync" => some (Completion.normal (sync h self) (Returned.value Value.undefined))
  | "syncHierarchy" =>
    (syncHierarchy fuel h self).map
      fun h1 => Completion.normal h1 (Returned.value Value.undefined)
  | "addGraphId" =>
    some (Completion.normal (Function.update h self { h self with graphId := none })
      (Returned.value Value.undefined))
  | "removeGraphId" =>
    some (Completion.normal (Function.update h self { h self with graphId := none })
      (Returned.value Value.undefined))
  | "addLabel" =>
    some (Completion.normal (addLabel h self "undefined") (Returned.value Value.undefined))
  | "removeLabel" =>
    some (Completion.normal (removeLabel h self "undefined") (Returned.value Value.undefined))
  -- line 34 writes to `undefined`; lines 412 and 431 call a method of
  -- `undefined`; line 664 reads `arguments[0][0]`
  | "_cloneInternal" => some Completion.typeError
  | "addChild" => some Completion.typeError
  | "removeChild" => some Completion.typeError
  | "translate" => some Completion.typeError
  -- `undefined` stored in a field, a library call on `undefined`, a new node
  | "clone" => some Completion.outside
  | "setParent" => some Completion.outside
  | "setChildren" => some Completion.outside
  | "setLocalTranslation" => some Completion.outside
  | "setLocalRotation" => some Completion.outside
  | "setLocalScale" => some Completion.outside
  | "setLocalTransform" => some Completion.outside
  | "setName" => some Completion.outside
  | "lookAt" => some Completion.outside
  | "rotate" => some Completion.outside
  -- the functions of `Object.prototype`
  | "constructor" => some (Completion.normal h Returned.fresh)
  | "toString" => some (Completion.normal h (Returned.value (Value.string "[object Object]")))
  | "toLocaleString" =>
    some (Completion.normal h (Returned.value (Value.string "[object Object]")))
  | "valueOf" => some (Completion.normal h (Returned.value (Value.node self)))
  | "hasOwnProperty" => some (Completion.normal h (Returned.value (Value.bool false)))
  | "isPrototypeOf" => some (Completion.normal h (Returned.value (Value.bool false)))
  | "propertyIsEnumerable" => some (Completion.normal h (Returned.value (Value.bool false)))
  | "__lookupGetter__" => some (Completion.normal h (Returned.value Value.undefined))
  | "__lookupSetter__" => some (Completion.normal h (Returned.value Value.undefined))
  | "__defineGetter__" => some Completion.typeError
  | "__defineSetter__" => some Completion.typeError
  -- a call of what is not a function
  | _ => some Completion.typeError

/-- The test of `find` and `findOne` (lines 85-93 and 118-126) on the node
`self`: the heap the call of line 87 leaves, and whether the node is taken. -/
def testAttr (call : Heap R → Nat → String → Option (Completion R Returned))
    (h : Heap R) (self : Nat) (attr : String) (value : Value) : Option (Completion R Bool) :=
  match member (h self) self attr with
  | Member.value v => some (Completion.normal h (truthy v && decide (v = value)))
  | Member.function => (call h self attr).map (Completion.map fun t => strictEquals t value)

/-- One round of the loop of `find` (lines 96-98): the results of the child are
appended; a search that has thrown or run out of fuel has left the loop. -/
def findStep (search : Heap R → Nat → Option (Completion R (List Nat)))
    (acc : Option (Completion R (List Nat))) (c : Nat) : Option (Completion R (List Nat)) :=
  match acc with
  | some (Completion.normal h results) =>
    (search h c).map (Completion.map fun r => results ++ r)
  | other => other

/-- One round of the loop of `findOne` (lines 129-134): once a child has
returned a node the loop has returned. -/
def findOneStep (search : Heap R → Nat → Option (Completion R (Option Nat)))
    (acc : Option (Completion R (Option Nat))) (c : Nat) : Option (Completion R (Option Nat)) :=
  match acc with
  | some (Completion.normal h none) => search h c
  | other => other

mutual

/-- Method `find` (lines 79-101): `none` is a search that ran out of fuel; the
children are those read on line 81, before the test. -/
def find : Nat → Heap R → Nat → String → Value → Option (Completion R (List Nat))
  | 0, _, _, _, _ => none
  | fuel + 1, h, self, attr, value =>
    match testAttr (invoke (fun hc c a v => find fuel hc c a v)
        (fun hc c a v => findOne fuel hc c a v) fuel) h self attr value with
    | none => none
    | some (Completion.normal h1 taken) =>
      (getChildren h self).foldl (findStep fun hc c => find fuel hc c attr value)
        (some (Completion.normal h1 (if taken then [self] else [])))
    | some Completion.typeError => some Completion.typeError
    | some Completion.outside => some Completion.outside

/-- Method `findOne` (lines 112-137); the result `none` inside is `null`. -/
def findOne : Nat → Heap R → Nat → String → Value → Option (Completion R (Option Nat))
  | 0, _, _, _, _ => none
  | fuel + 1, h, self, attr, value =>
    match testAttr (invoke (fun hc c a v => find fuel hc c a v)
        (fun hc c a v => findOne fuel hc c a v) fuel) h self attr value with
    | none => none
    | some (Completion.normal h1 taken) =>
      if taken then some (Completion.normal h1 (some self))
      else (getChildren h self).foldl (findOneStep fun hc c => findOne fuel hc c attr value)
        (some (Completion.normal h1 none))
    | some Completion.typeError => some Completion.typeError
    | some Completion.outside => some Completion.outside

end

end Find

end Defs

section SpecSide

variable {R : Type} [CommRing R]

/-- The 4x4 matrix a column-major array stands for. -/
def toMatrix (m : Mat4 R) : Matrix (Fin 4) (Fin 4) R := Matrix.of fun i j => m (idx i j)

/-- The spec's translation matrix `T(t)`. -/
def translationMatrix (t : Vec3 R) : Matrix (Fin 4) (Fin 4) R :=
  !![1, 0, 0, t 0;
     0, 1, 0, t 1;
     0, 0, 1, t 2;
     0, 0, 0, 1]

/-- The spec's scale matrix `S(s)`. -/
def scaleMatrix (s : Vec3 R) : Matrix (Fin 4) (Fin 4) R :=
  !![s 0, 0, 0, 0;
     0, s 1, 0, 0;
     0, 0, s 2, 0;
     0, 0, 0, 1]

/-- The spec's `R(q)`: the standard rotation matrix of the quaternion
`q = (x, y, z, w)`, whose row-1/column-0 entry is `2(xy + wz)`. -/
def rotationMatrix (q : Quat R) : Matrix (Fin 4) (Fin 4) R :=
  !![1 - 2 * (q 1 * q 1 + q 2 * q 2), 2 * (q 0 * q 1 - q 3 * q 2), 2 * (q 0 * q 2 + q 3 * q 1), 0;
     2 * (q 0 * q 1 + q 3 * q 2), 1 - 2 * (q 0 * q 0 + q 2 * q 2), 2 * (q 1 * q 2 - q 3 * q 0), 0;
     2 * (q 0 * q 2 - q 3 * q 1), 2 * (q 1 * q 2 + q 3 * q 0), 1 - 2 * (q 0 * q 0 + q 1 * q 1), 0;
     0, 0, 0, 1]

/-- The quaternion of Mathlib an array `[x, y, z, w]` stands for. -/
def toQuaternion (q : Quat R) : Quaternion R := ⟨q 3, q 0, q 1, q 2⟩

/-- The translation of a node on which `setLocalTranslation` was called with the
given scalars, or was not called (`none`). -/
def translationOf : Option (R × R × R) → Vec3 R
  | none => ![0, 0, 0]
  | some (x, y, z) => ![x, y, z]

/-- An optional call of `setLocalTranslation` on the node `n`. -/
def setTranslationOpt (h : Heap R) (n : Nat) : Option (R × R × R) → Heap R
  | none => h
  | some (x, y, z) => setLocalTranslation h n x y z

/-- The array of the translation matrix `T(t)`. -/
def translationArray (t : Vec3 R) : Mat4 R :=
  Mat4.ofEntries
    1 0 0 0
    0 1 0 0
    0 0 1 0
    (t 0) (t 1) (t 2) 1

/-- The dirty-flag invariant at the node `n`, in the words of the spec: the
local matrix is the composition of the TRS unless `dirtyLocal` is set; the world
matrix of a node without parent is its local matrix unless one of its flags is
set; the world matrix of a node with parent `p` is the world matrix of `p`
times its local matrix unless one of the four flags of the node and of `p` is
set. -/
def NodeInv (h : Heap R) (n : Nat) : Prop :=
  ((h n).dirtyLocal = false →
      (h n).ltm = localFromTRS (h n).translation (h n).rotation (h n).scale) ∧
    (match (h n).parent with
      | none => (h n).wtm = (h n).ltm ∨ (h n).dirtyLocal = true ∨ (h n).dirtyWorld = true
      | some p =>
        (h n).wtm = mat4Multiply (h p).wtm (h n).ltm ∨ (h n).dirtyLocal = true ∨
          (h n).dirtyWorld = true ∨ (h p).dirtyLocal = true ∨ (h p).dirtyWorld = true)

/-- The dirty-flag invariant on every node of the heap. -/
def DirtyInv (h : Heap R) : Prop := ∀ n, NodeInv h n

/-- The links of the heap are those of trees built by attaching: no node is its
own parent, and a node with a parent is among the children of that parent. -/
def LinksOk (h : Heap R) : Prop :=
  (∀ n, (h n).parent ≠ some n) ∧ ∀ m p, (h m).parent = some p → m ∈ (h p).children

/-- The nodes of the subtree of the forest rooted at `N`: `N` and its
descendants, in pre-order (empty when `N` is not in the forest). -/
def Forest.subtreeIds (N : Nat) : Forest → List Nat
  | Forest.nil => []
  | Forest.cons id kids rest =>
    if id = N then id :: kids.ids else kids.subtreeIds N ++ rest.subtreeIds N

/-- A call of one of the methods that write the TRS of a node, with its
arguments. -/
inductive TRSOp (R : Type) where
  | setTranslation (x y z : R)
  | setTranslationVec (pos : Vec3 R)
  | setRotation (q : Quat R)
  | setRotationEulers (x y z : R)
  | setScale (x y z : R)
  | setScaleVec (v : Vec3 R)
  | translate (x y z : R) (space : Option Space)
  | translateVec (v : Vec3 R) (space : Option Space)
  | rotate (x y z : R)

/-- The heap after a call of a TRS method on the node `n`. -/
def applyTRSOp (setFromEulers : R → R → R → Quat R) (h : Heap R) (n : Nat) :
    TRSOp R → Heap R
  | TRSOp.setTranslation x y z => setLocalTranslation h n x y z
  | TRSOp.setTranslationVec pos => setLocalTranslationVec h n pos
  | TRSOp.setRotation q => setLocalRotation h n q
  | TRSOp.setRotationEulers x y z => setLocalRotationEulers setFromEulers h n x y z
  | TRSOp.setScale x y z => setLocalScale h n x y z
  | TRSOp.setScaleVec v => setLocalScaleVec h n v
  | TRSOp.translate x y z space => translate h n x y z space
  | TRSOp.translateVec v space => translateVec h n v space
  | TRSOp.rotate x y z => rotate setFromEulers h n x y z


/-- The function-valued names of a node other than its getters: called without
arguments they throw, write to the graph, search it, or need an argument. -/
def nonGetters : List String :=
  ["_cloneInternal", "clone", "addGraphId", "removeGraphId", "find", "findOne",
   "findByName", "findByGraphId", "getRoot", "setParent", "setChildren",
   "setLocalTranslation", "setLocalRotation", "setLocalScale", "setLocalTransform",
   "setName", "addChild", "removeChild", "addLabel", "removeLabel", "findByLabel",
   "syncHierarchy", "sync", "lookAt", "translate", "rotate", "__defineGetter__",
   "__defineSetter__"]

/-- The attribute `attr` of the node `n` as a field: the value the field holds
(`none` when `attr` names no field). -/
def fieldOf (h : Heap R) (n : Nat) (attr : String) : Option Value :=
  if attr = "_name" then some (Value.string (h n).name)
  else if attr = "translation" then some (Value.slot n Slot.translation)
  else if attr = "rotation" then some (Value.slot n Slot.rotation)
  else if attr = "scale" then some (Value.slot n Slot.scale)
  else if attr = "dirtyLocal" then some (Value.bool (h n).dirtyLocal)
  else if attr = "dirtyWorld" then some (Value.bool (h n).dirtyWorld)
  else if attr = "_ltm" then some (Value.slot n Slot.ltm)
  else if attr = "_wtm" then some (Value.slot n Slot.wtm)
  else if attr = "_parent" then
    some (match (h n).parent with
      | none => Value.null
      | some p => Value.node p)
  else if attr = "_children" then some (Value.slot n Slot.children)
  else if attr = "_labels" then some (Value.slot n Slot.labels)
  else if attr = "_graphId" then
    some (match (h n).graphId with
      | none => Value.undefined
      | some (GraphId.num x) => Value.number x
      | some (GraphId.str s) => Value.string s)
  else if attr = "__proto__" then some Value.prototype
  else none

/-- The attribute `attr` of the node `n` as a getter: the value the call
without arguments returns (`none` when `attr` names no getter, or a getter that
returns a new object, which is identical to no value looked for). -/
def getterOf (h : Heap R) (n : Nat) (attr : String) : Option Value :=
  if attr = "getName" then some (Value.string (h n).name)
  else if attr = "getParent" then
    some (match (h n).parent with
      | none => Value.null
      | some p => Value.node p)
  else if attr = "getChildren" then some (Value.slot n Slot.children)
  else if attr = "getLocalTranslation" then some (Value.slot n Slot.translation)
  else if attr = "getLocalTransform" then some (Value.slot n Slot.ltm)
  else if attr = "getWorldTransform" then some (Value.slot n Slot.wtm)
  else if attr = "hasLabel" then
    some (Value.bool (decide ("undefined" ∈ (h n).labels)))
  else if attr = "toString" ∨ attr = "toLocaleString" then
    some (Value.string "[object Object]")
  else if attr = "valueOf" then some (Value.node n)
  else if attr = "hasOwnProperty" ∨ attr = "isPrototypeOf" ∨ attr = "propertyIsEnumerable" then
    some (Value.bool false)
  else if attr = "__lookupGetter__" ∨ attr = "__lookupSetter__" then some Value.undefined
  else none

/-- A node matches (`attr`, `value`): `attr` names a field of the node whose
value is truthy and identical to `value`, or a getter whose result is identical
to `value`. -/
def matchesAttr (h : Heap R) (n : Nat) (attr : String) (value : Value) : Bool :=
  (decide (fieldOf h n attr = some value) && truthy value)
    || decide (getterOf h n attr = some value)

/-- The names of the fields of a node, and `__proto__`. -/
def fieldNames : List String :=
  ["_name", "translation", "rotation", "scale", "dirtyLocal", "dirtyWorld", "_ltm", "_wtm",
   "_parent", "_children", "_labels", "_graphId", "__proto__"]

/-- The getters of a node: the functions that, called without arguments, return
a value and write nothing. -/
def getterNames : List String :=
  ["getParent", "getChildren", "getLocalTranslation", "getLocalTransform", "getName",
   "getWorldTransform", "getWorldTranslation", "getLabels", "hasLabel", "constructor",
   "toString", "toLocaleString", "valueOf", "hasOwnProperty", "isPrototypeOf",
   "propertyIsEnumerable", "__lookupGetter__", "__lookupSetter__"]

end SpecSide

section Lemmas

variable {R : Type} [CommRing R]

/-- A node is dirty when one of its two flags is set. -/
def GraphNode.dirty (a : GraphNode R) : Bool := a.dirtyLocal || a.dirtyWorld

/-- The world matrix `sync` writes for a node with local matrix `l` whose
parent (if any) has world matrix `pw` (lines 568-572). -/
def expectWorld (pw : Option (Mat4 R)) (l : Mat4 R) : Mat4 R :=
  match pw with
  | none => mat4Copy l
  | some w => mat4Multiply w l

/-- The record of `self` after `sync`. -/
def syncedSelf (h : Heap R) (self : Nat) : GraphNode R :=
  if (h self).dirty then
    { syncLocal (h self) with
      wtm := expectWorld ((h self).parent.map fun p => (h p).wtm) (syncLocal (h self)).ltm,
      dirtyWorld := false }
  else h self

/-- The local matrix is valid unless `dirtyLocal` is set. -/
def LocalOk (a : GraphNode R) : Prop :=
  a.dirtyLocal = false → a.ltm = localFromTRS a.translation a.rotation a.scale

/-- The dirty-flag invariant on the forest `f`, whose roots have a parent with
world matrix `pw` and dirtiness `pd`: every local matrix is valid unless its
node is flagged, and every world matrix is the one `sync` would write unless
the node or its parent is dirty. -/
def Inv (h : Heap R) (pw : Option (Mat4 R)) (pd : Bool) : Forest → Prop
  | Forest.nil => True
  | Forest.cons id kids rest =>
    LocalOk (h id) ∧
      ((h id).dirty = true ∨ pd = true ∨ (h id).wtm = expectWorld pw (h id).ltm) ∧
      Inv h (some (h id).wtm) (h id).dirty kids ∧ Inv h pw pd rest

/-- The record `b` may replace the record `a` without breaking the invariant:
a valid local matrix stays valid, and `b` is dirty or is as clean as `a` with
the same matrices. -/
def Stale (a b : GraphNode R) : Prop :=
  (LocalOk a → LocalOk b) ∧
    (b.dirty = true ∨ (a.dirty = false ∧ b.wtm = a.wtm ∧ b.ltm = a.ltm))

/-- The record `b` has the fields of `a` that `sync` never writes. -/
def SameFrame (a b : GraphNode R) : Prop :=
  b.name = a.name ∧ b.translation = a.translation ∧ b.rotation = a.rotation ∧
    b.scale = a.scale ∧ b.parent = a.parent ∧ b.children = a.children ∧
    b.labels = a.labels ∧ b.graphId = a.graphId

/-- The dirtiness of the parent `po`, `false` when there is none. -/
def parentDirty (h : Heap R) (po : Option Nat) : Bool :=
  match po with
  | none => false
  | some p => (h p).dirty

theorem stale_refl (a : GraphNode R) : Stale a a := by
  refine ⟨id, ?_⟩
  cases hd : a.dirty
  · exact Or.inr ⟨rfl, rfl, rfl⟩
  · exact Or.inl rfl

theorem stale_of_eq {a b : GraphNode R} (hab : b = a) : Stale a b := by
  subst hab; exact stale_refl b

theorem stale_mark (a : GraphNode R) : Stale a { a with dirtyWorld := true } := by
  refine ⟨fun hl => hl, Or.inl ?_⟩
  simp [GraphNode.dirty]

theorem sameFrame_refl (a : GraphNode R) : SameFrame a a :=
  ⟨rfl, rfl, rfl, rfl, rfl, rfl, rfl, rfl⟩

theorem sameFrame_of_eq {a b : GraphNode R} (hab : b = a) : SameFrame a b := by
  subst hab; exact sameFrame_refl b

theorem sameFrame_trans {a b c : GraphNode R} (hab : SameFrame a b) (hbc : SameFrame b c) :
    SameFrame a c := by
  obtain ⟨h1, h2, h3, h4, h5, h6, h7, h8⟩ := hab
  obtain ⟨g1, g2, g3, g4, g5, g6, g7, g8⟩ := hbc
  exact ⟨g1.trans h1, g2.trans h2, g3.trans h3, g4.trans h4, g5.trans h5, g6.trans h6,
    g7.trans h7, g8.trans h8⟩

theorem sameFrame_mark (a : GraphNode R) : SameFrame a { a with dirtyWorld := true } :=
  ⟨rfl, rfl, rfl, rfl, rfl, rfl, rfl, rfl⟩

theorem roots_subset_ids (f : Forest) : ∀ n, n ∈ f.roots → n ∈ f.ids := by
  induction f with
  | nil => intro n hn; simp [Forest.roots] at hn
  | cons id kids rest _ ihr =>
    intro n hn
    simp only [Forest.roots, List.mem_cons] at hn
    simp only [Forest.ids, List.mem_cons, List.mem_append]
    rcases hn with hn | hn
    · exact Or.inl hn
    · exact Or.inr (Or.inr (ihr n hn))

theorem inv_transfer (f : Forest) :
    ∀ (h g : Heap R) (pw pw' : Option (Mat4 R)) (pd pd' : Bool),
      (∀ n, n ∈ f.ids → Stale (h n) (g n)) →
      (pd' = true ∨ (pd = false ∧ pw' = pw) ∨ ∀ k, k ∈ f.roots → (g k).dirty = true) →
      Inv h pw pd f → Inv g pw' pd' f := by
  induction f with
  | nil => intro h g pw pw' pd pd' _ _ _; trivial
  | cons id kids rest ihk ihr =>
    intro h g pw pw' pd pd' hst hcond hinv
    obtain ⟨hl, hw, hkids, hrest⟩ := hinv
    have hid : Stale (h id) (g id) := hst id (by simp [Forest.ids])
    refine ⟨hid.1 hl, ?_, ?_, ?_⟩
    · rcases hid.2 with hd | ⟨hclean, hwtm, hltm⟩
      · exact Or.inl hd
      · rcases hcond with hc | ⟨hpd, hpw⟩ | hc
        · exact Or.inr (Or.inl hc)
        · rcases hw with hw | hw | hw
          · rw [hclean] at hw; exact Bool.noConfusion hw
          · rw [hpd] at hw; exact Bool.noConfusion hw
          · exact Or.inr (Or.inr (by rw [hwtm, hltm, hpw]; exact hw))
        · exact Or.inl (hc id (by simp [Forest.roots]))
    · apply ihk h g _ _ _ _ (fun n hn => hst n (by simp [Forest.ids, hn])) _ hkids
      rcases hid.2 with hd | ⟨hclean, hwtm, _⟩
      · exact Or.inl hd
      · exact Or.inr (Or.inl ⟨hclean, by rw [hwtm]⟩)
    · apply ihr h g _ _ _ _ (fun n hn => hst n (by simp [Forest.ids, hn])) _ hrest
      rcases hcond with hc | hc | hc
      · exact Or.inl hc
      · exact Or.inr (Or.inl hc)
      · exact Or.inr (Or.inr (fun k hk => hc k (by simp [Forest.roots, hk])))

theorem sameFrame_links {a b : GraphNode R} (hab : SameFrame a b) :
    b.parent = a.parent ∧ b.children = a.children :=
  ⟨hab.2.2.2.2.1, hab.2.2.2.2.2.1⟩

theorem shaped_congr (f : Forest) :
    ∀ (h g : Heap R) (po : Option Nat),
      (∀ n, n ∈ f.ids → (g n).parent = (h n).parent ∧ (g n).children = (h n).children) →
      Shaped h po f → Shaped g po f := by
  induction f with
  | nil => intro h g po _ _; trivial
  | cons id kids rest ihk ihr =>
    intro h g po hsf hsh
    obtain ⟨hp, hc, hkids, hrest⟩ := hsh
    obtain ⟨hpar, hch⟩ := hsf id (by simp [Forest.ids])
    exact ⟨hpar.trans hp, hch.trans hc,
      ihk h g _ (fun n hn => hsf n (by simp [Forest.ids, hn])) hkids,
      ihr h g _ (fun n hn => hsf n (by simp [Forest.ids, hn])) hrest⟩

theorem inv_localOk (f : Forest) :
    ∀ (h : Heap R) (pw : Option (Mat4 R)) (pd : Bool), Inv h pw pd f →
      ∀ n, n ∈ f.ids → LocalOk (h n) := by
  induction f with
  | nil => intro h pw pd _ n hn; simp [Forest.ids] at hn
  | cons id kids rest ihk ihr =>
    intro h pw pd hinv n hn
    obtain ⟨hl, _, hk, hr⟩ := hinv
    simp only [Forest.ids, List.mem_cons, List.mem_append] at hn
    rcases hn with hn | hn | hn
    · rw [hn]; exact hl
    · exact ihk h _ _ hk n hn
    · exact ihr h _ _ hr n hn

theorem world_along (f : Forest) :
    ∀ (h : Heap R) (root p k : Nat),
      ancestor h k p = some root → (h p).wtm = worldAlong h k p →
      Shaped h (some p) f → Inv h (some (h p).wtm) false f →
      (∀ n, n ∈ f.ids → (h n).dirty = false) →
      ∀ n, n ∈ f.ids → ∃ j, ancestor h j n = some root ∧ (h n).wtm = worldAlong h j n := by
  induction f with
  | nil => intro h root p k _ _ _ _ _ n hn; simp [Forest.ids] at hn
  | cons id kids rest ihk ihr =>
    intro h root p k hanc hwp hsh hinv hclean n hn
    obtain ⟨hpar, _, hshk, hshr⟩ := hsh
    obtain ⟨_, hw, hinvk, hinvr⟩ := hinv
    have hcid : (h id).dirty = false := hclean id (by simp [Forest.ids])
    have hwid : (h id).wtm = mat4Multiply (h p).wtm (h id).ltm := by
      rcases hw with hw | hw | hw
      · rw [hcid] at hw; exact Bool.noConfusion hw
      · exact Bool.noConfusion hw
      · exact hw
    have hancid : ancestor h (k + 1) id = some root := by
      simp only [ancestor, hpar]
      exact hanc
    have hwaid : (h id).wtm = worldAlong h (k + 1) id := by
      simp only [worldAlong, hpar]
      rw [← hwp]
      exact hwid
    simp only [Forest.ids, List.mem_cons, List.mem_append] at hn
    rcases hn with hn | hn | hn
    · rw [hn]; exact ⟨k + 1, hancid, hwaid⟩
    · rw [hcid] at hinvk
      exact ihk h root id (k + 1) hancid hwaid hshk hinvk
        (fun m hm => hclean m (by simp [Forest.ids, hm])) n hn
    · exact ihr h root p k hanc hwp hshr hinvr
        (fun m hm => hclean m (by simp [Forest.ids, hm])) n hn

theorem inv_of_synced (f : Forest) :
    ∀ (h : Heap R) (pw : Option (Mat4 R)), Synced h pw f →
      Inv h pw false f ∧ ∀ n, n ∈ f.ids → (h n).dirty = false := by
  induction f with
  | nil =>
    intro h pw _
    exact ⟨trivial, fun n hn => by simp [Forest.ids] at hn⟩
  | cons id kids rest ihk ihr =>
    intro h pw hs
    obtain ⟨hdl, hdw, hltm, hwtm, hkids, hrest⟩ := hs
    have hclean : (h id).dirty = false := by simp [GraphNode.dirty, hdl, hdw]
    obtain ⟨ik, ck⟩ := ihk h _ hkids
    obtain ⟨ir, cr⟩ := ihr h _ hrest
    refine ⟨⟨fun _ => hltm, Or.inr (Or.inr ?_), ?_, ir⟩, ?_⟩
    · rw [hwtm]
      cases pw <;> rfl
    · rw [hclean]; exact ik
    · intro n hn
      simp only [Forest.ids, List.mem_cons, List.mem_append] at hn
      rcases hn with hn | hn | hn
      · rw [hn]; exact hclean
      · exact ck n hn
      · exact cr n hn

theorem markChildren_apply (cs : List Nat) (h : Heap R) (n : Nat) :
    markChildren h cs n = if n ∈ cs then { h n with dirtyWorld := true } else h n := by
  induction cs generalizing h with
  | nil => simp [markChildren]
  | cons c cs ih =>
    have hstep : markChildren h (c :: cs)
        = markChildren (Function.update h c { h c with dirtyWorld := true }) cs := rfl
    rw [hstep, ih]
    by_cases hnc : n = c
    · subst hnc
      by_cases hm : n ∈ cs <;> simp [hm]
    · by_cases hm : n ∈ cs <;> simp [hm, hnc, Function.update_noteq hnc]

theorem syncLocal_wtm (a : GraphNode R) : (syncLocal a).wtm = a.wtm := by
  unfold syncLocal; split <;> rfl

theorem syncLocal_parent (a : GraphNode R) : (syncLocal a).parent = a.parent := by
  unfold syncLocal; split <;> rfl

theorem syncLocal_children (a : GraphNode R) : (syncLocal a).children = a.children := by
  unfold syncLocal; split <;> rfl

theorem syncLocal_dirtyLocal (a : GraphNode R) : (syncLocal a).dirtyLocal = false := by
  unfold syncLocal; split
  · rfl
  · simp_all

theorem syncLocal_dirtyWorld (a : GraphNode R) : (syncLocal a).dirtyWorld = a.dirty := by
  unfold syncLocal GraphNode.dirty; split
  · simp_all
  · simp_all

theorem sync_self (h : Heap R) (self : Nat) : sync h self self = syncedSelf h self := by
  have hw : ∀ p, (Function.update h self (syncLocal (h self)) p).wtm = (h p).wtm := by
    intro p
    by_cases hp : p = self
    · subst hp; simp [syncLocal_wtm]
    · simp [Function.update_noteq hp]
  unfold sync syncedSelf
  simp only [Function.update_same, syncLocal_dirtyWorld, syncLocal_parent]
  by_cases hd : (h self).dirty = true
  · simp only [hd, if_true, markChildren_apply, Function.update_same]
    by_cases hm : self ∈ (syncLocal (h self)).children
    · cases hp : (h self).parent with
      | none => simp [expectWorld, hm]
      | some p => simp [expectWorld, hw, hm]
    · cases hp : (h self).parent with
      | none => simp [expectWorld, hm]
      | some p => simp [expectWorld, hw, hm]
  · have hl : (h self).dirtyLocal = false := by
      simp [GraphNode.dirty] at hd; exact hd.1
    simp [hd, syncLocal, hl]

theorem sync_of_ne (h : Heap R) (self n : Nat) (hn : n ≠ self) :
    sync h self n
      = if (h self).dirty = true ∧ n ∈ (h self).children
        then { h n with dirtyWorld := true } else h n := by
  unfold sync
  simp only [Function.update_same, syncLocal_dirtyWorld, syncLocal_children]
  by_cases hd : (h self).dirty = true
  · simp only [hd, if_true, true_and]
    rw [Function.update_noteq hn, markChildren_apply]
    simp [Function.update_noteq hn]
  · simp [hd, Function.update_noteq hn]

theorem syncedSelf_flags (h : Heap R) (self : Nat) :
    (syncedSelf h self).dirtyLocal = false ∧ (syncedSelf h self).dirtyWorld = false := by
  unfold syncedSelf
  by_cases hd : (h self).dirty = true
  · simp [hd, syncLocal_dirtyLocal]
  · simp [GraphNode.dirty] at hd
    simp [GraphNode.dirty, hd]

theorem sync_clean (h : Heap R) (self : Nat) (hl : (h self).dirtyLocal = false)
    (hw : (h self).dirtyWorld = false) : sync h self = h := by
  unfold sync
  simp [syncLocal, hl, hw]

theorem sync_sameFrame (h : Heap R) (self n : Nat) : SameFrame (h n) (sync h self n) := by
  by_cases hn : n = self
  · subst hn
    rw [sync_self]
    unfold syncedSelf
    by_cases hd : (h n).dirty = true
    · rw [if_pos hd]
      unfold syncLocal
      by_cases hl : (h n).dirtyLocal = true
      · rw [if_pos hl]; exact ⟨rfl, rfl, rfl, rfl, rfl, rfl, rfl, rfl⟩
      · rw [if_neg hl]; exact ⟨rfl, rfl, rfl, rfl, rfl, rfl, rfl, rfl⟩
    · rw [if_neg hd]; exact sameFrame_refl _
  · rw [sync_of_ne h self n hn]
    split
    · exact sameFrame_mark _
    · exact sameFrame_refl _

theorem sync_frame (h : Heap R) (self n : Nat) (hn : n ≠ self)
    (hc : n ∉ (h self).children) : sync h self n = h n := by
  rw [sync_of_ne h self n hn, if_neg (fun hh => hc hh.2)]

theorem sync_stale_of_ne (h : Heap R) (self n : Nat) (hn : n ≠ self) :
    Stale (h n) (sync h self n) := by
  rw [sync_of_ne h self n hn]
  split
  · exact stale_mark _
  · exact stale_refl _

theorem sync_child_dirty (h : Heap R) (self n : Nat) (hd : (h self).dirty = true)
    (hn : n ≠ self) (hc : n ∈ (h self).children) : (sync h self n).dirty = true := by
  rw [sync_of_ne h self n hn, if_pos ⟨hd, hc⟩]
  simp [GraphNode.dirty]

theorem sync_not_dirty (h : Heap R) (self : Nat) (hd : (h self).dirty = false) :
    sync h self = h := by
  simp only [GraphNode.dirty, Bool.or_eq_false_iff] at hd
  exact sync_clean h self hd.1 hd.2

theorem sync_self_post (h : Heap R) (self : Nat) (hl : LocalOk (h self))
    (hw : (h self).dirty = true ∨
      (h self).wtm = expectWorld ((h self).parent.map fun p => (h p).wtm) (h self).ltm) :
    (sync h self self).dirty = false ∧ LocalOk (sync h self self) ∧
      (sync h self self).wtm
        = expectWorld ((h self).parent.map fun p => (h p).wtm) (sync h self self).ltm := by
  rw [sync_self]
  unfold syncedSelf
  by_cases hd : (h self).dirty = true
  · rw [if_pos hd]
    refine ⟨by simp [GraphNode.dirty, syncLocal_dirtyLocal], ?_, rfl⟩
    intro _
    show (syncLocal (h self)).ltm = localFromTRS (syncLocal (h self)).translation
      (syncLocal (h self)).rotation (syncLocal (h self)).scale
    unfold syncLocal
    by_cases hdl : (h self).dirtyLocal = true
    · simp [hdl]
    · simp only [hdl]
      exact hl (by simpa using hdl)
  · rw [if_neg hd]
    have hclean : (h self).dirty = false := by simpa using hd
    refine ⟨hclean, hl, ?_⟩
    rcases hw with hw | hw
    · exact absurd hw hd
    · exact hw

theorem syncHierarchy_succ (fuel : Nat) (h : Heap R) (self : Nat) :
    syncHierarchy (fuel + 1) h self
      = (sync h self self).children.foldlM (fun acc c => syncHierarchy fuel acc c)
          (sync h self) := rfl

theorem syncHierarchy_fuel_mono (fuel : Nat) :
    ∀ (h g : Heap R) (self : Nat), syncHierarchy fuel h self = some g →
      syncHierarchy (fuel + 1) h self = some g := by
  induction fuel with
  | zero => intro h g self hs; exact Option.noConfusion hs
  | succ fuel ih =>
    intro h g self hs
    rw [syncHierarchy_succ] at hs ⊢
    generalize (sync h self self).children = cs at hs ⊢
    generalize sync h self = h1 at hs ⊢
    induction cs generalizing h1 with
    | nil => exact hs
    | cons c cs ihc =>
      rw [List.foldlM_cons] at hs ⊢
      cases hc : syncHierarchy fuel h1 c with
      | none => rw [hc] at hs; exact Option.noConfusion hs
      | some h2 =>
        rw [hc] at hs
        rw [ih h1 h2 c hc]
        exact ihc h2 hs

theorem syncForest (f : Forest) :
    ∀ (h : Heap R) (po : Option Nat) (fuel : Nat),
      f.height ≤ fuel → Shaped h po f → f.ids.Nodup →
      (∀ p, po = some p → p ∉ f.ids) →
      (∀ p, po = some p → (h p).dirty = false) →
      Inv h (po.map fun p => (h p).wtm) false f →
      ∃ g, f.roots.foldlM (fun acc c => syncHierarchy fuel acc c) h = some g ∧
        (∀ n, n ∉ f.ids → g n = h n) ∧
        (∀ n, n ∈ f.ids → SameFrame (h n) (g n)) ∧
        (∀ n, n ∈ f.ids → (g n).dirty = false) ∧
        Inv g (po.map fun p => (h p).wtm) false f := by
  induction f with
  | nil =>
    intro h po fuel _ _ _ _ _ _
    exact ⟨h, rfl, fun _ _ => rfl, fun n hn => by simp [Forest.ids] at hn,
      fun n hn => by simp [Forest.ids] at hn, trivial⟩
  | cons id kids rest ihk ihr =>
    intro h po fuel hfuel hsh hnd hpo hpc hinv
    obtain ⟨hpar, hch, hshk, hshr⟩ := hsh
    obtain ⟨hl, hw, hinvk, hinvr⟩ := hinv
    -- the nodes of the three parts are pairwise different
    have hnd' := List.nodup_cons.mp hnd
    have hidk : id ∉ kids.ids := fun hm => hnd'.1 (List.mem_append_left _ hm)
    have hidr : id ∉ rest.ids := fun hm => hnd'.1 (List.mem_append_right _ hm)
    have hndk : kids.ids.Nodup := (List.nodup_append.mp hnd'.2).1
    have hndr : rest.ids.Nodup := (List.nodup_append.mp hnd'.2).2.1
    have hdisj : ∀ n, n ∈ kids.ids → n ∉ rest.ids :=
      fun n hk hr => (List.nodup_append.mp hnd'.2).2.2 hk hr
    have hpid : ∀ p, po = some p → p ≠ id ∧ p ∉ kids.ids ∧ p ∉ rest.ids := by
      intro p hp
      have := hpo p hp
      simp only [Forest.ids, List.mem_cons, List.mem_append, not_or] at this
      exact this
    -- fuel
    have hheight : kids.height + 1 ≤ fuel ∧ rest.height ≤ fuel := by
      simp only [Forest.height] at hfuel
      omega
    obtain ⟨fuel', hfuel'⟩ : ∃ k, fuel = k + 1 := ⟨fuel - 1, by omega⟩
    -- step 1: `sync` on the root of the first tree
    have hpw : (h id).parent.map (fun p => (h p).wtm) = po.map (fun p => (h p).wtm) := by
      rw [hpar]
    have hpost := sync_self_post h id hl (by
      rcases hw with hw | hw | hw
      · exact Or.inl hw
      · exact Bool.noConfusion hw
      · exact Or.inr (by rw [hpw]; exact hw))
    rw [hpw] at hpost
    obtain ⟨hclean1, hl1, hw1⟩ := hpost
    have hframe1 : ∀ n, n ≠ id → n ∉ kids.ids → sync h id n = h n := by
      intro n hn hk
      apply sync_frame h id n hn
      rw [hch]
      exact fun hm => hk (roots_subset_ids kids n hm)
    have hinv1 : Inv (sync h id) (some (sync h id id).wtm) false kids := by
      apply inv_transfer kids h (sync h id) _ _ _ _ _ _ hinvk
      · intro n hn
        exact sync_stale_of_ne h id n (fun hh => hidk (hh ▸ hn))
      · cases hd : (h id).dirty with
        | false =>
          right; left
          exact ⟨rfl, by rw [sync_not_dirty h id hd]⟩
        | true =>
          right; right
          intro k hk
          have hkid : k ≠ id := fun hh => hidk (hh ▸ roots_subset_ids kids k hk)
          exact sync_child_dirty h id k hd hkid (by rw [hch]; exact hk)
    have hsh1 : Shaped (sync h id) (some id) kids :=
      shaped_congr kids h (sync h id) _
        (fun n _ => sameFrame_links (sync_sameFrame h id n)) hshk
    -- step 2: the children of the root
    obtain ⟨h2, hrun2, hframe2, hsame2, hclean2, hinv2⟩ :=
      ihk (sync h id) (some id) fuel' (by omega) hsh1 hndk
        (fun p hp => by cases hp; exact hidk)
        (fun p hp => by cases hp; exact hclean1)
        hinv1
    have hstep : syncHierarchy fuel h id = some h2 := by
      rw [hfuel', syncHierarchy_succ, (sync_sameFrame h id id).2.2.2.2.2.1, hch]
      exact hrun2
    have h2id : h2 id = sync h id id := hframe2 id hidk
    have h2rest : ∀ n, n ∈ rest.ids → h2 n = h n := by
      intro n hn
      have hnk : n ∉ kids.ids := fun hk => hdisj n hk hn
      have hnid : n ≠ id := fun hh => hidr (hh ▸ hn)
      rw [hframe2 n hnk, hframe1 n hnid hnk]
    have h2par : ∀ p, po = some p → h2 p = h p := by
      intro p hp
      obtain ⟨hp1, hp2, _⟩ := hpid p hp
      rw [hframe2 p hp2, hframe1 p hp1 hp2]
    have hpw2 : po.map (fun p => (h2 p).wtm) = po.map (fun p => (h p).wtm) := by
      cases po with
      | none => rfl
      | some p => simp [h2par p rfl]
    -- step 3: the next siblings
    obtain ⟨h3, hrun3, hframe3, hsame3, hclean3, hinv3⟩ :=
      ihr h2 po fuel hheight.2
        (shaped_congr rest h h2 _
          (fun n hn => sameFrame_links (sameFrame_of_eq (h2rest n hn))) hshr)
        hndr
        (fun p hp => (hpid p hp).2.2)
        (fun p hp => by rw [h2par p hp]; exact hpc p hp)
        (by
          rw [hpw2]
          exact inv_transfer rest h h2 _ _ _ _
            (fun n hn => stale_of_eq (h2rest n hn)) (Or.inr (Or.inl ⟨rfl, rfl⟩)) hinvr)
    rw [hpw2] at hinv3
    have h3id : h3 id = sync h id id := by rw [hframe3 id hidr, h2id]
    have h3kids : ∀ n, n ∈ kids.ids → h3 n = h2 n :=
      fun n hn => hframe3 n (hdisj n hn)
    refine ⟨h3, ?_, ?_, ?_, ?_, ?_⟩
    · show (id :: rest.roots).foldlM (fun acc c => syncHierarchy fuel acc c) h = some h3
      rw [List.foldlM_cons, hstep]
      exact hrun3
    · intro n hn
      simp only [Forest.ids, List.mem_cons, List.mem_append, not_or] at hn
      rw [hframe3 n hn.2.2, hframe2 n hn.2.1, hframe1 n hn.1 hn.2.1]
    · intro n hn
      simp only [Forest.ids, List.mem_cons, List.mem_append] at hn
      rcases hn with hn | hn | hn
      · rw [hn, h3id]; exact sync_sameFrame h id id
      · rw [h3kids n hn]
        exact sameFrame_trans (sync_sameFrame h id n) (hsame2 n hn)
      · have := hsame3 n hn
        rw [h2rest n hn] at this
        exact this
    · intro n hn
      simp only [Forest.ids, List.mem_cons, List.mem_append] at hn
      rcases hn with hn | hn | hn
      · rw [hn, h3id]; exact hclean1
      · rw [h3kids n hn]; exact hclean2 n hn
      · exact hclean3 n hn
    · refine ⟨?_, ?_, ?_, hinv3⟩
      · rw [h3id]; exact hl1
      · rw [h3id]; exact Or.inr (Or.inr hw1)
      · rw [h3id, hclean1]
        exact inv_transfer kids h2 h3 _ _ _ _
          (fun n hn => stale_of_eq (h3kids n hn)) (Or.inr (Or.inl ⟨rfl, rfl⟩)) hinv2

theorem removeChildLoop_eq (child : Nat) (cs : List Nat) (n i : Nat)
    (hlen : i + n = cs.length) (hpre : child ∉ cs.take i) :
    removeChildLoop child cs n i = cs.take i ++ (cs.drop i).erase child := by
  induction n generalizing i with
  | zero =>
    have hi : i = cs.length := by omega
    subst hi
    simp [removeChildLoop]
  | succ n ih =>
    have hi : i < cs.length := by omega
    have hget : cs[i]? = some cs[i] := (List.getElem?_eq_some_getElem_iff cs i hi).mpr trivial
    have hdrop : cs.drop i = cs[i] :: cs.drop (i + 1) := List.drop_eq_getElem_cons hi
    have htake : cs.take (i + 1) = cs.take i ++ [cs[i]] := (List.take_concat_get' cs i hi).symm
    unfold removeChildLoop
    by_cases hc : cs[i] = child
    · rw [if_pos (by rw [hget, hc]), hdrop, hc, List.erase_cons_head]
      exact List.eraseIdx_eq_take_drop_succ cs i
    · rw [if_neg (by rw [hget]; intro hh; exact hc (Option.some.inj hh))]
      rw [ih (i + 1) (by omega) (by
        rw [htake]; intro hmem
        rcases List.mem_append.mp hmem with hm | hm
        · exact hpre hm
        · exact hc (List.mem_singleton.mp hm).symm)]
      rw [htake, hdrop, List.erase_cons_tail (by simpa using hc), List.append_assoc]
      rfl

theorem removeChildLoop_erase (child : Nat) (cs : List Nat) :
    removeChildLoop child cs cs.length 0 = cs.erase child := by
  rw [removeChildLoop_eq child cs cs.length 0 (by omega) (by simp)]
  simp

theorem removeChild_children (h : Heap R) (self child : Nat) :
    (removeChild h self child self).children = (h self).children.erase child := by
  have hc : (setParent h child none self).children = (h self).children := by
    unfold setParent
    by_cases hs : self = child
    · subst hs; simp
    · simp [Function.update_noteq hs]
  unfold removeChild
  simp only [Function.update_same, hc]
  exact removeChildLoop_erase child _

theorem removeChild_parent (h : Heap R) (self child n : Nat) :
    (removeChild h self child n).parent = if n = child then none else (h n).parent := by
  unfold removeChild setParent
  by_cases hs : n = self
  · subst hs
    by_cases hc : n = child
    · subst hc; simp
    · simp [hc, Function.update_noteq hc]
  · by_cases hc : n = child
    · subst hc; simp [Function.update_noteq hs]
    · simp [hc, Function.update_noteq hc, Function.update_noteq hs]

theorem addChild_error (h : Heap R) (self node : Nat) :
    (addChild h self node).error
      = if (h node).parent = none then none else some GraphError.alreadyParented := by
  unfold addChild getParent
  by_cases hp : (h node).parent = none <;> simp [hp]

theorem addChild_heap_of_parented (h : Heap R) (self node : Nat)
    (hp : (h node).parent ≠ none) : (addChild h self node).heap = h := by
  unfold addChild getParent
  simp [hp]

theorem addChild_heap_of_free (h : Heap R) (self node : Nat)
    (hp : (h node).parent = none) :
    (addChild h self node).heap
      = setParent (Function.update h self
          { h self with children := (h self).children ++ [node] }) node (some self) := by
  unfold addChild getParent
  simp [hp]

theorem toMatrix_mat4Multiply (a b : Mat4 R) :
    toMatrix (mat4Multiply a b) = toMatrix a * toMatrix b := by
  ext i j
  fin_cases i <;> fin_cases j <;>
    simp [toMatrix, mat4Multiply, idx, Matrix.mul_apply, Fin.sum_univ_four] <;> rfl

theorem toMatrix_apply (m : Mat4 R) (i j : Fin 4) : toMatrix m i j = m (idx i j) := rfl

theorem toMatrix_localFromTRS (t : Vec3 R) (q : Quat R) (s : Vec3 R) :
    toMatrix (localFromTRS t q s)
      = translationMatrix t * (rotationMatrix q).transpose * scaleMatrix s := by
  ext i j
  simp only [Matrix.mul_apply, Fin.sum_univ_four, Matrix.transpose_apply]
  fin_cases i <;> fin_cases j <;>
    simp [toMatrix_apply, localFromTRS, idx, Mat4.ofEntries, translationMatrix,
      rotationMatrix, scaleMatrix, Matrix.vecHead, Matrix.vecTail] <;> ring

theorem sync_ltm_of_dirtyLocal (h : Heap R) (self : Nat) (hd : (h self).dirtyLocal = true) :
    (sync h self self).ltm
      = localFromTRS (h self).translation (h self).rotation (h self).scale := by
  rw [sync_self]
  simp [syncedSelf, GraphNode.dirty, syncLocal, hd]

theorem addChild_parent (h : Heap R) (self node n : Nat) (hp : (h node).parent = none) :
    ((addChild h self node).heap n).parent = if n = node then some self else (h n).parent := by
  rw [addChild_heap_of_free h self node hp]
  unfold setParent
  by_cases hn : n = node
  · subst hn; simp
  · by_cases hs : n = self
    · subst hs; simp [hn, Function.update_noteq hn]
    · simp [hn, Function.update_noteq hn, Function.update_noteq hs]

theorem addChild_children (h : Heap R) (self node n : Nat) (hp : (h node).parent = none) :
    ((addChild h self node).heap n).children
      = if n = self then (h self).children ++ [node] else (h n).children := by
  rw [addChild_heap_of_free h self node hp]
  unfold setParent
  by_cases hn : n = node
  · subst hn
    by_cases hs : n = self
    · subst hs; simp
    · simp [hs, Function.update_noteq hs]
  · by_cases hs : n = self
    · subst hs; simp [Function.update_noteq hn]
    · simp [hs, Function.update_noteq hn, Function.update_noteq hs]

theorem removeChild_children_of_ne (h : Heap R) (self child n : Nat) (hn : n ≠ self) :
    (removeChild h self child n).children = (h n).children := by
  unfold removeChild setParent
  by_cases hc : n = child
  · subst hc; simp [Function.update_noteq hn]
  · simp [Function.update_noteq hn, Function.update_noteq hc]

theorem consistent_fresh : Consistent (freshHeap : Heap R) := by
  constructor
  · intro p c; simp [freshHeap, GraphNode.create]
  · intro p; simp [freshHeap, GraphNode.create]

theorem consistent_addChild (h : Heap R) (p c : Nat) (hc : Consistent h) :
    Consistent (addChild h p c).heap := by
  by_cases hp : (h c).parent = none
  · have hcp : c ∉ (h p).children := by
      intro hm
      have := (hc.1 p c).mp hm
      rw [hp] at this
      exact Option.noConfusion this
    constructor
    · intro q x
      rw [addChild_parent h p c x hp, addChild_children h p c q hp]
      by_cases hq : q = p
      · subst hq
        by_cases hx : x = c
        · subst hx; simp
        · simp [hx, hc.1 q x]
      · by_cases hx : x = c
        · subst hx
          have hnq : x ∉ (h q).children := by
            intro hm
            have := (hc.1 q x).mp hm
            rw [hp] at this
            exact Option.noConfusion this
          simp [hq, hnq]
          exact fun hh => hq hh.symm
        · simp [hq, hx, hc.1 q x]
    · intro q
      rw [addChild_children h p c q hp]
      by_cases hq : q = p
      · subst hq
        simp only [if_true]
        exact List.Nodup.append (hc.2 q) (List.nodup_singleton c)
          (by
            intro a ha hb
            rw [List.mem_singleton] at hb
            subst hb
            exact hcp ha)
      · simp [hq, hc.2 q]
  · rw [addChild_heap_of_parented h p c hp]
    exact hc

theorem consistent_removeChild (h : Heap R) (p c : Nat) (hc : Consistent h)
    (hown : (h c).parent = some p ∨ (h c).parent = none) :
    Consistent (removeChild h p c) := by
  have hchildren : ∀ q, (removeChild h p c q).children
      = if q = p then (h p).children.erase c else (h q).children := by
    intro q
    by_cases hq : q = p
    · subst hq; simp [removeChild_children]
    · simp [hq, removeChild_children_of_ne h p c q hq]
  constructor
  · intro q x
    rw [removeChild_parent, hchildren]
    by_cases hx : x = c
    · subst hx
      by_cases hq : q = p
      · subst hq
        simp [(hc.2 q).mem_erase_iff]
      · have hnq : x ∉ (h q).children := by
          intro hm
          have hpar := (hc.1 q x).mp hm
          rcases hown with ho | ho
          · rw [ho] at hpar
            exact hq (Option.some.inj hpar).symm
          · rw [ho] at hpar
            exact Option.noConfusion hpar
        simp [hq, hnq]
    · by_cases hq : q = p
      · subst hq
        simp [hx, List.mem_erase_of_ne hx, hc.1 q x]
      · simp [hx, hq, hc.1 q x]
  · intro q
    rw [hchildren]
    by_cases hq : q = p
    · subst hq
      simp only [if_true]
      exact (hc.2 q).erase c
    · simp [hq, hc.2 q]

theorem consistent_runOps (ops : List TreeOp) (h : Heap R) (hc : Consistent h)
    (hown : detachesOwn h ops) : Consistent (runOps h ops) := by
  induction ops generalizing h with
  | nil => exact hc
  | cons op ops ih =>
    cases op with
    | attach p c => exact ih _ (consistent_addChild h p c hc) hown
    | detach p c => exact ih _ (consistent_removeChild h p c hc hown.1) hown.2

theorem ancestor_add (h : Heap R) (a b n : Nat) :
    ancestor h (a + b) n = (ancestor h a n).bind (ancestor h b) := by
  induction a generalizing n with
  | zero => simp [ancestor]
  | succ a ih =>
    have hs : a + 1 + b = (a + b) + 1 := by omega
    rw [hs]
    simp only [ancestor]
    cases hp : (h n).parent with
    | none => simp
    | some p => simpa using ih p

theorem grounded_no_cycle (h : Heap R) (hg : Grounded h) (n k : Nat) (hk : 0 < k) :
    ancestor h k n ≠ some n := by
  intro hcyc
  obtain ⟨m, hm⟩ := hg n
  induction m using Nat.strong_induction_on with
  | _ m ih =>
    by_cases hlt : m < k
    · have hsplit : ancestor h k n = (ancestor h m n).bind (ancestor h (k - m)) := by
        rw [← ancestor_add]; congr 1; omega
      rw [hm] at hsplit
      rw [hcyc] at hsplit
      exact Option.noConfusion hsplit
    · have hsplit : ancestor h m n = (ancestor h k n).bind (ancestor h (m - k)) := by
        rw [← ancestor_add]; congr 1; omega
      rw [hcyc, hm] at hsplit
      exact ih (m - k) (by omega) hsplit.symm

theorem getRootLoop_of_ancestor (h : Heap R) (k n : Nat) (hk : ancestor h (k + 1) n = none) :
    ∃ r, getRootLoop (k + 1) h n = some r := by
  induction k generalizing n with
  | zero =>
    unfold ancestor at hk
    unfold getRootLoop getParent
    cases hp : (h n).parent with
    | none => exact ⟨n, rfl⟩
    | some p => rw [hp] at hk; simp [ancestor] at hk
  | succ k ih =>
    unfold ancestor at hk
    unfold getRootLoop getParent
    cases hp : (h n).parent with
    | none => exact ⟨n, rfl⟩
    | some p =>
      rw [hp] at hk
      exact ih p hk

theorem getRoot_of_grounded (h : Heap R) (hg : Grounded h) (n : Nat) :
    ∃ fuel r, getRoot fuel h n = some r := by
  obtain ⟨k, hk⟩ := hg n
  cases k with
  | zero => simp [ancestor] at hk
  | succ k =>
    unfold ancestor at hk
    cases hp : (h n).parent with
    | none => exact ⟨0, n, by simp [getRoot, getParent, hp]⟩
    | some p =>
      rw [hp] at hk
      cases k with
      | zero => simp [ancestor] at hk
      | succ k =>
        obtain ⟨r, hr⟩ := getRootLoop_of_ancestor h k p hk
        exact ⟨k + 1, r, by simp [getRoot, getParent, hp, hr]⟩

theorem grounded_fresh : Grounded (freshHeap : Heap R) := by
  intro n
  exact ⟨1, by simp [ancestor, freshHeap, GraphNode.create]⟩

theorem grounded_of_parent_cleared (h g : Heap R)
    (hpar : ∀ n, (g n).parent = (h n).parent ∨ (g n).parent = none) (hg : Grounded h) :
    Grounded g := by
  have key : ∀ k n, ancestor h k n = none → ∃ j, ancestor g j n = none := by
    intro k
    induction k with
    | zero => intro n hk; simp [ancestor] at hk
    | succ k ih =>
      intro n hk
      unfold ancestor at hk
      rcases hpar n with hsame | hnone
      · cases hp : (h n).parent with
        | none =>
          refine ⟨1, ?_⟩
          unfold ancestor
          rw [hsame, hp]
        | some p =>
          rw [hp] at hk
          obtain ⟨j, hj⟩ := ih p hk
          refine ⟨j + 1, ?_⟩
          unfold ancestor
          rw [hsame, hp]
          exact hj
      · refine ⟨1, ?_⟩
        unfold ancestor
        rw [hnone]
  intro n
  obtain ⟨k, hk⟩ := hg n
  exact key k n hk

theorem ancestor_congr_of_avoids (h g : Heap R) (c : Nat)
    (hpar : ∀ n, n ≠ c → (g n).parent = (h n).parent) (j q : Nat)
    (havoid : ∀ k, ancestor h k q ≠ some c) : ancestor g j q = ancestor h j q := by
  induction j generalizing q with
  | zero => rfl
  | succ j ih =>
    have hq : q ≠ c := by
      intro hqc
      exact havoid 0 (by simp [ancestor, hqc])
    unfold ancestor
    rw [hpar q hq]
    cases hp : (h q).parent with
    | none => rfl
    | some r =>
      apply ih
      intro k hk
      apply havoid (k + 1)
      unfold ancestor
      rw [hp]
      exact hk

theorem grounded_of_attached (h g : Heap R) (p c : Nat)
    (havoid : ∀ k, ancestor h k p ≠ some c)
    (hpar : ∀ n, (g n).parent = if n = c then some p else (h n).parent)
    (hg : Grounded h) : Grounded g := by
  have hne : ∀ n, n ≠ c → (g n).parent = (h n).parent := by
    intro n hn; rw [hpar n, if_neg hn]
  have key : ∀ k n, ancestor h k n = none → ∃ j, ancestor g j n = none := by
    intro k
    induction k with
    | zero => intro n hk; simp [ancestor] at hk
    | succ k ih =>
      intro n hk
      unfold ancestor at hk
      by_cases hn : n = c
      · obtain ⟨kp, hkp⟩ := hg p
        refine ⟨kp + 1, ?_⟩
        unfold ancestor
        rw [hpar n, if_pos hn]
        show ancestor g kp p = none
        rw [ancestor_congr_of_avoids h g c hne kp p havoid]
        exact hkp
      · cases hp : (h n).parent with
        | none =>
          refine ⟨1, ?_⟩
          unfold ancestor
          rw [hne n hn, hp]
        | some q =>
          rw [hp] at hk
          obtain ⟨j, hj⟩ := ih q hk
          refine ⟨j + 1, ?_⟩
          unfold ancestor
          rw [hne n hn, hp]
          exact hj
  intro n
  obtain ⟨k, hk⟩ := hg n
  exact key k n hk

theorem grounded_runOps (ops : List TreeOp) (h : Heap R) (hg : Grounded h)
    (hbelow : attachesBelow h ops) : Grounded (runOps h ops) := by
  induction ops generalizing h with
  | nil => exact hg
  | cons op ops ih =>
    cases op with
    | attach p c =>
      refine ih _ ?_ hbelow.2
      show Grounded (addChild h p c).heap
      by_cases hp : (h c).parent = none
      · exact grounded_of_attached h _ p c (hbelow.1 hp)
          (fun n => addChild_parent h p c n hp) hg
      · rw [addChild_heap_of_parented h p c hp]
        exact hg
    | detach p c =>
      refine ih _ ?_ hbelow
      show Grounded (removeChild h p c)
      apply grounded_of_parent_cleared h _ _ hg
      intro n
      rw [removeChild_parent]
      by_cases hn : n = c
      · right; simp [hn]
      · left; simp [hn]

theorem getRootLoop_spec (h : Heap R) (k : Nat) :
    ∀ n, ancestor h (k + 1) n = none →
      ∃ r j, ancestor h j n = some r ∧ (h r).parent = none ∧
        ∀ fuel, k + 1 ≤ fuel → getRootLoop fuel h n = some r := by
  induction k with
  | zero =>
    intro n hk
    simp only [ancestor] at hk
    cases hp : (h n).parent with
    | none =>
      refine ⟨n, 0, rfl, hp, ?_⟩
      intro fuel hfuel
      obtain ⟨f, rfl⟩ : ∃ f, fuel = f + 1 := ⟨fuel - 1, by omega⟩
      simp [getRootLoop, getParent, hp]
    | some p => rw [hp] at hk; exact Option.noConfusion hk
  | succ k ih =>
    intro n hk
    simp only [ancestor] at hk
    cases hp : (h n).parent with
    | none =>
      refine ⟨n, 0, rfl, hp, ?_⟩
      intro fuel hfuel
      obtain ⟨f, rfl⟩ : ∃ f, fuel = f + 1 := ⟨fuel - 1, by omega⟩
      simp [getRootLoop, getParent, hp]
    | some p =>
      rw [hp] at hk
      obtain ⟨r, j, hj, hr, hrun⟩ := ih p (by simpa [ancestor] using hk)
      refine ⟨r, j + 1, by simp only [ancestor, hp]; exact hj, hr, ?_⟩
      intro fuel hfuel
      obtain ⟨f, rfl⟩ : ∃ f, fuel = f + 1 := ⟨fuel - 1, by omega⟩
      simp only [getRootLoop, getParent, hp]
      exact hrun f (by omega)

theorem ancestor_root_unique (h : Heap R) (n j1 j2 r1 r2 : Nat)
    (h1 : ancestor h j1 n = some r1) (hr1 : (h r1).parent = none)
    (h2 : ancestor h j2 n = some r2) (hr2 : (h r2).parent = none) : r1 = r2 := by
  have key : ∀ (a b ra rb : Nat), a ≤ b → ancestor h a n = some ra → (h ra).parent = none →
      ancestor h b n = some rb → ra = rb := by
    intro a b ra rb hab ha hra hb
    have hsplit : ancestor h b n = (ancestor h a n).bind (ancestor h (b - a)) := by
      rw [← ancestor_add]; congr 1; omega
    rw [ha, hb] at hsplit
    cases hd : b - a with
    | zero =>
      rw [hd] at hsplit
      simp [ancestor] at hsplit
      exact hsplit.symm
    | succ d =>
      rw [hd] at hsplit
      simp [ancestor, hra] at hsplit
  rcases Nat.le_total j1 j2 with hle | hle
  · exact key j1 j2 r1 r2 hle h1 hr1 h2
  · exact (key j2 j1 r2 r1 hle h2 hr2 h1).symm

theorem getRoot_of_root (h : Heap R) (r : Nat) (hr : (h r).parent = none) (fuel : Nat) :
    getRoot fuel h r = some r := by
  simp [getRoot, getParent, hr]

theorem toQuaternion_quatMultiply (a b : Quat R) :
    toQuaternion (quatMultiply a b) = toQuaternion a * toQuaternion b := by
  ext <;> simp [toQuaternion, quatMultiply]

theorem firstStep_found (search : Nat → Option (Option Nat)) (r : Nat) (cs : List Nat) :
    cs.foldl (firstStep search) (some (some r)) = some (some r) := by
  induction cs with
  | nil => rfl
  | cons c cs ih => exact ih

theorem firstMatch_forest (h : Heap R) (P : Nat → Prop) [DecidablePred P]
    (F : Nat → Nat → Option (Option Nat))
    (hF : ∀ fuel n, F (fuel + 1) n
      = if P n then some (some n)
        else (h n).children.foldl (firstStep (F fuel)) (some none))
    (f : Forest) :
    ∀ (po : Option Nat) (fuel : Nat), f.height ≤ fuel → Shaped h po f →
      f.roots.foldl (firstStep (F fuel)) (some none)
        = some (f.ids.find? fun n => decide (P n)) := by
  induction f with
  | nil => intro po fuel _ _; rfl
  | cons id kids rest ihk ihr =>
    intro po fuel hfuel hsh
    obtain ⟨_, hch, hshk, hshr⟩ := hsh
    have hheight : kids.height + 1 ≤ fuel ∧ rest.height ≤ fuel := by
      simp only [Forest.height] at hfuel
      omega
    obtain ⟨fuel', hfuel'⟩ : ∃ k, fuel = k + 1 := ⟨fuel - 1, by omega⟩
    have hid : F fuel id
        = if P id then some (some id) else some (kids.ids.find? fun n => decide (P n)) := by
      rw [hfuel', hF, hch, ihk (some id) fuel' (by omega) hshk]
    show rest.roots.foldl (firstStep (F fuel)) (firstStep (F fuel) (some none) id)
      = some ((id :: (kids.ids ++ rest.ids)).find? fun n => decide (P n))
    have hstep : firstStep (F fuel) (some none) id = F fuel id := rfl
    rw [hstep, hid]
    by_cases hp : P id
    · rw [if_pos hp, firstStep_found]
      simp [List.find?, hp]
    · rw [if_neg hp]
      have hcons : ((id :: (kids.ids ++ rest.ids)).find? fun n => decide (P n))
          = (kids.ids.find? fun n => decide (P n)).or
              (rest.ids.find? fun n => decide (P n)) := by
        rw [← List.find?_append]
        simp [List.find?, hp]
      rw [hcons]
      cases hk : kids.ids.find? fun n => decide (P n) with
      | some r => rw [firstStep_found]; rfl
      | none =>
        rw [ihr po fuel hheight.2 hshr]
        rfl

theorem firstMatch_tree (h : Heap R) (P : Nat → Prop) [DecidablePred P]
    (F : Nat → Nat → Option (Option Nat))
    (hF : ∀ fuel n, F (fuel + 1) n
      = if P n then some (some n)
        else (h n).children.foldl (firstStep (F fuel)) (some none))
    (root : Nat) (kids : Forest) (po : Option Nat) (fuel : Nat)
    (hfuel : (Forest.cons root kids Forest.nil).height ≤ fuel)
    (hsh : Shaped h po (Forest.cons root kids Forest.nil)) :
    F fuel root
      = some ((Forest.cons root kids Forest.nil).ids.find? fun n => decide (P n)) :=
  firstMatch_forest h P F hF (Forest.cons root kids Forest.nil) po fuel hfuel hsh

theorem field_test (a v : Value) :
    (truthy a && decide (a = v)) = (decide (some a = some v) && truthy v) := by
  by_cases hav : a = v
  · subst hav; simp
  · simp [hav]

theorem getter_test (a v : Value) :
    strictEquals (Returned.value a) v = decide (some a = some v) := by
  simp [strictEquals]

theorem methods_split :
    ∀ x ∈ prototypeMethods ++ objectPrototypeKeys,
      x ∈ nonGetters ∨ x ∈ getterNames ∨ x ∈ fieldNames := by
  decide

theorem member_of_not_field (a : GraphNode R) (n : Nat) (attr : String)
    (hf : attr ∉ fieldNames) :
    member a n attr
      = if attr ∈ prototypeMethods ∨ attr ∈ objectPrototypeKeys then Member.function
        else Member.value Value.undefined := by
  simp only [fieldNames, List.mem_cons, List.mem_singleton, List.not_mem_nil, or_false,
    not_or] at hf
  unfold member
  split <;> first | rfl | (exfalso; simp_all)

theorem testAttr_field
    (call : Heap R → Nat → String → Option (Completion R Returned))
    (h : Heap R) (n : Nat) (attr : String) (v : Value) (hf : attr ∈ fieldNames) :
    testAttr call h n attr v = some (Completion.normal h (matchesAttr h n attr v)) := by
  simp only [fieldNames, List.mem_cons, List.mem_singleton, List.not_mem_nil, or_false] at hf
  rcases hf with rfl | rfl | rfl | rfl | rfl | rfl | rfl | rfl | rfl | rfl | rfl | rfl | rfl
  · have hl : testAttr call h n "_name" v
        = some (Completion.normal h (truthy (Value.string (h n).name) && decide (Value.string (h n).name = v))) := rfl
    have hr : matchesAttr h n "_name" v
        = (decide (some (Value.string (h n).name) = some v) && truthy v) := by
      simp [matchesAttr, fieldOf, getterOf, parentValue, graphIdValue]
    rw [hl, hr, field_test]
  · have hl : testAttr call h n "translation" v
        = some (Completion.normal h (truthy (Value.slot n Slot.translation) && decide (Value.slot n Slot.translation = v))) := rfl
    have hr : matchesAttr h n "translation" v
        = (decide (some (Value.slot n Slot.translation) = some v) && truthy v) := by
      simp [matchesAttr, fieldOf, getterOf, parentValue, graphIdValue]
    rw [hl, hr, field_test]
  · have hl : testAttr call h n "rotation" v
        = some (Completion.normal h (truthy (Value.slot n Slot.rotation) && decide (Value.slot n Slot.rotation = v))) := rfl
    have hr : matchesAttr h n "rotation" v
        = (decide (some (Value.slot n Slot.rotation) = some v) && truthy v) := by
      simp [matchesAttr, fieldOf, getterOf, parentValue, graphIdValue]
    rw [hl, hr, field_test]
  · have hl : testAttr call h n "scale" v
        = some (Completion.normal h (truthy (Value.slot n Slot.scale) && decide (Value.slot n Slot.scale = v))) := rfl
    have hr : matchesAttr h n "scale" v
        = (decide (some (Value.slot n Slot.scale) = some v) && truthy v) := by
      simp [matchesAttr, fieldOf, getterOf, parentValue, graphIdValue]
    rw [hl, hr, field_test]
  · have hl : testAttr call h n "dirtyLocal" v
        = some (Completion.normal h (truthy (Value.bool (h n).dirtyLocal) && decide (Value.bool (h n).dirtyLocal = v))) := rfl
    have hr : matchesAttr h n "dirtyLocal" v
        = (decide (some (Value.bool (h n).dirtyLocal) = some v) && truthy v) := by
      simp [matchesAttr, fieldOf, getterOf, parentValue, graphIdValue]
    rw [hl, hr, field_test]
  · have hl : testAttr call h n "dirtyWorld" v
        = some (Completion.normal h (truthy (Value.bool (h n).dirtyWorld) && decide (Value.bool (h n).dirtyWorld = v))) := rfl
    have hr : matchesAttr h n "dirtyWorld" v
        = (decide (some (Value.bool (h n).dirtyWorld) = some v) && truthy v) := by
      simp [matchesAttr, fieldOf, getterOf, parentValue, graphIdValue]
    rw [hl, hr, field_test]
  · have hl : testAttr call h n "_ltm" v
        = some (Completion.normal h (truthy (Value.slot n Slot.ltm) && decide (Value.slot n Slot.ltm = v))) := rfl
    have hr : matchesAttr h n "_ltm" v
        = (decide (some (Value.slot n Slot.ltm) = some v) && truthy v) := by
      simp [matchesAttr, fieldOf, getterOf, parentValue, graphIdValue]
    rw [hl, hr, field_test]
  · have hl : testAttr call h n "_wtm" v
        = some (Completion.normal h (truthy (Value.slot n Slot.wtm) && decide (Value.slot n Slot.wtm = v))) := rfl
    have hr : matchesAttr h n "_wtm" v
        = (decide (some (Value.slot n Slot.wtm) = some v) && truthy v) := by
      simp [matchesAttr, fieldOf, getterOf, parentValue, graphIdValue]
    rw [hl, hr, field_test]
  · have hl : testAttr call h n "_parent" v
        = some (Completion.normal h (truthy (parentValue (h n)) && decide (parentValue (h n) = v))) := rfl
    have hr : matchesAttr h n "_parent" v
        = (decide (some (parentValue (h n)) = some v) && truthy v) := by
      simp [matchesAttr, fieldOf, getterOf, parentValue, graphIdValue]
    rw [hl, hr, field_test]
  · have hl : testAttr call h n "_children" v
        = some (Completion.normal h (truthy (Value.slot n Slot.children) && decide (Value.slot n Slot.children = v))) := rfl
    have hr : matchesAttr h n "_children" v
        = (decide (some (Value.slot n Slot.children) = some v) && truthy v) := by
      simp [matchesAttr, fieldOf, getterOf, parentValue, graphIdValue]
    rw [hl, hr, field_test]
  · have hl : testAttr call h n "_labels" v
        = some (Completion.normal h (truthy (Value.slot n Slot.labels) && decide (Value.slot n Slot.labels = v))) := rfl
    have hr : matchesAttr h n "_labels" v
        = (decide (some (Value.slot n Slot.labels) = some v) && truthy v) := by
      simp [matchesAttr, fieldOf, getterOf, parentValue, graphIdValue]
    rw [hl, hr, field_test]
  · have hl : testAttr call h n "_graphId" v
        = some (Completion.normal h (truthy (graphIdValue (h n)) && decide (graphIdValue (h n) = v))) := rfl
    have hr : matchesAttr h n "_graphId" v
        = (decide (some (graphIdValue (h n)) = some v) && truthy v) := by
      simp [matchesAttr, fieldOf, getterOf, parentValue, graphIdValue]
    rw [hl, hr, field_test]
  · have hl : testAttr call h n "__proto__" v
        = some (Completion.normal h (truthy (Value.prototype) && decide (Value.prototype = v))) := rfl
    have hr : matchesAttr h n "__proto__" v
        = (decide (some (Value.prototype) = some v) && truthy v) := by
      simp [matchesAttr, fieldOf, getterOf, parentValue, graphIdValue]
    rw [hl, hr, field_test]

theorem testAttr_getterName
    (findRec : Heap R → Nat → String → Value → Option (Completion R (List Nat)))
    (findOneRec : Heap R → Nat → String → Value → Option (Completion R (Option Nat)))
    (fuel : Nat) (h : Heap R) (n : Nat) (attr : String) (v : Value)
    (hg : attr ∈ getterNames) :
    testAttr (invoke findRec findOneRec fuel) h n attr v
      = some (Completion.normal h (matchesAttr h n attr v)) := by
  simp only [getterNames, List.mem_cons, List.mem_singleton, List.not_mem_nil, or_false] at hg
  rcases hg with rfl | rfl | rfl | rfl | rfl | rfl | rfl | rfl | rfl | rfl | rfl | rfl | rfl | rfl | rfl | rfl | rfl | rfl
  · have hl : testAttr (invoke findRec findOneRec fuel) h n "getParent" v
        = some (Completion.normal h (strictEquals (Returned.value (parentValue (h n))) v)) := rfl
    have hr : matchesAttr h n "getParent" v = strictEquals (Returned.value (parentValue (h n))) v := by
      simp [matchesAttr, fieldOf, getterOf, strictEquals, parentValue, hasLabel,
        objectPrototypeKeys]
    rw [hl, hr]
  · have hl : testAttr (invoke findRec findOneRec fuel) h n "getChildren" v
        = some (Completion.normal h (strictEquals (Returned.value (Value.slot n Slot.children)) v)) := rfl
    have hr : matchesAttr h n "getChildren" v = strictEquals (Returned.value (Value.slot n Slot.children)) v := by
      simp [matchesAttr, fieldOf, getterOf, strictEquals, parentValue, hasLabel,
        objectPrototypeKeys]
    rw [hl, hr]
  · have hl : testAttr (invoke findRec findOneRec fuel) h n "getLocalTranslation" v
        = some (Completion.normal h (strictEquals (Returned.value (Value.slot n Slot.translation)) v)) := rfl
    have hr : matchesAttr h n "getLocalTranslation" v = strictEquals (Returned.value (Value.slot n Slot.translation)) v := by
      simp [matchesAttr, fieldOf, getterOf, strictEquals, parentValue, hasLabel,
        objectPrototypeKeys]
    rw [hl, hr]
  · have hl : testAttr (invoke findRec findOneRec fuel) h n "getLocalTransform" v
        = some (Completion.normal h (strictEquals (Returned.value (Value.slot n Slot.ltm)) v)) := rfl
    have hr : matchesAttr h n "getLocalTransform" v = strictEquals (Returned.value (Value.slot n Slot.ltm)) v := by
      simp [matchesAttr, fieldOf, getterOf, strictEquals, parentValue, hasLabel,
        objectPrototypeKeys]
    rw [hl, hr]
  · have hl : testAttr (invoke findRec findOneRec fuel) h n "getName" v
        = some (Completion.normal h (strictEquals (Returned.value (Value.string (h n).name)) v)) := rfl
    have hr : matchesAttr h n "getName" v = strictEquals (Returned.value (Value.string (h n).name)) v := by
      simp [matchesAttr, fieldOf, getterOf, strictEquals, parentValue, hasLabel,
        objectPrototypeKeys]
    rw [hl, hr]
  · have hl : testAttr (invoke findRec findOneRec fuel) h n "getWorldTransform" v
        = some (Completion.normal h (strictEquals (Returned.value (Value.slot n Slot.wtm)) v)) := rfl
    have hr : matchesAttr h n "getWorldTransform" v = strictEquals (Returned.value (Value.slot n Slot.wtm)) v := by
      simp [matchesAttr, fieldOf, getterOf, strictEquals, parentValue, hasLabel,
        objectPrototypeKeys]
    rw [hl, hr]
  · have hl : testAttr (invoke findRec findOneRec fuel) h n "getWorldTranslation" v
        = some (Completion.normal h (strictEquals (Returned.fresh) v)) := rfl
    have hr : matchesAttr h n "getWorldTranslation" v = strictEquals (Returned.fresh) v := by
      simp [matchesAttr, fieldOf, getterOf, strictEquals, parentValue, hasLabel,
        objectPrototypeKeys]
    rw [hl, hr]
  · have hl : testAttr (invoke findRec findOneRec fuel) h n "getLabels" v
        = some (Completion.normal h (strictEquals (Returned.fresh) v)) := rfl
    have hr : matchesAttr h n "getLabels" v = strictEquals (Returned.fresh) v := by
      simp [matchesAttr, fieldOf, getterOf, strictEquals, parentValue, hasLabel,
        objectPrototypeKeys]
    rw [hl, hr]
  · have hl : testAttr (invoke findRec findOneRec fuel) h n "hasLabel" v
        = some (Completion.normal h (strictEquals (Returned.value (Value.bool (hasLabel h n "undefined"))) v)) := rfl
    have hr : matchesAttr h n "hasLabel" v = strictEquals (Returned.value (Value.bool (hasLabel h n "undefined"))) v := by
      simp [matchesAttr, fieldOf, getterOf, strictEquals, parentValue, hasLabel,
        objectPrototypeKeys]
    rw [hl, hr]
  · have hl : testAttr (invoke findRec findOneRec fuel) h n "constructor" v
        = some (Completion.normal h (strictEquals (Returned.fresh) v)) := rfl
    have hr : matchesAttr h n "constructor" v = strictEquals (Returned.fresh) v := by
      simp [matchesAttr, fieldOf, getterOf, strictEquals, parentValue, hasLabel,
        objectPrototypeKeys]
    rw [hl, hr]
  · have hl : testAttr (invoke findRec findOneRec fuel) h n "toString" v
        = some (Completion.normal h (strictEquals (Returned.value (Value.string "[object Object]")) v)) := rfl
    have hr : matchesAttr h n "toString" v = strictEquals (Returned.value (Value.string "[object Object]")) v := by
      simp [matchesAttr, fieldOf, getterOf, strictEquals, parentValue, hasLabel,
        objectPrototypeKeys]
    rw [hl, hr]
  · have hl : testAttr (invoke findRec findOneRec fuel) h n "toLocaleString" v
        = some (Completion.normal h (strictEquals (Returned.value (Value.string "[object Object]")) v)) := rfl
    have hr : matchesAttr h n "toLocaleString" v = strictEquals (Returned.value (Value.string "[object Object]")) v := by
      simp [matchesAttr, fieldOf, getterOf, strictEquals, parentValue, hasLabel,
        objectPrototypeKeys]
    rw [hl, hr]
  · have hl : testAttr (invoke findRec findOneRec fuel) h n "valueOf" v
        = some (Completion.normal h (strictEquals (Returned.value (Value.node n)) v)) := rfl
    have hr : matchesAttr h n "valueOf" v = strictEquals (Returned.value (Value.node n)) v := by
      simp [matchesAttr, fieldOf, getterOf, strictEquals, parentValue, hasLabel,
        objectPrototypeKeys]
    rw [hl, hr]
  · have hl : testAttr (invoke findRec findOneRec fuel) h n "hasOwnProperty" v
        = some (Completion.normal h (strictEquals (Returned.value (Value.bool false)) v)) := rfl
    have hr : matchesAttr h n "hasOwnProperty" v = strictEquals (Returned.value (Value.bool false)) v := by
      simp [matchesAttr, fieldOf, getterOf, strictEquals, parentValue, hasLabel,
        objectPrototypeKeys]
    rw [hl, hr]
  · have hl : testAttr (invoke findRec findOneRec fuel) h n "isPrototypeOf" v
        = some (Completion.normal h (strictEquals (Returned.value (Value.bool false)) v)) := rfl
    have hr : matchesAttr h n "isPrototypeOf" v = strictEquals (Returned.value (Value.bool false)) v := by
      simp [matchesAttr, fieldOf, getterOf, strictEquals, parentValue, hasLabel,
        objectPrototypeKeys]
    rw [hl, hr]
  · have hl : testAttr (invoke findRec findOneRec fuel) h n "propertyIsEnumerable" v
        = some (Completion.normal h (strictEquals (Returned.value (Value.bool false)) v)) := rfl
    have hr : matchesAttr h n "propertyIsEnumerable" v = strictEquals (Returned.value (Value.bool false)) v := by
      simp [matchesAttr, fieldOf, getterOf, strictEquals, parentValue, hasLabel,
        objectPrototypeKeys]
    rw [hl, hr]
  · have hl : testAttr (invoke findRec findOneRec fuel) h n "__lookupGetter__" v
        = some (Completion.normal h (strictEquals (Returned.value Value.undefined) v)) := rfl
    have hr : matchesAttr h n "__lookupGetter__" v = strictEquals (Returned.value Value.undefined) v := by
      simp [matchesAttr, fieldOf, getterOf, strictEquals, parentValue, hasLabel,
        objectPrototypeKeys]
    rw [hl, hr]
  · have hl : testAttr (invoke findRec findOneRec fuel) h n "__lookupSetter__" v
        = some (Completion.normal h (strictEquals (Returned.value Value.undefined) v)) := rfl
    have hr : matchesAttr h n "__lookupSetter__" v = strictEquals (Returned.value Value.undefined) v := by
      simp [matchesAttr, fieldOf, getterOf, strictEquals, parentValue, hasLabel,
        objectPrototypeKeys]
    rw [hl, hr]

theorem testAttr_getter
    (findRec : Heap R → Nat → String → Value → Option (Completion R (List Nat)))
    (findOneRec : Heap R → Nat → String → Value → Option (Completion R (Option Nat)))
    (fuel : Nat) (h : Heap R) (n : Nat) (attr : String) (v : Value)
    (hq : attr ∉ nonGetters) :
    testAttr (invoke findRec findOneRec fuel) h n attr v
      = some (Completion.normal h (matchesAttr h n attr v)) := by
  by_cases hf : attr ∈ fieldNames
  · exact testAttr_field _ h n attr v hf
  by_cases hg : attr ∈ getterNames
  · exact testAttr_getterName findRec findOneRec fuel h n attr v hg
  have hm : member (h n) n attr = Member.value Value.undefined := by
    rw [member_of_not_field _ _ _ hf, if_neg]
    intro hmem
    rcases methods_split attr (List.mem_append.2 hmem) with h1 | h1 | h1
    · exact hq h1
    · exact hg h1
    · exact hf h1
  have hnf : fieldOf h n attr = none := by
    simp only [fieldNames, List.mem_cons, List.mem_singleton, List.not_mem_nil, or_false,
      not_or] at hf
    simp [fieldOf, hf]
  have hng : getterOf h n attr = none := by
    simp only [getterNames, List.mem_cons, List.mem_singleton, List.not_mem_nil, or_false,
      not_or] at hg
    simp [getterOf, hg]
  simp [testAttr, hm, matchesAttr, hnf, hng, truthy]

theorem find_succ_getter (h : Heap R) (attr : String) (value : Value)
    (hq : attr ∉ nonGetters) (fuel n : Nat) :
    find (fuel + 1) h n attr value
      = (h n).children.foldl (findStep fun hc c => find fuel hc c attr value)
          (some (Completion.normal h (if matchesAttr h n attr value then [n] else []))) := by
  rw [find, testAttr_getter _ _ _ _ _ _ _ hq]
  rfl

theorem findOne_succ_getter (h : Heap R) (attr : String) (value : Value)
    (hq : attr ∉ nonGetters) (fuel n : Nat) :
    findOne (fuel + 1) h n attr value
      = if matchesAttr h n attr value = true then some (Completion.normal h (some n))
        else (h n).children.foldl (findOneStep fun hc c => findOne fuel hc c attr value)
          (some (Completion.normal h none)) := by
  rw [findOne, testAttr_getter _ _ _ _ _ _ _ hq]
  rfl

theorem find_forest (h : Heap R) (attr : String) (value : Value) (hq : attr ∉ nonGetters)
    (f : Forest) :
    ∀ (po : Option Nat) (fuel : Nat) (acc : List Nat), f.height ≤ fuel → Shaped h po f →
      f.roots.foldl (findStep fun hc c => find fuel hc c attr value)
          (some (Completion.normal h acc))
        = some (Completion.normal h
            (acc ++ f.ids.filter fun n => matchesAttr h n attr value)) := by
  induction f with
  | nil => intro po fuel acc _ _; simp [Forest.roots, Forest.ids]
  | cons id kids rest ihk ihr =>
    intro po fuel acc hfuel hsh
    obtain ⟨_, hch, hshk, hshr⟩ := hsh
    have hheight : kids.height + 1 ≤ fuel ∧ rest.height ≤ fuel := by
      simp only [Forest.height] at hfuel
      omega
    obtain ⟨fuel', hfuel'⟩ : ∃ k, fuel = k + 1 := ⟨fuel - 1, by omega⟩
    have hid : find fuel h id attr value
        = some (Completion.normal h ((if matchesAttr h id attr value then [id] else [])
            ++ kids.ids.filter fun n => matchesAttr h n attr value)) := by
      rw [hfuel', find_succ_getter h attr value hq, hch]
      exact ihk (some id) fuel' _ (by omega) hshk
    simp only [Forest.roots, Forest.ids, List.foldl_cons]
    have hstep : findStep (fun hc c => find fuel hc c attr value)
          (some (Completion.normal h acc)) id
        = some (Completion.normal h (acc ++ ((if matchesAttr h id attr value then [id] else [])
            ++ kids.ids.filter fun n => matchesAttr h n attr value))) := by
      simp only [findStep, hid, Option.map_some', Completion.map]
    rw [hstep, ihr po fuel _ hheight.2 hshr]
    by_cases hm : matchesAttr h id attr value = true
    · simp [hm, List.filter_cons, List.filter_append]
    · simp [hm, List.filter_cons, List.filter_append]

theorem findOneStep_found (search : Heap R → Nat → Option (Completion R (Option Nat)))
    (h : Heap R) (r : Nat) (cs : List Nat) :
    cs.foldl (findOneStep search) (some (Completion.normal h (some r)))
      = some (Completion.normal h (some r)) := by
  induction cs with
  | nil => rfl
  | cons c cs ih => exact ih

theorem findOne_forest (h : Heap R) (attr : String) (value : Value) (hq : attr ∉ nonGetters)
    (f : Forest) :
    ∀ (po : Option Nat) (fuel : Nat), f.height ≤ fuel → Shaped h po f →
      f.roots.foldl (findOneStep fun hc c => findOne fuel hc c attr value)
          (some (Completion.normal h none))
        = some (Completion.normal h (f.ids.find? fun n => matchesAttr h n attr value)) := by
  induction f with
  | nil => intro po fuel _ _; rfl
  | cons id kids rest ihk ihr =>
    intro po fuel hfuel hsh
    obtain ⟨_, hch, hshk, hshr⟩ := hsh
    have hheight : kids.height + 1 ≤ fuel ∧ rest.height ≤ fuel := by
      simp only [Forest.height] at hfuel
      omega
    obtain ⟨fuel', hfuel'⟩ : ∃ k, fuel = k + 1 := ⟨fuel - 1, by omega⟩
    have hid : findOne fuel h id attr value
        = if matchesAttr h id attr value = true then some (Completion.normal h (some id))
          else some (Completion.normal h
            (kids.ids.find? fun n => matchesAttr h n attr value)) := by
      rw [hfuel', findOne_succ_getter h attr value hq, hch,
        ihk (some id) fuel' (by omega) hshk]
    show rest.roots.foldl (findOneStep fun hc c => findOne fuel hc c attr value)
        (findOneStep (fun hc c => findOne fuel hc c attr value)
          (some (Completion.normal h none)) id)
      = some (Completion.normal h
          ((id :: (kids.ids ++ rest.ids)).find? fun n => matchesAttr h n attr value))
    have hstep : findOneStep (fun hc c => findOne fuel hc c attr value)
        (some (Completion.normal h none)) id = findOne fuel h id attr value := rfl
    rw [hstep, hid]
    by_cases hp : matchesAttr h id attr value = true
    · rw [if_pos hp, findOneStep_found]
      simp [List.find?, hp]
    · rw [if_neg hp]
      have hcons : ((id :: (kids.ids ++ rest.ids)).find? fun n => matchesAttr h n attr value)
          = (kids.ids.find? fun n => matchesAttr h n attr value).or
              (rest.ids.find? fun n => matchesAttr h n attr value) := by
        rw [← List.find?_append]
        simp [List.find?, hp]
      rw [hcons]
      cases hk : kids.ids.find? fun n => matchesAttr h n attr value with
      | some r => rw [findOneStep_found]; rfl
      | none =>
        rw [ihr po fuel hheight.2 hshr]
        rfl


/-- Searched by the name `sync` with the value `undefined`, `find` runs `sync`
on the node it visits and takes it, since the call returns `undefined`: the
heap it leaves is the synchronised one. -/
theorem find_sync_writes :
    find 1 (setLocalTranslation (freshHeap : Heap ℤ) 0 1 0 0) 0 "sync" Value.undefined
      = some (Completion.normal
          (sync (setLocalTranslation (freshHeap : Heap ℤ) 0 1 0 0) 0) [0]) ∧
    (setLocalTranslation (freshHeap : Heap ℤ) 0 1 0 0 0).dirtyLocal = true ∧
    (sync (setLocalTranslation (freshHeap : Heap ℤ) 0 1 0 0) 0 0).dirtyLocal = false :=
  ⟨rfl, by decide, by decide⟩

theorem findByName_succ (h : Heap R) (name : String) (fuel n : Nat) :
    findByName (fuel + 1) h n name
      = if (h n).name = name then some (some n)
        else (h n).children.foldl (firstStep fun c => findByName fuel h c name) (some none) :=
  rfl

theorem findByLabel_forest (h : Heap R) (label : String) (f : Forest) :
    ∀ (po : Option Nat) (fuel : Nat) (acc : List Nat), f.height ≤ fuel → Shaped h po f →
      f.roots.foldlM (fun res c => findByLabel fuel h c label (some res)) acc
        = some (acc ++ f.ids.filter fun n => hasLabel h n label) := by
  induction f with
  | nil => intro po fuel acc _ _; simp [Forest.roots, Forest.ids]
  | cons id kids rest ihk ihr =>
    intro po fuel acc hfuel hsh
    obtain ⟨_, hch, hshk, hshr⟩ := hsh
    have hheight : kids.height + 1 ≤ fuel ∧ rest.height ≤ fuel := by
      simp only [Forest.height] at hfuel
      omega
    obtain ⟨fuel', hfuel'⟩ : ∃ k, fuel = k + 1 := ⟨fuel - 1, by omega⟩
    have hid : findByLabel fuel h id label (some acc)
        = some ((if hasLabel h id label then acc ++ [id] else acc)
            ++ kids.ids.filter fun n => hasLabel h n label) := by
      rw [hfuel']
      simp only [findByLabel, Option.getD_some]
      rw [hch]
      exact ihk (some id) fuel' _ (by omega) hshk
    simp only [Forest.roots, Forest.ids, List.foldlM_cons, hid, Option.bind_eq_bind,
      Option.some_bind]
    rw [ihr po fuel _ hheight.2 hshr]
    by_cases hm : hasLabel h id label = true
    · simp [hm, List.filter_cons, List.filter_append]
    · simp [hm, List.filter_cons, List.filter_append]

theorem localFromTRS_translation (t : Vec3 R) :
    localFromTRS t ![0, 0, 0, 1] ![1, 1, 1] = translationArray t := by
  funext i
  fin_cases i <;> simp [localFromTRS, translationArray, Mat4.ofEntries]

theorem mat4Multiply_translationArray (s t : Vec3 R) :
    mat4Multiply (translationArray s) (translationArray t) = translationArray (s + t) := by
  funext i
  fin_cases i <;> simp [mat4Multiply, translationArray, Mat4.ofEntries, idx, add_comm]

theorem translationArray_zero : translationArray (![0, 0, 0] : Vec3 R) = mat4Identity := by
  funext i
  fin_cases i <;> rfl

theorem getWorldTranslation_of_translationArray (h : Heap R) (n : Nat) (t : Vec3 R)
    (hw : (h n).wtm = translationArray t) : getWorldTranslation h n = t := by
  unfold getWorldTranslation
  rw [hw]
  funext i
  fin_cases i <;> rfl

theorem stale_links (a : GraphNode R) (par : Option Nat) (ch : List Nat) :
    Stale a { a with parent := par, children := ch } := by
  refine ⟨fun hl => hl, ?_⟩
  cases hd : a.dirty
  · exact Or.inr ⟨rfl, rfl, rfl⟩
  · exact Or.inl hd

theorem addChild_heap_apply (h : Heap R) (p c n : Nat) :
    ∃ par ch, (addChild h p c).heap n = { h n with parent := par, children := ch } := by
  by_cases hp : (h c).parent = none
  · rw [addChild_heap_of_free h p c hp]
    unfold setParent
    by_cases hnc : n = c
    · subst hnc
      by_cases hnp : n = p
      · subst hnp
        exact ⟨some n, (h n).children ++ [n], by simp⟩
      · exact ⟨some p, (h n).children, by simp [Function.update_noteq hnp]⟩
    · by_cases hnp : n = p
      · subst hnp
        exact ⟨(h n).parent, (h n).children ++ [c], by simp [Function.update_noteq hnc]⟩
      · exact ⟨(h n).parent, (h n).children,
          by simp [Function.update_noteq hnc, Function.update_noteq hnp]⟩
  · rw [addChild_heap_of_parented h p c hp]
    exact ⟨(h n).parent, (h n).children, rfl⟩

theorem setLocalTranslation_apply (h : Heap R) (m : Nat) (x y z : R) (n : Nat) :
    setLocalTranslation h m x y z n
      = if n = m then { h m with translation := ![x, y, z], dirtyLocal := true } else h n := by
  unfold setLocalTranslation
  by_cases hn : n = m
  · subst hn; simp
  · simp [hn, Function.update_noteq hn]

theorem setLocalTranslation_stale (h : Heap R) (m : Nat) (x y z : R) (n : Nat) :
    Stale (h n) (setLocalTranslation h m x y z n) := by
  rw [setLocalTranslation_apply]
  by_cases hn : n = m
  · subst hn
    rw [if_pos rfl]
    refine ⟨fun _ hf => ?_, Or.inl (by simp [GraphNode.dirty])⟩
    exact Bool.noConfusion hf
  · rw [if_neg hn]; exact stale_refl _

theorem setLocalTranslation_links (h : Heap R) (m : Nat) (x y z : R) (n : Nat) :
    (setLocalTranslation h m x y z n).parent = (h n).parent ∧
      (setLocalTranslation h m x y z n).children = (h n).children := by
  rw [setLocalTranslation_apply]
  by_cases hn : n = m
  · subst hn; simp
  · simp [hn]

theorem setLocalTranslation_trs (h : Heap R) (m : Nat) (x y z : R) (n : Nat) :
    (setLocalTranslation h m x y z n).translation
        = (if n = m then ![x, y, z] else (h n).translation) ∧
      (setLocalTranslation h m x y z n).rotation = (h n).rotation ∧
      (setLocalTranslation h m x y z n).scale = (h n).scale := by
  rw [setLocalTranslation_apply]
  by_cases hn : n = m
  · subst hn; simp
  · simp [hn]

theorem setTranslationOpt_stale (h : Heap R) (m : Nat) (t : Option (R × R × R)) (n : Nat) :
    Stale (h n) (setTranslationOpt h m t n) := by
  cases t with
  | none => exact stale_refl _
  | some v => exact setLocalTranslation_stale h m v.1 v.2.1 v.2.2 n

theorem setTranslationOpt_links (h : Heap R) (m : Nat) (t : Option (R × R × R)) (n : Nat) :
    (setTranslationOpt h m t n).parent = (h n).parent ∧
      (setTranslationOpt h m t n).children = (h n).children := by
  cases t with
  | none => exact ⟨rfl, rfl⟩
  | some v => exact setLocalTranslation_links h m v.1 v.2.1 v.2.2 n

theorem setTranslationOpt_trs (h : Heap R) (m : Nat) (t : Option (R × R × R)) (n : Nat) :
    (setTranslationOpt h m t n).translation
        = (if n = m then (match t with
            | none => (h n).translation
            | some v => ![v.1, v.2.1, v.2.2]) else (h n).translation) ∧
      (setTranslationOpt h m t n).rotation = (h n).rotation ∧
      (setTranslationOpt h m t n).scale = (h n).scale := by
  cases t with
  | none => simp [setTranslationOpt]
  | some v => exact setLocalTranslation_trs h m v.1 v.2.1 v.2.2 n

theorem inv_fresh (f : Forest) :
    ∀ pw : Option (Mat4 R), (pw = none ∨ pw = some mat4Identity) →
      Inv (freshHeap : Heap R) pw false f := by
  induction f with
  | nil => intro pw _; trivial
  | cons id kids rest ihk ihr =>
    intro pw hpw
    refine ⟨?_, Or.inr (Or.inr ?_), ?_, ihr pw hpw⟩
    · intro _
      show mat4Identity = localFromTRS ![0, 0, 0] ![0, 0, 0, 1] ![1, 1, 1]
      rw [localFromTRS_translation, translationArray_zero]
    · show mat4Identity = expectWorld pw mat4Identity
      rcases hpw with hpw | hpw
      · rw [hpw]; rfl
      · rw [hpw]
        show mat4Identity = mat4Multiply mat4Identity mat4Identity
        rw [← translationArray_zero, mat4Multiply_translationArray]
        funext i
        fin_cases i <;> simp
    · exact ihk _ (Or.inr rfl)

theorem chain_world (g : Heap R) (r a b : Nat)
    (hinv : Inv g none false
      (Forest.cons r (Forest.cons a (Forest.cons b Forest.nil Forest.nil) Forest.nil)
        Forest.nil))
    (hcr : (g r).dirty = false) (hca : (g a).dirty = false) (hcb : (g b).dirty = false)
    (hqr : (g r).rotation = ![0, 0, 0, 1]) (hsr : (g r).scale = ![1, 1, 1])
    (hqa : (g a).rotation = ![0, 0, 0, 1]) (hsa : (g a).scale = ![1, 1, 1])
    (hqb : (g b).rotation = ![0, 0, 0, 1]) (hsb : (g b).scale = ![1, 1, 1]) :
    (g r).wtm = translationArray (g r).translation ∧
    (g a).wtm = translationArray ((g r).translation + (g a).translation) ∧
    (g b).wtm
      = translationArray ((g r).translation + (g a).translation + (g b).translation) := by
  obtain ⟨hlr, hwr, ⟨hla, hwa, ⟨hlb, hwb, _, _⟩, _⟩, _⟩ := hinv
  have hdl : ∀ n, (g n).dirty = false → (g n).dirtyLocal = false := by
    intro n hn
    simp only [GraphNode.dirty, Bool.or_eq_false_iff] at hn
    exact hn.1
  have hltmr : (g r).ltm = translationArray (g r).translation := by
    rw [hlr (hdl r hcr), hqr, hsr, localFromTRS_translation]
  have hltma : (g a).ltm = translationArray (g a).translation := by
    rw [hla (hdl a hca), hqa, hsa, localFromTRS_translation]
  have hltmb : (g b).ltm = translationArray (g b).translation := by
    rw [hlb (hdl b hcb), hqb, hsb, localFromTRS_translation]
  have hr : (g r).wtm = translationArray (g r).translation := by
    rcases hwr with hw | hw | hw
    · rw [hcr] at hw; exact Bool.noConfusion hw
    · exact Bool.noConfusion hw
    · rw [hw, ← hltmr]; rfl
  have ha : (g a).wtm = translationArray ((g r).translation + (g a).translation) := by
    rcases hwa with hw | hw | hw
    · rw [hca] at hw; exact Bool.noConfusion hw
    · rw [hcr] at hw; exact Bool.noConfusion hw
    · rw [hw, hr, hltma]
      exact mat4Multiply_translationArray _ _
  refine ⟨hr, ha, ?_⟩
  rcases hwb with hw | hw | hw
  · rw [hcb] at hw; exact Bool.noConfusion hw
  · rw [hca] at hw; exact Bool.noConfusion hw
  · rw [hw, ha, hltmb]
    exact mat4Multiply_translationArray _ _

theorem chain_shaped (r a b : Nat) (hra : r ≠ a) (hrb : r ≠ b) (hab : a ≠ b) :
    Shaped (runOps (freshHeap : Heap R) [TreeOp.attach r a, TreeOp.attach a b]) none
      (Forest.cons r (Forest.cons a (Forest.cons b Forest.nil Forest.nil) Forest.nil)
        Forest.nil) := by
  have hfa : ((freshHeap : Heap R) a).parent = none := rfl
  have hfb : ((addChild (freshHeap : Heap R) r a).heap b).parent = none := by
    rw [addChild_parent _ r a b hfa, if_neg (Ne.symm hab)]; rfl
  have hpar : ∀ n, (runOps (freshHeap : Heap R) [TreeOp.attach r a, TreeOp.attach a b] n).parent
      = if n = b then some a else if n = a then some r else none := by
    intro n
    show ((addChild (addChild (freshHeap : Heap R) r a).heap a b).heap n).parent = _
    rw [addChild_parent _ a b n hfb, addChild_parent _ r a n hfa]
    rfl
  have hch : ∀ n,
      (runOps (freshHeap : Heap R) [TreeOp.attach r a, TreeOp.attach a b] n).children
      = if n = a then (if a = r then [a] else []) ++ [b]
        else if n = r then [a] else [] := by
    intro n
    show ((addChild (addChild (freshHeap : Heap R) r a).heap a b).heap n).children = _
    rw [addChild_children _ a b n hfb, addChild_children _ r a n hfa,
      addChild_children _ r a a hfa]
    rfl
  refine ⟨?_, ?_, ⟨?_, ?_, ⟨?_, ?_, trivial, trivial⟩, trivial⟩, trivial⟩
  · rw [hpar, if_neg hrb, if_neg hra]
  · rw [hch, if_neg hra, if_pos rfl]; rfl
  · rw [hpar, if_neg hab, if_pos rfl]
  · rw [hch, if_pos rfl, if_neg (Ne.symm hra)]; rfl
  · rw [hpar, if_pos rfl]
  · rw [hch, if_neg (Ne.symm hab), if_neg (Ne.symm hrb)]; rfl

theorem chain_inv (r a b : Nat) :
    Inv (runOps (freshHeap : Heap R) [TreeOp.attach r a, TreeOp.attach a b]) none false
      (Forest.cons r (Forest.cons a (Forest.cons b Forest.nil Forest.nil) Forest.nil)
        Forest.nil) := by
  have h1 : Inv (addChild (freshHeap : Heap R) r a).heap none false
      (Forest.cons r (Forest.cons a (Forest.cons b Forest.nil Forest.nil) Forest.nil)
        Forest.nil) := by
    apply inv_transfer _ (freshHeap : Heap R) _ none none false false _
      (Or.inr (Or.inl ⟨rfl, rfl⟩)) (inv_fresh _ none (Or.inl rfl))
    intro n _
    obtain ⟨par, ch, hn⟩ := addChild_heap_apply (freshHeap : Heap R) r a n
    rw [hn]
    exact stale_links _ par ch
  apply inv_transfer _ (addChild (freshHeap : Heap R) r a).heap _ none none false false _
    (Or.inr (Or.inl ⟨rfl, rfl⟩)) h1
  intro n _
  obtain ⟨par, ch, hn⟩ := addChild_heap_apply (addChild (freshHeap : Heap R) r a).heap a b n
  show Stale _ ((addChild (addChild (freshHeap : Heap R) r a).heap a b).heap n)
  rw [hn]
  exact stale_links _ par ch

theorem chain_trs (r a b n : Nat) :
    (runOps (freshHeap : Heap R) [TreeOp.attach r a, TreeOp.attach a b] n).translation
        = ![0, 0, 0] ∧
      (runOps (freshHeap : Heap R) [TreeOp.attach r a, TreeOp.attach a b] n).rotation
        = ![0, 0, 0, 1] ∧
      (runOps (freshHeap : Heap R) [TreeOp.attach r a, TreeOp.attach a b] n).scale
        = ![1, 1, 1] := by
  obtain ⟨par1, ch1, hn1⟩ := addChild_heap_apply (freshHeap : Heap R) r a n
  obtain ⟨par2, ch2, hn2⟩ := addChild_heap_apply (addChild (freshHeap : Heap R) r a).heap a b n
  have hrun : runOps (freshHeap : Heap R) [TreeOp.attach r a, TreeOp.attach a b] n
      = (addChild (addChild (freshHeap : Heap R) r a).heap a b).heap n := rfl
  rw [hrun, hn2, hn1]
  exact ⟨rfl, rfl, rfl⟩

theorem setTranslationOpt_translation_self (h : Heap R) (m : Nat) (t : Option (R × R × R))
    (h0 : (h m).translation = ![0, 0, 0]) :
    (setTranslationOpt h m t m).translation = translationOf t := by
  rw [(setTranslationOpt_trs h m t m).1, if_pos rfl]
  cases t with
  | none => exact h0
  | some v => rfl

theorem setTranslationOpt_translation_other (h : Heap R) (m n : Nat)
    (t : Option (R × R × R)) (hn : n ≠ m) :
    (setTranslationOpt h m t n).translation = (h n).translation := by
  rw [(setTranslationOpt_trs h m t n).1, if_neg hn]

theorem zero_add_vec3 (v : Vec3 R) : (![0, 0, 0] : Vec3 R) + v = v := by
  funext i
  fin_cases i <;> simp

theorem syncHierarchy_of_single (fuel : Nat) (h g : Heap R) (root : Nat)
    (hrun : [root].foldlM (fun acc c => syncHierarchy fuel acc c) h = some g) :
    syncHierarchy fuel h root = some g := by
  rw [List.foldlM_cons] at hrun
  cases hc : syncHierarchy fuel h root with
  | none => rw [hc] at hrun; exact Option.noConfusion hrun
  | some g' =>
    rw [hc] at hrun
    exact hrun

theorem sync_wtm_of_ne (h : Heap R) (self n : Nat) (hn : n ≠ self) :
    (sync h self n).wtm = (h n).wtm ∧ (sync h self n).ltm = (h n).ltm ∧
      (sync h self n).dirtyLocal = (h n).dirtyLocal ∧
      ((sync h self n).dirtyWorld = (h n).dirtyWorld ∨ (sync h self n).dirtyWorld = true) := by
  rw [sync_of_ne h self n hn]
  split
  · exact ⟨rfl, rfl, rfl, Or.inr rfl⟩
  · exact ⟨rfl, rfl, rfl, Or.inl rfl⟩

theorem dirty_of_flags (a : GraphNode R)
    (hd : a.dirtyLocal = true ∨ a.dirtyWorld = true) : a.dirty = true := by
  rcases hd with hd | hd <;> simp [GraphNode.dirty, hd]

theorem sync_self_of_dirty (h : Heap R) (self : Nat) (hd : (h self).dirty = true) :
    sync h self self
      = { syncLocal (h self) with
          wtm := expectWorld ((h self).parent.map fun p => (h p).wtm) (syncLocal (h self)).ltm,
          dirtyWorld := false } := by
  rw [sync_self]
  unfold syncedSelf
  rw [if_pos hd]

theorem syncLocal_ltm (a : GraphNode R) :
    (syncLocal a).ltm
      = if a.dirtyLocal = true then localFromTRS a.translation a.rotation a.scale
        else a.ltm := by
  unfold syncLocal
  by_cases hl : a.dirtyLocal = true
  · simp [hl]
  · simp [hl]

theorem nodeInv_iff (h : Heap R) (n : Nat) :
    NodeInv h n ↔
      ((h n).dirtyLocal = false →
          (h n).ltm = localFromTRS (h n).translation (h n).rotation (h n).scale) ∧
        ((h n).parent = none →
          (h n).wtm = (h n).ltm ∨ (h n).dirtyLocal = true ∨ (h n).dirtyWorld = true) ∧
        (∀ p, (h n).parent = some p →
          (h n).wtm = mat4Multiply (h p).wtm (h n).ltm ∨ (h n).dirtyLocal = true ∨
            (h n).dirtyWorld = true ∨ (h p).dirtyLocal = true ∨ (h p).dirtyWorld = true) := by
  unfold NodeInv
  cases hp : (h n).parent with
  | none => simp
  | some p => simp

theorem dirtyInv_fresh : DirtyInv (freshHeap : Heap R) := by
  intro n
  rw [nodeInv_iff]
  refine ⟨fun _ => ?_, fun _ => Or.inl rfl, fun p hp => ?_⟩
  · show mat4Identity = localFromTRS ![0, 0, 0] ![0, 0, 0, 1] ![1, 1, 1]
    rw [localFromTRS_translation, translationArray_zero]
  · exact Option.noConfusion hp

theorem dirtyInv_of_touch (h g : Heap R) (s : Nat) (hframe : ∀ n, n ≠ s → g n = h n)
    (hs : (g s).dirtyLocal = true) (hinv : DirtyInv h) : DirtyInv g := by
  intro n
  rw [nodeInv_iff]
  by_cases hn : n = s
  · subst hn
    refine ⟨fun hf => ?_, fun _ => Or.inr (Or.inl hs), fun p _ => Or.inr (Or.inl hs)⟩
    rw [hs] at hf
    exact Bool.noConfusion hf
  · have hold := (nodeInv_iff h n).mp (hinv n)
    rw [hframe n hn]
    refine ⟨hold.1, hold.2.1, fun p hp => ?_⟩
    by_cases hps : p = s
    · subst hps
      exact Or.inr (Or.inr (Or.inr (Or.inl hs)))
    · rw [hframe p hps]
      exact hold.2.2 p hp

theorem applyTRSOp_touch (setFromEulers : R → R → R → Quat R) (h : Heap R) (s : Nat)
    (op : TRSOp R) :
    (∀ n, n ≠ s → applyTRSOp setFromEulers h s op n = h n) ∧
      (applyTRSOp setFromEulers h s op s).ltm = (h s).ltm ∧
      (applyTRSOp setFromEulers h s op s).wtm = (h s).wtm ∧
      (applyTRSOp setFromEulers h s op s).dirtyWorld = (h s).dirtyWorld ∧
      (applyTRSOp setFromEulers h s op s).parent = (h s).parent ∧
      (applyTRSOp setFromEulers h s op s).children = (h s).children ∧
      ((applyTRSOp setFromEulers h s op s).dirtyLocal = true ∨
        applyTRSOp setFromEulers h s op = h) := by
  have hup : ∀ (a : GraphNode R) (n : Nat), n ≠ s → Function.update h s a n = h n :=
    fun a n hn => Function.update_noteq hn a h
  cases op with
  | setTranslation x y z =>
    exact ⟨fun n hn => hup _ n hn, by simp [applyTRSOp, setLocalTranslation],
      by simp [applyTRSOp, setLocalTranslation], by simp [applyTRSOp, setLocalTranslation],
      by simp [applyTRSOp, setLocalTranslation], by simp [applyTRSOp, setLocalTranslation],
      Or.inl (by simp [applyTRSOp, setLocalTranslation])⟩
  | setTranslationVec pos =>
    exact ⟨fun n hn => hup _ n hn, by simp [applyTRSOp, setLocalTranslationVec],
      by simp [applyTRSOp, setLocalTranslationVec], by simp [applyTRSOp, setLocalTranslationVec],
      by simp [applyTRSOp, setLocalTranslationVec], by simp [applyTRSOp, setLocalTranslationVec],
      Or.inl (by simp [applyTRSOp, setLocalTranslationVec])⟩
  | setRotation q =>
    exact ⟨fun n hn => hup _ n hn, by simp [applyTRSOp, setLocalRotation],
      by simp [applyTRSOp, setLocalRotation], by simp [applyTRSOp, setLocalRotation],
      by simp [applyTRSOp, setLocalRotation], by simp [applyTRSOp, setLocalRotation],
      Or.inl (by simp [applyTRSOp, setLocalRotation])⟩
  | setRotationEulers x y z =>
    exact ⟨fun n hn => hup _ n hn, by simp [applyTRSOp, setLocalRotationEulers],
      by simp [applyTRSOp, setLocalRotationEulers], by simp [applyTRSOp, setLocalRotationEulers],
      by simp [applyTRSOp, setLocalRotationEulers], by simp [applyTRSOp, setLocalRotationEulers],
      Or.inl (by simp [applyTRSOp, setLocalRotationEulers])⟩
  | setScale x y z =>
    exact ⟨fun n hn => hup _ n hn, by simp [applyTRSOp, setLocalScale],
      by simp [applyTRSOp, setLocalScale], by simp [applyTRSOp, setLocalScale],
      by simp [applyTRSOp, setLocalScale], by simp [applyTRSOp, setLocalScale],
      Or.inl (by simp [applyTRSOp, setLocalScale])⟩
  | setScaleVec v =>
    exact ⟨fun n hn => hup _ n hn, by simp [applyTRSOp, setLocalScaleVec],
      by simp [applyTRSOp, setLocalScaleVec], by simp [applyTRSOp, setLocalScaleVec],
      by simp [applyTRSOp, setLocalScaleVec], by simp [applyTRSOp, setLocalScaleVec],
      Or.inl (by simp [applyTRSOp, setLocalScaleVec])⟩
  | translate x y z space =>
    by_cases hsp : space = none ∨ space = some Space.LOCAL
    · exact ⟨fun n hn => by simp [applyTRSOp, translate, hsp, hup _ n hn],
        by simp [applyTRSOp, translate, hsp], by simp [applyTRSOp, translate, hsp],
        by simp [applyTRSOp, translate, hsp], by simp [applyTRSOp, translate, hsp],
        by simp [applyTRSOp, translate, hsp], Or.inl (by simp [applyTRSOp, translate, hsp])⟩
    · have heq : applyTRSOp setFromEulers h s (TRSOp.translate x y z space) = h := by
        simp [applyTRSOp, translate, hsp]
      rw [heq]
      exact ⟨fun _ _ => rfl, rfl, rfl, rfl, rfl, rfl, Or.inr rfl⟩
  | translateVec v space =>
    by_cases hsp : space = none ∨ space = some Space.LOCAL
    · exact ⟨fun n hn => by simp [applyTRSOp, translateVec, hsp, hup _ n hn],
        by simp [applyTRSOp, translateVec, hsp], by simp [applyTRSOp, translateVec, hsp],
        by simp [applyTRSOp, translateVec, hsp], by simp [applyTRSOp, translateVec, hsp],
        by simp [applyTRSOp, translateVec, hsp],
        Or.inl (by simp [applyTRSOp, translateVec, hsp])⟩
    · have heq : applyTRSOp setFromEulers h s (TRSOp.translateVec v space) = h := by
        simp [applyTRSOp, translateVec, hsp]
      rw [heq]
      exact ⟨fun _ _ => rfl, rfl, rfl, rfl, rfl, rfl, Or.inr rfl⟩
  | rotate x y z =>
    exact ⟨fun n hn => hup _ n hn, by simp [applyTRSOp, rotate],
      by simp [applyTRSOp, rotate], by simp [applyTRSOp, rotate],
      by simp [applyTRSOp, rotate], by simp [applyTRSOp, rotate],
      Or.inl (by simp [applyTRSOp, rotate])⟩

theorem dirtyInv_applyTRSOp (setFromEulers : R → R → R → Quat R) (h : Heap R) (s : Nat)
    (op : TRSOp R) (hinv : DirtyInv h) : DirtyInv (applyTRSOp setFromEulers h s op) := by
  obtain ⟨hframe, _, _, _, _, _, hd⟩ := applyTRSOp_touch setFromEulers h s op
  rcases hd with hd | hd
  · exact dirtyInv_of_touch h _ s hframe hd hinv
  · rw [hd]; exact hinv

theorem linksOk_congr (h g : Heap R)
    (hlinks : ∀ n, (g n).parent = (h n).parent ∧ (g n).children = (h n).children)
    (hok : LinksOk h) : LinksOk g := by
  constructor
  · intro n
    rw [(hlinks n).1]
    exact hok.1 n
  · intro m p hp
    rw [(hlinks p).2]
    rw [(hlinks m).1] at hp
    exact hok.2 m p hp

theorem dirtyInv_sync (h : Heap R) (self : Nat) (hinv : DirtyInv h) (hok : LinksOk h) :
    DirtyInv (sync h self) := by
  cases hd : (h self).dirty with
  | false => rw [sync_not_dirty h self hd]; exact hinv
  | true =>
    have hself := (nodeInv_iff h self).mp (hinv self)
    obtain ⟨_, hl1, hw1⟩ := sync_self_post h self hself.1 (Or.inl hd)
    have hclean := syncedSelf_flags h self
    rw [← sync_self] at hclean
    intro n
    rw [nodeInv_iff]
    by_cases hn : n = self
    · subst hn
      have hparent : (sync h n n).parent = (h n).parent := (sync_sameFrame h n n).2.2.2.2.1
      refine ⟨hl1, fun hp => Or.inl ?_, fun p hp => Or.inl ?_⟩
      · rw [hparent] at hp
        rw [hw1, hp]
        rfl
      · rw [hparent] at hp
        have hne : p ≠ n := fun hh => hok.1 n (by rw [hp, hh])
        rw [hw1, hp, (sync_wtm_of_ne h n p hne).1]
        rfl
    · have hold := (nodeInv_iff h n).mp (hinv n)
      obtain ⟨hwtm, hltm, hdl, hdw⟩ := sync_wtm_of_ne h self n hn
      obtain ⟨_, htr, hrot, hsc, hpar, _, _, _⟩ := sync_sameFrame h self n
      refine ⟨?_, ?_, ?_⟩
      · rw [hdl, hltm, htr, hrot, hsc]
        exact hold.1
      · intro hp
        rw [hpar] at hp
        rcases hdw with hdw | hdw
        · rw [hwtm, hltm, hdl, hdw]
          exact hold.2.1 hp
        · exact Or.inr (Or.inr hdw)
      · intro p hp
        rw [hpar] at hp
        by_cases hm : n ∈ (h self).children
        · exact Or.inr (Or.inr (Or.inl (by
            have := sync_child_dirty h self n hd hn hm
            rw [sync_of_ne h self n hn, if_pos ⟨hd, hm⟩])))
        · have hps : p ≠ self := fun hh => hm (hok.2 n self (by rw [hp, hh]))
          obtain ⟨hpw, _, hpdl, hpdw⟩ := sync_wtm_of_ne h self p hps
          rw [sync_frame h self n hn hm, hpw, hpdl]
          rcases hold.2.2 p hp with ho | ho | ho | ho | ho
          · exact Or.inl ho
          · exact Or.inr (Or.inl ho)
          · exact Or.inr (Or.inr (Or.inl ho))
          · exact Or.inr (Or.inr (Or.inr (Or.inl ho)))
          · refine Or.inr (Or.inr (Or.inr (Or.inr ?_)))
            rcases hpdw with hpdw | hpdw
            · rw [hpdw]; exact ho
            · exact hpdw

theorem syncForest_good (f : Forest) :
    ∀ (h : Heap R) (po : Option Nat) (fuel : Nat),
      f.height ≤ fuel → Shaped h po f → DirtyInv h → LinksOk h →
      ∃ g, f.roots.foldlM (fun acc c => syncHierarchy fuel acc c) h = some g ∧
        DirtyInv g ∧ LinksOk g ∧
        ∀ n, (g n).parent = (h n).parent ∧ (g n).children = (h n).children := by
  induction f with
  | nil =>
    intro h po fuel _ _ hinv hok
    exact ⟨h, rfl, hinv, hok, fun _ => ⟨rfl, rfl⟩⟩
  | cons id kids rest ihk ihr =>
    intro h po fuel hfuel hsh hinv hok
    obtain ⟨_, hch, hshk, hshr⟩ := hsh
    have hheight : kids.height + 1 ≤ fuel ∧ rest.height ≤ fuel := by
      simp only [Forest.height] at hfuel
      omega
    obtain ⟨fuel', hfuel'⟩ : ∃ k, fuel = k + 1 := ⟨fuel - 1, by omega⟩
    have hl1 : ∀ n, (sync h id n).parent = (h n).parent ∧
        (sync h id n).children = (h n).children :=
      fun n => sameFrame_links (sync_sameFrame h id n)
    obtain ⟨h2, hrun2, hinv2, hok2, hl2⟩ :=
      ihk (sync h id) (some id) fuel' (by omega)
        (shaped_congr kids h _ _ (fun n _ => hl1 n) hshk)
        (dirtyInv_sync h id hinv hok) (linksOk_congr h _ hl1 hok)
    have hl12 : ∀ n, (h2 n).parent = (h n).parent ∧ (h2 n).children = (h n).children :=
      fun n => ⟨(hl2 n).1.trans (hl1 n).1, (hl2 n).2.trans (hl1 n).2⟩
    have hstep : syncHierarchy fuel h id = some h2 := by
      rw [hfuel', syncHierarchy_succ, (hl1 id).2, hch]
      exact hrun2
    obtain ⟨h3, hrun3, hinv3, hok3, hl3⟩ :=
      ihr h2 po fuel hheight.2 (shaped_congr rest h _ _ (fun n _ => hl12 n) hshr) hinv2 hok2
    refine ⟨h3, ?_, hinv3, hok3,
      fun n => ⟨(hl3 n).1.trans (hl12 n).1, (hl3 n).2.trans (hl12 n).2⟩⟩
    show (id :: rest.roots).foldlM (fun acc c => syncHierarchy fuel acc c) h = some h3
    rw [List.foldlM_cons, hstep]
    exact hrun3

theorem inv_of_nodeInv (f : Forest) :
    ∀ (h : Heap R) (po : Option Nat), Shaped h po f → (∀ n, n ∈ f.ids → NodeInv h n) →
      Inv h (po.map fun p => (h p).wtm) (parentDirty h po) f := by
  induction f with
  | nil => intro h po _ _; trivial
  | cons id kids rest ihk ihr =>
    intro h po hsh hall
    obtain ⟨hpar, _, hshk, hshr⟩ := hsh
    have hid := (nodeInv_iff h id).mp (hall id (by simp [Forest.ids]))
    have hflags : ∀ a : GraphNode R, a.dirtyLocal = true ∨ a.dirtyWorld = true →
        a.dirty = true := dirty_of_flags
    refine ⟨hid.1, ?_, ihk h (some id) hshk (fun n hn => hall n (by simp [Forest.ids, hn])),
      ihr h po hshr (fun n hn => hall n (by simp [Forest.ids, hn]))⟩
    cases po with
    | none =>
      rcases hid.2.1 hpar with ho | ho | ho
      · exact Or.inr (Or.inr ho)
      · exact Or.inl (hflags _ (Or.inl ho))
      · exact Or.inl (hflags _ (Or.inr ho))
    | some p =>
      rcases hid.2.2 p hpar with ho | ho | ho | ho | ho
      · exact Or.inr (Or.inr ho)
      · exact Or.inl (hflags _ (Or.inl ho))
      · exact Or.inl (hflags _ (Or.inr ho))
      · exact Or.inr (Or.inl (hflags _ (Or.inl ho)))
      · exact Or.inr (Or.inl (hflags _ (Or.inr ho)))

theorem world_of_parent (f : Forest) :
    ∀ (g : Heap R) (po : Option Nat) (pw : Option (Mat4 R)),
      Shaped g po f → Inv g pw false f → (∀ n, n ∈ f.ids → (g n).dirty = false) →
      (∀ p, po = some p → pw = some (g p).wtm) →
      ∀ n, n ∈ f.ids → ∀ p, (g n).parent = some p →
        (g n).wtm = mat4Multiply (g p).wtm (g n).ltm := by
  induction f with
  | nil => intro g po pw _ _ _ _ n hn; simp [Forest.ids] at hn
  | cons id kids rest ihk ihr =>
    intro g po pw hsh hinv hclean hpw n hn p hp
    obtain ⟨hpar, _, hshk, hshr⟩ := hsh
    obtain ⟨_, hw, hinvk, hinvr⟩ := hinv
    have hcid : (g id).dirty = false := hclean id (by simp [Forest.ids])
    simp only [Forest.ids, List.mem_cons, List.mem_append] at hn
    rcases hn with hn | hn | hn
    · subst hn
      rw [hpar] at hp
      rw [hpw p hp] at hw
      rcases hw with hw | hw | hw
      · rw [hcid] at hw; exact Bool.noConfusion hw
      · exact Bool.noConfusion hw
      · exact hw
    · rw [hcid] at hinvk
      exact ihk g (some id) _ hshk hinvk (fun m hm => hclean m (by simp [Forest.ids, hm]))
        (fun q hq => by cases hq; rfl) n hn p hp
    · exact ihr g po pw hshr hinvr (fun m hm => hclean m (by simp [Forest.ids, hm]))
        hpw n hn p hp

theorem parentInChildren_runOps (ops : List TreeOp) :
    ∀ h : Heap R, (∀ m p, (h m).parent = some p → m ∈ (h p).children) →
      ∀ m p, (runOps h ops m).parent = some p → m ∈ (runOps h ops p).children := by
  induction ops with
  | nil => intro h hc; exact hc
  | cons op ops ih =>
    intro h hc
    apply ih
    cases op with
    | attach p0 c =>
      show ∀ m p, ((addChild h p0 c).heap m).parent = some p →
        m ∈ ((addChild h p0 c).heap p).children
      by_cases hp : (h c).parent = none
      · intro m p hm
        rw [addChild_parent h p0 c m hp] at hm
        rw [addChild_children h p0 c p hp]
        by_cases hmc : m = c
        · rw [if_pos hmc] at hm
          have hpp : p0 = p := Option.some.inj hm
          subst hpp
          simp [hmc]
        · rw [if_neg hmc] at hm
          have hmem := hc m p hm
          by_cases hpp : p = p0
          · subst hpp; simp [hmem]
          · simp [hpp, hmem]
      · rw [addChild_heap_of_parented h p0 c hp]
        exact hc
    | detach p0 c =>
      show ∀ m p, (removeChild h p0 c m).parent = some p → m ∈ (removeChild h p0 c p).children
      intro m p hm
      rw [removeChild_parent] at hm
      by_cases hmc : m = c
      · rw [if_pos hmc] at hm
        exact Option.noConfusion hm
      · rw [if_neg hmc] at hm
        have hmem := hc m p hm
        by_cases hpp : p = p0
        · subst hpp
          rw [removeChild_children]
          exact (List.mem_erase_of_ne hmc).mpr hmem
        · rw [removeChild_children_of_ne h p0 c p hpp]
          exact hmem

theorem syncForest_noop (f : Forest) :
    ∀ (h : Heap R) (po : Option Nat) (fuel : Nat),
      f.height ≤ fuel → Shaped h po f → (∀ n, n ∈ f.ids → (h n).dirty = false) →
      f.roots.foldlM (fun acc c => syncHierarchy fuel acc c) h = some h := by
  induction f with
  | nil => intro h po fuel _ _ _; rfl
  | cons id kids rest ihk ihr =>
    intro h po fuel hfuel hsh hclean
    obtain ⟨_, hch, hshk, hshr⟩ := hsh
    have hheight : kids.height + 1 ≤ fuel ∧ rest.height ≤ fuel := by
      simp only [Forest.height] at hfuel
      omega
    obtain ⟨fuel', hfuel'⟩ : ∃ k, fuel = k + 1 := ⟨fuel - 1, by omega⟩
    have hsync : sync h id = h := sync_not_dirty h id (hclean id (by simp [Forest.ids]))
    have hstep : syncHierarchy fuel h id = some h := by
      rw [hfuel', syncHierarchy_succ, hsync, hch]
      exact ihk h (some id) fuel' (by omega) hshk
        (fun n hn => hclean n (by simp [Forest.ids, hn]))
    show (id :: rest.roots).foldlM (fun acc c => syncHierarchy fuel acc c) h = some h
    rw [List.foldlM_cons, hstep]
    exact ihr h po fuel hheight.2 hshr (fun n hn => hclean n (by simp [Forest.ids, hn]))

theorem syncForest_clean (f : Forest) :
    ∀ (h : Heap R) (po : Option Nat) (fuel : Nat),
      f.height ≤ fuel → Shaped h po f → f.ids.Nodup →
      ∃ g, f.roots.foldlM (fun acc c => syncHierarchy fuel acc c) h = some g ∧
        (∀ n, n ∉ f.ids → g n = h n) ∧
        (∀ n, (g n).parent = (h n).parent ∧ (g n).children = (h n).children) ∧
        (∀ n, n ∈ f.ids → (g n).dirty = false) := by
  induction f with
  | nil =>
    intro h po fuel _ _ _
    exact ⟨h, rfl, fun _ _ => rfl, fun _ => ⟨rfl, rfl⟩, fun n hn => by simp [Forest.ids] at hn⟩
  | cons id kids rest ihk ihr =>
    intro h po fuel hfuel hsh hnd
    obtain ⟨_, hch, hshk, hshr⟩ := hsh
    have hnd' := List.nodup_cons.mp hnd
    have hidk : id ∉ kids.ids := fun hm => hnd'.1 (List.mem_append_left _ hm)
    have hidr : id ∉ rest.ids := fun hm => hnd'.1 (List.mem_append_right _ hm)
    have hndk : kids.ids.Nodup := (List.nodup_append.mp hnd'.2).1
    have hndr : rest.ids.Nodup := (List.nodup_append.mp hnd'.2).2.1
    have hdisj : ∀ n, n ∈ kids.ids → n ∉ rest.ids :=
      fun n hk hr => (List.nodup_append.mp hnd'.2).2.2 hk hr
    have hheight : kids.height + 1 ≤ fuel ∧ rest.height ≤ fuel := by
      simp only [Forest.height] at hfuel
      omega
    obtain ⟨fuel', hfuel'⟩ : ∃ k, fuel = k + 1 := ⟨fuel - 1, by omega⟩
    have hl1 : ∀ n, (sync h id n).parent = (h n).parent ∧
        (sync h id n).children = (h n).children :=
      fun n => sameFrame_links (sync_sameFrame h id n)
    have hframe1 : ∀ n, n ≠ id → n ∉ kids.ids → sync h id n = h n := by
      intro n hn hk
      apply sync_frame h id n hn
      rw [hch]
      exact fun hm => hk (roots_subset_ids kids n hm)
    have hclean1 : (sync h id id).dirty = false := by
      have hf := syncedSelf_flags h id
      rw [← sync_self] at hf
      simp [GraphNode.dirty, hf.1, hf.2]
    obtain ⟨h2, hrun2, hframe2, hl2, hclean2⟩ :=
      ihk (sync h id) (some id) fuel' (by omega)
        (shaped_congr kids h _ _ (fun n _ => hl1 n) hshk) hndk
    have hl12 : ∀ n, (h2 n).parent = (h n).parent ∧ (h2 n).children = (h n).children :=
      fun n => ⟨(hl2 n).1.trans (hl1 n).1, (hl2 n).2.trans (hl1 n).2⟩
    have hstep : syncHierarchy fuel h id = some h2 := by
      rw [hfuel', syncHierarchy_succ, (hl1 id).2, hch]
      exact hrun2
    obtain ⟨h3, hrun3, hframe3, hl3, hclean3⟩ :=
      ihr h2 po fuel hheight.2 (shaped_congr rest h _ _ (fun n _ => hl12 n) hshr) hndr
    refine ⟨h3, ?_, ?_, fun n => ⟨(hl3 n).1.trans (hl12 n).1, (hl3 n).2.trans (hl12 n).2⟩, ?_⟩
    · show (id :: rest.roots).foldlM (fun acc c => syncHierarchy fuel acc c) h = some h3
      rw [List.foldlM_cons, hstep]
      exact hrun3
    · intro n hn
      simp only [Forest.ids, List.mem_cons, List.mem_append, not_or] at hn
      rw [hframe3 n hn.2.2, hframe2 n hn.2.1, hframe1 n hn.1 hn.2.1]
    · intro n hn
      simp only [Forest.ids, List.mem_cons, List.mem_append] at hn
      rcases hn with hn | hn | hn
      · rw [hn, hframe3 id hidr, hframe2 id hidk]; exact hclean1
      · rw [hframe3 n (hdisj n hn)]; exact hclean2 n hn
      · exact hclean3 n hn

theorem subtreeIds_subset (N : Nat) (f : Forest) :
    ∀ n, n ∈ f.subtreeIds N → n ∈ f.ids := by
  induction f with
  | nil => intro n hn; simp [Forest.subtreeIds] at hn
  | cons id kids rest ihk ihr =>
    intro n hn
    simp only [Forest.subtreeIds] at hn
    simp only [Forest.ids, List.mem_cons, List.mem_append]
    by_cases hid : id = N
    · rw [if_pos hid] at hn
      rcases List.mem_cons.mp hn with hn | hn
      · exact Or.inl hn
      · exact Or.inr (Or.inl hn)
    · rw [if_neg hid] at hn
      rcases List.mem_append.mp hn with hn | hn
      · exact Or.inr (Or.inl (ihk n hn))
      · exact Or.inr (Or.inr (ihr n hn))

theorem mem_subtreeIds_self (N : Nat) (f : Forest) (hN : N ∈ f.ids) : N ∈ f.subtreeIds N := by
  induction f with
  | nil => simp [Forest.ids] at hN
  | cons id kids rest ihk ihr =>
    simp only [Forest.subtreeIds]
    by_cases hid : id = N
    · rw [if_pos hid]; exact List.mem_cons.mpr (Or.inl hid.symm)
    · rw [if_neg hid]
      simp only [Forest.ids, List.mem_cons, List.mem_append] at hN
      rcases hN with hN | hN | hN
      · exact absurd hN.symm hid
      · exact List.mem_append_left _ (ihk hN)
      · exact List.mem_append_right _ (ihr hN)

theorem syncForest_local (N : Nat) (f : Forest) :
    ∀ (h : Heap R) (po : Option Nat) (fuel : Nat),
      f.height ≤ fuel → Shaped h po f → f.ids.Nodup →
      (∀ n, n ∈ f.ids → n ∉ f.subtreeIds N → (h n).dirty = false) →
      ∃ g, f.roots.foldlM (fun acc c => syncHierarchy fuel acc c) h = some g ∧
        ∀ n, n ∉ f.subtreeIds N → g n = h n := by
  induction f with
  | nil =>
    intro h po fuel _ _ _ _
    exact ⟨h, rfl, fun _ _ => rfl⟩
  | cons id kids rest ihk ihr =>
    intro h po fuel hfuel hsh hnd hclean
    have hnd' := List.nodup_cons.mp hnd
    have hidk : id ∉ kids.ids := fun hm => hnd'.1 (List.mem_append_left _ hm)
    have hidr : id ∉ rest.ids := fun hm => hnd'.1 (List.mem_append_right _ hm)
    have hndk : kids.ids.Nodup := (List.nodup_append.mp hnd'.2).1
    have hndr : rest.ids.Nodup := (List.nodup_append.mp hnd'.2).2.1
    have hdisj : ∀ n, n ∈ kids.ids → n ∉ rest.ids :=
      fun n hk hr => (List.nodup_append.mp hnd'.2).2.2 hk hr
    have hheight : kids.height + 1 ≤ fuel ∧ rest.height ≤ fuel := by
      simp only [Forest.height] at hfuel
      omega
    obtain ⟨fuel', hfuel'⟩ : ∃ k, fuel = k + 1 := ⟨fuel - 1, by omega⟩
    by_cases hid : id = N
    · -- the whole first tree is the subtree of `N`; the siblings are clean
      have hsub : (Forest.cons id kids rest).subtreeIds N = id :: kids.ids := by
        simp [Forest.subtreeIds, hid]
      obtain ⟨g, hrun, hframe, hl, _⟩ :=
        syncForest_clean (Forest.cons id kids Forest.nil) h po fuel
          (by simp only [Forest.height]; omega)
          ⟨hsh.1, hsh.2.1, hsh.2.2.1, trivial⟩
          (by
            simp only [Forest.ids, List.append_nil]
            exact List.nodup_cons.mpr ⟨hidk, hndk⟩)
      have hstep : syncHierarchy fuel h id = some g := syncHierarchy_of_single fuel h g id hrun
      have hgrest : ∀ n, n ∈ rest.ids → g n = h n := by
        intro n hn
        apply hframe
        simp only [Forest.ids, List.append_nil, List.mem_cons, not_or]
        exact ⟨fun hh => hidr (hh ▸ hn), fun hk => hdisj n hk hn⟩
      have hrest : rest.roots.foldlM (fun acc c => syncHierarchy fuel acc c) g = some g := by
        apply syncForest_noop rest g po fuel hheight.2
          (shaped_congr rest h g po (fun n _ => hl n) hsh.2.2.2)
        intro n hn
        rw [hgrest n hn]
        apply hclean n (by simp [Forest.ids, hn])
        rw [hsub]
        simp only [List.mem_cons, not_or]
        exact ⟨fun hh => hidr (hh ▸ hn), fun hk => hdisj n hk hn⟩
      refine ⟨g, ?_, ?_⟩
      · show (id :: rest.roots).foldlM (fun acc c => syncHierarchy fuel acc c) h = some g
        rw [List.foldlM_cons, hstep]
        exact hrest
      · intro n hn
        rw [hsub] at hn
        apply hframe
        simpa [Forest.ids] using hn
    · -- the root is outside the subtree of `N`, hence clean
      have hsub : (Forest.cons id kids rest).subtreeIds N
          = kids.subtreeIds N ++ rest.subtreeIds N := by
        simp [Forest.subtreeIds, hid]
      have hidsub : id ∉ (Forest.cons id kids rest).subtreeIds N := by
        rw [hsub]
        intro hm
        rcases List.mem_append.mp hm with hm | hm
        · exact hidk (subtreeIds_subset N kids id hm)
        · exact hidr (subtreeIds_subset N rest id hm)
      have hsync : sync h id = h :=
        sync_not_dirty h id (hclean id (by simp [Forest.ids]) hidsub)
      obtain ⟨h2, hrun2, hframe2⟩ :=
        ihk h (some id) fuel' (by omega) hsh.2.2.1 hndk (by
          intro n hn hns
          apply hclean n (by simp [Forest.ids, hn])
          rw [hsub]
          intro hm
          rcases List.mem_append.mp hm with hm | hm
          · exact hns hm
          · exact hdisj n hn (subtreeIds_subset N rest n hm))
      have hstep : syncHierarchy fuel h id = some h2 := by
        rw [hfuel', syncHierarchy_succ, hsync, hsh.2.1]
        exact hrun2
      have h2rest : ∀ n, n ∈ rest.ids → h2 n = h n := by
        intro n hn
        apply hframe2
        exact fun hm => hdisj n (subtreeIds_subset N kids n hm) hn
      obtain ⟨h3, hrun3, hframe3⟩ :=
        ihr h2 po fuel hheight.2
          (shaped_congr rest h h2 po
            (fun n hn => sameFrame_links (sameFrame_of_eq (h2rest n hn))) hsh.2.2.2)
          hndr (by
            intro n hn hns
            rw [h2rest n hn]
            apply hclean n (by simp [Forest.ids, hn])
            rw [hsub]
            intro hm
            rcases List.mem_append.mp hm with hm | hm
            · exact hdisj n (subtreeIds_subset N kids n hm) hn
            · exact hns hm)
      refine ⟨h3, ?_, ?_⟩
      · show (id :: rest.roots).foldlM (fun acc c => syncHierarchy fuel acc c) h = some h3
        rw [List.foldlM_cons, hstep]
        exact hrun3
      · intro n hn
        rw [hsub] at hn
        simp only [List.mem_append, not_or] at hn
        rw [hframe3 n hn.2, hframe2 n hn.1]

end Lemmas

section Claims

variable {R : Type} [CommRing R]

/-- C1 (cascade completeness): let the heap hold a tree with root `root` (no
parent) and children forest `kids`, fully synchronized, and let `N` be one of
its nodes.  After `setLocalTranslation` on `N`, `syncHierarchy` on the root
returns (with any fuel not below the height of the tree), and in the heap it
leaves every node of the tree has both flags clear, has the translation just
set (for `N`) or its old TRS, has the local matrix of its TRS, and has a world
matrix equal to the product of the local matrices along its chain of parent
links up to the root. -/
theorem cascade_complete (h : Heap R) (root : Nat) (kids : Forest)
    (hshape : Shaped h none (Forest.cons root kids Forest.nil))
    (hnodup : (Forest.cons root kids Forest.nil).ids.Nodup)
    (hsynced : Synced h none (Forest.cons root kids Forest.nil))
    (N : Nat) (_hN : N ∈ (Forest.cons root kids Forest.nil).ids) (x y z : R)
    (fuel : Nat) (hfuel : (Forest.cons root kids Forest.nil).height ≤ fuel) :
    ∃ g, syncHierarchy fuel (setLocalTranslation h N x y z) root = some g ∧
      (g root).parent = none ∧
      ∀ n, n ∈ (Forest.cons root kids Forest.nil).ids →
        (g n).dirtyLocal = false ∧ (g n).dirtyWorld = false ∧
        (g n).translation = (if n = N then ![x, y, z] else (h n).translation) ∧
        (g n).rotation = (h n).rotation ∧ (g n).scale = (h n).scale ∧
        (g n).ltm = localFromTRS (g n).translation (g n).rotation (g n).scale ∧
        ∃ k, ancestor g k n = some root ∧ (g n).wtm = worldAlong g k n := by
  have hset : ∀ n, setLocalTranslation h N x y z n
      = if n = N then { h N with translation := ![x, y, z], dirtyLocal := true } else h n := by
    intro n
    unfold setLocalTranslation
    by_cases hn : n = N
    · subst hn; simp
    · simp [hn, Function.update_noteq hn]
  have hstale : ∀ n, Stale (h n) (setLocalTranslation h N x y z n) := by
    intro n
    rw [hset]
    by_cases hn : n = N
    · subst hn
      rw [if_pos rfl]
      refine ⟨fun _ hf => ?_, Or.inl (by simp [GraphNode.dirty])⟩
      exact Bool.noConfusion hf
    · rw [if_neg hn]; exact stale_refl _
  have hlinks : ∀ n, (setLocalTranslation h N x y z n).parent = (h n).parent ∧
      (setLocalTranslation h N x y z n).children = (h n).children := by
    intro n
    rw [hset]
    by_cases hn : n = N
    · subst hn; simp
    · simp [hn]
  obtain ⟨hinv0, _⟩ := inv_of_synced _ h none hsynced
  obtain ⟨g, hrun, _, hsame, hclean, hinv⟩ :=
    syncForest (Forest.cons root kids Forest.nil) (setLocalTranslation h N x y z) none fuel
      hfuel (shaped_congr _ h _ none (fun n _ => hlinks n) hshape) hnodup
      (fun p hp => Option.noConfusion hp) (fun p hp => Option.noConfusion hp)
      (inv_transfer _ h _ none none false false (fun n _ => hstale n)
        (Or.inr (Or.inl ⟨rfl, rfl⟩)) hinv0)
  have hrun' : syncHierarchy fuel (setLocalTranslation h N x y z) root = some g := by
    have hr : [root].foldlM (fun acc c => syncHierarchy fuel acc c)
        (setLocalTranslation h N x y z) = some g := hrun
    rw [List.foldlM_cons] at hr
    cases hc : syncHierarchy fuel (setLocalTranslation h N x y z) root with
    | none => rw [hc] at hr; exact Option.noConfusion hr
    | some g' =>
      rw [hc] at hr
      exact hr
  have hshg : Shaped g none (Forest.cons root kids Forest.nil) :=
    shaped_congr _ (setLocalTranslation h N x y z) g none
      (fun n hn => sameFrame_links (hsame n hn))
      (shaped_congr _ h _ none (fun n _ => hlinks n) hshape)
  have hrootmem : root ∈ (Forest.cons root kids Forest.nil).ids := by simp [Forest.ids]
  have hcroot : (g root).dirty = false := hclean root hrootmem
  have hwroot : (g root).wtm = worldAlong g 0 root := by
    rcases hinv.2.1 with hw | hw | hw
    · rw [hcroot] at hw; exact Bool.noConfusion hw
    · exact Bool.noConfusion hw
    · exact hw
  refine ⟨g, hrun', hshg.1, ?_⟩
  intro n hn
  have hcn := hclean n hn
  simp only [GraphNode.dirty, Bool.or_eq_false_iff] at hcn
  obtain ⟨_, htr, hrot, hsc, _, _, _, _⟩ := hsame n hn
  have hloc := inv_localOk _ g _ _ hinv n hn hcn.1
  refine ⟨hcn.1, hcn.2, ?_, ?_, ?_, hloc, ?_⟩
  · rw [htr, hset]
    by_cases hnN : n = N
    · simp [hnN]
    · simp [hnN]
  · rw [hrot, hset]
    by_cases hnN : n = N
    · simp [hnN]
    · simp [hnN]
  · rw [hsc, hset]
    by_cases hnN : n = N
    · simp [hnN]
    · simp [hnN]
  · simp only [Forest.ids, List.mem_cons, List.mem_append, List.not_mem_nil, or_false] at hn
    rcases hn with hn | hn
    · rw [hn]; exact ⟨0, rfl, hwroot⟩
    · have hk := hinv.2.2.1
      rw [hcroot] at hk
      exact world_along kids g root root 0 rfl hwroot hshg.2.2.1 hk
        (fun m hm => hclean m (by simp [Forest.ids, hm])) n hn

/-- C1, at a concrete input: the chain 0 -> 1 -> 2 of fresh nodes, with the
translation of the deepest node set to `(5, 0, 0)`. -/
theorem cascade_complete_witness :
    Shaped (runOps (freshHeap : Heap ℤ) [TreeOp.attach 0 1, TreeOp.attach 1 2]) none
      (Forest.cons 0 (Forest.cons 1 (Forest.cons 2 Forest.nil Forest.nil) Forest.nil)
        Forest.nil) ∧
    Synced (runOps (freshHeap : Heap ℤ) [TreeOp.attach 0 1, TreeOp.attach 1 2]) none
      (Forest.cons 0 (Forest.cons 1 (Forest.cons 2 Forest.nil Forest.nil) Forest.nil)
        Forest.nil) ∧
    ∃ g, syncHierarchy 3 (setLocalTranslation
        (runOps (freshHeap : Heap ℤ) [TreeOp.attach 0 1, TreeOp.attach 1 2]) 2 5 0 0) 0
          = some g ∧
      (g 2).dirtyLocal = false ∧ (g 2).dirtyWorld = false ∧
      ∃ k, ancestor g k 2 = some 0 ∧ (g 2).wtm = worldAlong g k 2 :=
  have hs : Shaped (runOps (freshHeap : Heap ℤ) [TreeOp.attach 0 1, TreeOp.attach 1 2]) none
      (Forest.cons 0 (Forest.cons 1 (Forest.cons 2 Forest.nil Forest.nil) Forest.nil)
        Forest.nil) := by
    simp only [Shaped]; decide
  have hy : Synced (runOps (freshHeap : Heap ℤ) [TreeOp.attach 0 1, TreeOp.attach 1 2]) none
      (Forest.cons 0 (Forest.cons 1 (Forest.cons 2 Forest.nil Forest.nil) Forest.nil)
        Forest.nil) := by
    simp only [Synced]; decide
  ⟨hs, hy, by
    obtain ⟨g, hg, _, hall⟩ := cascade_complete _ 0 _ hs (by decide) hy 2 (by decide)
      5 0 0 3 (by decide)
    have h2 := hall 2 (by decide)
    exact ⟨g, hg, h2.1, h2.2.1, h2.2.2.2.2.2.2⟩⟩

/-- C4 (dirty idempotence): on every heap and node, a second `sync` right after a
`sync` changes nothing in the whole heap, and `sync` on a node whose two flags
are clear leaves the whole heap as it is. -/
theorem sync_idempotent (h : Heap R) (self : Nat) :
    sync (sync h self) self = sync h self ∧
    ((h self).dirtyLocal = false → (h self).dirtyWorld = false → sync h self = h) := by
  refine ⟨?_, sync_clean h self⟩
  apply sync_clean
  · rw [sync_self]; exact (syncedSelf_flags h self).1
  · rw [sync_self]; exact (syncedSelf_flags h self).2

/-- C4, at a concrete input: a fresh node, whose two flags are clear. -/
theorem sync_idempotent_witness :
    sync (sync (freshHeap : Heap ℤ) 0) 0 = sync (freshHeap : Heap ℤ) 0 ∧
    sync (freshHeap : Heap ℤ) 0 = freshHeap :=
  ⟨(sync_idempotent (freshHeap : Heap ℤ) 0).1,
   (sync_idempotent (freshHeap : Heap ℤ) 0).2 (by decide) (by decide)⟩

/-- C6 (attachChild): `addChild` throws `alreadyParented` exactly when the child
has a parent; when it does not throw, the parent's children are the old
sequence with the child appended, the child's parent is the parent, and no
matrix and no dirty flag of any node changes. -/
theorem addChild_spec (h : Heap R) (parent child : Nat) :
    ((addChild h parent child).error = some GraphError.alreadyParented
      ↔ (h child).parent ≠ none) ∧
    ((addChild h parent child).error = none →
      ((addChild h parent child).heap parent).children = (h parent).children ++ [child] ∧
      ((addChild h parent child).heap child).parent = some parent ∧
      ∀ n, ((addChild h parent child).heap n).ltm = (h n).ltm ∧
        ((addChild h parent child).heap n).wtm = (h n).wtm ∧
        ((addChild h parent child).heap n).dirtyLocal = (h n).dirtyLocal ∧
        ((addChild h parent child).heap n).dirtyWorld = (h n).dirtyWorld) := by
  constructor
  · rw [addChild_error]
    by_cases hp : (h child).parent = none <;> simp [hp]
  · intro herr
    have hp : (h child).parent = none := by
      rw [addChild_error] at herr
      by_contra hne
      simp [hne] at herr
    rw [addChild_heap_of_free h parent child hp]
    unfold setParent
    refine ⟨?_, ?_, ?_⟩
    · by_cases hpc : parent = child
      · subst hpc; simp
      · simp [Function.update_noteq hpc]
    · simp
    · intro n
      by_cases hnc : n = child
      · subst hnc
        by_cases hnp : n = parent
        · subst hnp; simp
        · simp [Function.update_noteq hnp]
      · by_cases hnp : n = parent
        · subst hnp; simp [Function.update_noteq hnc]
        · simp [Function.update_noteq hnc, Function.update_noteq hnp]

/-- C6, at a concrete input: node 1 is attached to the fresh node 0. -/
theorem addChild_spec_witness :
    (addChild (freshHeap : Heap ℤ) 0 1).error = none ∧
    ((addChild (freshHeap : Heap ℤ) 0 1).heap 0).children = [1] ∧
    ((addChild (freshHeap : Heap ℤ) 0 1).heap 1).parent = some 0 :=
  ⟨by decide,
   ((addChild_spec (freshHeap : Heap ℤ) 0 1).2 (by decide)).1,
   ((addChild_spec (freshHeap : Heap ℤ) 0 1).2 (by decide)).2.1⟩

/-- C7 (attach guard): when `addChild` throws `alreadyParented`, the whole heap
is the heap before the call: the children of the child's parent, the
children of the attempted parent and the child's parent pointer included. -/
theorem addChild_error_unchanged (h : Heap R) (newParent child : Nat)
    (herr : (addChild h newParent child).error = some GraphError.alreadyParented) :
    (addChild h newParent child).heap = h := by
  apply addChild_heap_of_parented
  intro hp
  rw [addChild_error, if_pos hp] at herr
  exact Option.noConfusion herr

/-- C7, at a concrete input: node 1, child of node 0, is attached to node 2. -/
theorem addChild_error_unchanged_witness :
    (addChild (addChild (freshHeap : Heap ℤ) 0 1).heap 2 1).error
        = some GraphError.alreadyParented ∧
    (addChild (addChild (freshHeap : Heap ℤ) 0 1).heap 2 1).heap
        = (addChild (freshHeap : Heap ℤ) 0 1).heap :=
  ⟨by decide, addChild_error_unchanged _ 2 1 (by decide)⟩

/-- C8 (detachChild): `removeChild` is total; it sets the child's parent to
`none` whatever the parent's children are; it removes the first occurrence of
the child from the parent's children, keeping every other element in order (a
later duplicate included), and leaves the children as they are when the child
does not occur among them. -/
theorem removeChild_spec (h : Heap R) (parent child : Nat) :
    (removeChild h parent child child).parent = none ∧
    (∀ l1 l2, (h parent).children = l1 ++ child :: l2 → child ∉ l1 →
      (removeChild h parent child parent).children = l1 ++ l2) ∧
    (child ∉ (h parent).children →
      (removeChild h parent child parent).children = (h parent).children) := by
  refine ⟨?_, ?_, ?_⟩
  · rw [removeChild_parent]; simp
  · intro l1 l2 hcs hnot
    rw [removeChild_children, hcs, List.erase_append_right _ hnot, List.erase_cons_head]
  · intro hnot
    rw [removeChild_children, List.erase_of_not_mem hnot]

/-- C8, at a concrete input: node 1 occurs twice among the children of node 0,
around node 2; only the first occurrence goes. -/
theorem removeChild_spec_witness :
    (removeChild (Function.update (freshHeap : Heap ℤ) 0
        { (freshHeap : Heap ℤ) 0 with children := [2, 1, 3, 1] }) 0 1 0).children
      = [2] ++ [3, 1] :=
  (removeChild_spec (Function.update (freshHeap : Heap ℤ) 0
        { (freshHeap : Heap ℤ) 0 with children := [2, 1, 3, 1] }) 0 1).2.1
    [2] [3, 1] (by simp) (by decide)

/-- C5 as stated fails: with the unit quaternion `(0, 0, 3/5, 4/5)`, zero
translation and unit scale, the local matrix written by `sync` is not
`T(t) * R(q) * S(s)` for the standard rotation matrix `R(q)`. -/
theorem localMatrix_not_standard_rotation :
    toMatrix (sync (setLocalRotation (freshHeap : Heap ℚ) 0 ![0, 0, 3 / 5, 4 / 5]) 0 0).ltm
      ≠ translationMatrix ![0, 0, 0] * rotationMatrix ![0, 0, 3 / 5, 4 / 5]
          * scaleMatrix ![1, 1, 1] := by
  rw [sync_ltm_of_dirtyLocal _ _ (by simp [setLocalRotation])]
  intro h
  have h10 := congrFun (congrFun h 1) 0
  simp only [Matrix.mul_apply, Fin.sum_univ_four] at h10
  simp [toMatrix_apply, localFromTRS, idx, Mat4.ofEntries, translationMatrix, rotationMatrix,
    scaleMatrix, Matrix.vecHead, Matrix.vecTail, setLocalRotation, freshHeap,
    GraphNode.create] at h10
  norm_num at h10

/-- C5, amended: for a node with `dirtyLocal` set, the local matrix after `sync`
is `T(t) * R(q)ᵀ * S(s)` with the transpose of the standard rotation matrix:
column `j` of the upper 3x3 block is row `j` of `R(q)` times `s[j]`, the fourth
column is `(t[0], t[1], t[2], 1)` and the bottom row is `[0, 0, 0, 1]`. -/
theorem sync_localMatrix (h : Heap R) (self : Nat) (hd : (h self).dirtyLocal = true) :
    toMatrix (sync h self self).ltm
        = translationMatrix (h self).translation * (rotationMatrix (h self).rotation).transpose
            * scaleMatrix (h self).scale ∧
    (∀ i j : Fin 3, toMatrix (sync h self self).ltm i.castSucc j.castSucc
        = rotationMatrix (h self).rotation j.castSucc i.castSucc * (h self).scale j) ∧
    (∀ i : Fin 3, toMatrix (sync h self self).ltm i.castSucc 3 = (h self).translation i) ∧
    toMatrix (sync h self self).ltm 3 3 = 1 ∧
    (∀ j : Fin 3, toMatrix (sync h self self).ltm 3 j.castSucc = 0) := by
  have c0 : (Fin.castSucc (0 : Fin 3) : Fin 4) = 0 := rfl
  have c1 : (Fin.castSucc (1 : Fin 3) : Fin 4) = 1 := rfl
  have c2 : (Fin.castSucc (2 : Fin 3) : Fin 4) = 2 := rfl
  rw [sync_ltm_of_dirtyLocal h self hd]
  refine ⟨toMatrix_localFromTRS _ _ _, ?_, ?_, ?_, ?_⟩
  · intro i j
    fin_cases i <;> fin_cases j <;>
      simp [c0, c1, c2, toMatrix_apply, localFromTRS, idx, Mat4.ofEntries, rotationMatrix,
        Matrix.vecHead, Matrix.vecTail] <;> ring
  · intro i
    fin_cases i <;> simp [c0, c1, c2, toMatrix_apply, localFromTRS, idx, Mat4.ofEntries]
  · simp [toMatrix_apply, localFromTRS, idx, Mat4.ofEntries]
  · intro j
    fin_cases j <;> simp [c0, c1, c2, toMatrix_apply, localFromTRS, idx, Mat4.ofEntries]

/-- C5, amended, at a concrete input: a fresh node whose translation was set. -/
theorem sync_localMatrix_witness :
    toMatrix (sync (setLocalTranslation (freshHeap : Heap ℤ) 0 1 2 3) 0 0).ltm 3 3 = 1 :=
  (sync_localMatrix (setLocalTranslation (freshHeap : Heap ℤ) 0 1 2 3) 0 (by decide)).2.2.2.1

/-- C2 fails on the code: node 0 is translated to `(1, 0, 0)` and synchronized,
the fresh node 1 is then attached to it; after `syncHierarchy` on node 0 the
world matrix of node 1 is not the product of its parent's world matrix and its
local matrix (`addChild` sets no dirty flag, so `sync` skips node 1). -/
theorem attach_after_sync_stale :
    ∃ h2 h4 : Heap ℤ,
      syncHierarchy 1 (setLocalTranslation freshHeap 0 1 0 0) 0 = some h2 ∧
      (addChild h2 0 1).error = none ∧
      syncHierarchy 2 (addChild h2 0 1).heap 0 = some h4 ∧
      (h4 1).parent = some 0 ∧
      (h4 1).wtm 12 = 0 ∧ mat4Multiply (h4 0).wtm (h4 1).ltm 12 = 1 ∧
      (h4 1).wtm ≠ mat4Multiply (h4 0).wtm (h4 1).ltm := by
  refine ⟨_, _, rfl, by decide, rfl, by decide, by decide, by decide, ?_⟩
  intro h
  have h12 := congrFun h 12
  revert h12
  decide

/-- C3 fails on the code: node 1 is attached to node 0, which is translated to
`(1, 0, 0)`, and the hierarchy is synchronized; node 1 is then detached; after
`sync` on node 1, which has no parent, its world matrix is not its local matrix
(`removeChild` sets no dirty flag, so `sync` skips node 1). -/
theorem detach_after_sync_stale :
    ∃ h3 : Heap ℤ,
      syncHierarchy 2 (addChild (setLocalTranslation freshHeap 0 1 0 0) 0 1).heap 0 = some h3 ∧
      (sync (removeChild h3 0 1) 1 1).parent = none ∧
      (sync (removeChild h3 0 1) 1 1).wtm 12 = 1 ∧
      (sync (removeChild h3 0 1) 1 1).ltm 12 = 0 ∧
      (sync (removeChild h3 0 1) 1 1).wtm ≠ (sync (removeChild h3 0 1) 1 1).ltm := by
  refine ⟨_, rfl, by decide, by decide, by decide, ?_⟩
  intro h
  have h12 := congrFun h 12
  revert h12
  decide

/-- C9 as stated fails: after `addChild(0, 1)` and `removeChild(2, 1)` node 1 is
among the children of node 0 but has no parent; a following `addChild(2, 1)`
puts it among the children of both node 0 and node 2. -/
theorem consistency_broken_by_foreign_detach :
    1 ∈ (runOps (freshHeap : Heap ℤ) [TreeOp.attach 0 1, TreeOp.detach 2 1] 0).children ∧
    (runOps (freshHeap : Heap ℤ) [TreeOp.attach 0 1, TreeOp.detach 2 1] 1).parent = none ∧
    1 ∈ (runOps (freshHeap : Heap ℤ)
          [TreeOp.attach 0 1, TreeOp.detach 2 1, TreeOp.attach 2 1] 0).children ∧
    1 ∈ (runOps (freshHeap : Heap ℤ)
          [TreeOp.attach 0 1, TreeOp.detach 2 1, TreeOp.attach 2 1] 2).children := by
  decide

/-- C9, amended: starting from freshly constructed nodes, after every sequence
of `addChild` and `removeChild` calls (failed `addChild` calls included) in
which each `removeChild(p, c)` is called on a child `c` whose parent is `p` or
that has no parent, `c` is among the children of `p` exactly when the parent of
`c` is `p`; so no node is among the children of two different nodes. -/
theorem consistency_preserved (ops : List TreeOp)
    (hown : detachesOwn (freshHeap : Heap R) ops) :
    (∀ p c, c ∈ (runOps (freshHeap : Heap R) ops p).children
        ↔ (runOps (freshHeap : Heap R) ops c).parent = some p) ∧
    (∀ p q c, c ∈ (runOps (freshHeap : Heap R) ops p).children →
        c ∈ (runOps (freshHeap : Heap R) ops q).children → p = q) := by
  have hc := consistent_runOps ops (freshHeap : Heap R) consistent_fresh hown
  refine ⟨hc.1, ?_⟩
  intro p q c hp hq
  have h1 := (hc.1 p c).mp hp
  have h2 := (hc.1 q c).mp hq
  rw [h1] at h2
  exact Option.some.inj h2

/-- C9, amended, at a concrete input: two attaches, a failed attach and a detach
of node 1 from its own parent. -/
theorem consistency_preserved_witness :
    detachesOwn (freshHeap : Heap ℤ)
      [TreeOp.attach 0 1, TreeOp.attach 0 2, TreeOp.attach 2 1, TreeOp.detach 0 1] ∧
    ∀ p c, c ∈ (runOps (freshHeap : Heap ℤ)
          [TreeOp.attach 0 1, TreeOp.attach 0 2, TreeOp.attach 2 1, TreeOp.detach 0 1] p).children
      ↔ (runOps (freshHeap : Heap ℤ)
          [TreeOp.attach 0 1, TreeOp.attach 0 2, TreeOp.attach 2 1, TreeOp.detach 0 1] c).parent
          = some p :=
  ⟨⟨Or.inl rfl, trivial⟩,
   (consistency_preserved
      [TreeOp.attach 0 1, TreeOp.attach 0 2, TreeOp.attach 2 1, TreeOp.detach 0 1]
      ⟨Or.inl rfl, trivial⟩).1⟩

/-- C10 as stated fails: after `addChild(0, 0)` on a fresh node 0 the node is its
own parent, and after `addChild(0, 1)` and `addChild(1, 0)` the root 0 is the
child of its descendant 1; in both heaps the loop of `getRoot` on node 0 never
ends, whatever the fuel. -/
theorem attach_makes_cycle :
    (runOps (freshHeap : Heap ℤ) [TreeOp.attach 0 0] 0).parent = some 0 ∧
    (∀ fuel, getRoot fuel (runOps (freshHeap : Heap ℤ) [TreeOp.attach 0 0]) 0 = none) ∧
    ancestor (runOps (freshHeap : Heap ℤ) [TreeOp.attach 0 1, TreeOp.attach 1 0]) 2 0
      = some 0 ∧
    (∀ fuel, getRoot fuel
      (runOps (freshHeap : Heap ℤ) [TreeOp.attach 0 1, TreeOp.attach 1 0]) 0 = none) := by
  refine ⟨by decide, ?_, by decide, ?_⟩
  · have hloop : ∀ fuel,
        getRootLoop fuel (runOps (freshHeap : Heap ℤ) [TreeOp.attach 0 0]) 0 = none := by
      intro fuel
      induction fuel with
      | zero => rfl
      | succ fuel ih => exact ih
    intro fuel
    exact hloop fuel
  · have hloop : ∀ fuel,
        getRootLoop fuel
          (runOps (freshHeap : Heap ℤ) [TreeOp.attach 0 1, TreeOp.attach 1 0]) 0 = none ∧
        getRootLoop fuel
          (runOps (freshHeap : Heap ℤ) [TreeOp.attach 0 1, TreeOp.attach 1 0]) 1 = none := by
      intro fuel
      induction fuel with
      | zero => exact ⟨rfl, rfl⟩
      | succ fuel ih => exact ⟨ih.2, ih.1⟩
    intro fuel
    exact (hloop fuel).2

/-- C10, amended: starting from freshly constructed nodes, after every sequence
of `addChild` and `removeChild` calls in which each `addChild(p, c)` that does
not throw is called with `c` neither `p` nor an ancestor of `p`, the parent
links contain no cycle and `getRoot` returns on every node. -/
theorem attach_below_no_cycle (ops : List TreeOp)
    (hbelow : attachesBelow (freshHeap : Heap R) ops) :
    (∀ n k, 0 < k → ancestor (runOps (freshHeap : Heap R) ops) k n ≠ some n) ∧
    (∀ n, ∃ fuel r, getRoot fuel (runOps (freshHeap : Heap R) ops) n = some r) := by
  have hg := grounded_runOps ops (freshHeap : Heap R) grounded_fresh hbelow
  exact ⟨fun n k hk => grounded_no_cycle _ hg n k hk, fun n => getRoot_of_grounded _ hg n⟩

/-- C10, amended, at a concrete input: the chain 0 -> 1 -> 2 is built and node 2
is detached again. -/
theorem attach_below_no_cycle_witness :
    attachesBelow (freshHeap : Heap ℤ)
      [TreeOp.attach 0 1, TreeOp.attach 1 2, TreeOp.detach 1 2] ∧
    ∀ n, ∃ fuel r, getRoot fuel (runOps (freshHeap : Heap ℤ)
      [TreeOp.attach 0 1, TreeOp.attach 1 2, TreeOp.detach 1 2]) n = some r :=
  have hb : attachesBelow (freshHeap : Heap ℤ)
      [TreeOp.attach 0 1, TreeOp.attach 1 2, TreeOp.detach 1 2] :=
    ⟨fun _ k => by
       rcases k with _ | k
       · decide
       · show (none : Option Nat) ≠ some 1
         simp,
     fun _ k => by
       rcases k with _ | _ | k
       · decide
       · decide
       · show (none : Option Nat) ≠ some 2
         simp,
     trivial⟩
  ⟨hb, (attach_below_no_cycle _ hb).2⟩

/-- C11 (getRoot): for a node whose chain of parent links ends after `k` links,
`getRoot` returns (with any fuel from `k` on) a node `r` without parent that is
reached from the node by parent links; `r` is the only such node, it is the
node itself when the node has no parent and a proper ancestor otherwise, and
`getRoot` on `r` returns `r`.  (`getRoot` writes nothing: it yields only the
node.) -/
theorem getRoot_spec (h : Heap R) (n k : Nat) (hk : ancestor h k n = none) :
    ∃ r, (∀ fuel, k ≤ fuel → getRoot fuel h n = some r) ∧
      (h r).parent = none ∧
      (∃ j, ancestor h j n = some r ∧ ((h n).parent ≠ none → 0 < j)) ∧
      (∀ j r', ancestor h j n = some r' → (h r').parent = none → r' = r) ∧
      ((h n).parent = none → r = n) ∧
      (∀ fuel, getRoot fuel h r = some r) := by
  cases k with
  | zero => simp [ancestor] at hk
  | succ k =>
    cases hp : (h n).parent with
    | none =>
      refine ⟨n, fun fuel _ => getRoot_of_root h n hp fuel, hp,
        ⟨0, rfl, fun hne => absurd rfl hne⟩, ?_, fun _ => rfl,
        fun fuel => getRoot_of_root h n hp fuel⟩
      intro j r' hj hr'
      exact ancestor_root_unique h n j 0 r' n hj hr' rfl hp
    | some p =>
      simp only [ancestor, hp] at hk
      cases k with
      | zero => simp [ancestor] at hk
      | succ k =>
        obtain ⟨r, j, hj, hr, hrun⟩ := getRootLoop_spec h k p hk
        have hjn : ancestor h (j + 1) n = some r := by
          simp only [ancestor, hp]; exact hj
        refine ⟨r, ?_, hr, ⟨j + 1, hjn, fun _ => Nat.succ_pos j⟩, ?_, ?_,
          fun fuel => getRoot_of_root h r hr fuel⟩
        · intro fuel hfuel
          simp only [getRoot, getParent, hp]
          exact hrun fuel (by omega)
        · intro j' r' hj' hr'
          exact ancestor_root_unique h n j' (j + 1) r' r hj' hr' hjn hr
        · intro hnone
          exact Option.noConfusion hnone

/-- C11, at a concrete input: node 2 of the chain 0 -> 1 -> 2. -/
theorem getRoot_spec_witness :
    ancestor (runOps (freshHeap : Heap ℤ) [TreeOp.attach 0 1, TreeOp.attach 1 2]) 3 2 = none ∧
    ∃ r, (∀ fuel, 3 ≤ fuel →
        getRoot fuel (runOps (freshHeap : Heap ℤ) [TreeOp.attach 0 1, TreeOp.attach 1 2]) 2
          = some r) ∧
      (runOps (freshHeap : Heap ℤ) [TreeOp.attach 0 1, TreeOp.attach 1 2] r).parent = none :=
  ⟨by decide, by
    obtain ⟨r, hrun, hr, _⟩ := getRoot_spec
      (runOps (freshHeap : Heap ℤ) [TreeOp.attach 0 1, TreeOp.attach 1 2]) 2 3 (by decide)
    exact ⟨r, hrun, hr⟩⟩

/-- C12 (world translation along the chain): let `r`, `a`, `b` be different
fresh nodes, `a` attached to `r` and `b` to `a`, each with its translation set
or left alone (rotation and scale untouched).  `syncHierarchy` on `r` returns,
and the translation column of each world matrix is the sum of the translations
of the node and its ancestors.  After setting the translation of `a` to
`(x, y, z)`, `syncHierarchy` on `r` returns again and the column of `b` is the
sum with the new translation of `a`; when `r` has the zero translation this is
`(x, y, z)` plus the translation of `b`, and the world matrix of `r` is the
identity. -/
theorem world_translation_chain (r a b : Nat) (hra : r ≠ a) (hrb : r ≠ b) (hab : a ≠ b)
    (tr ta tb : Option (R × R × R)) (x y z : R) (fuel : Nat) (hfuel : 3 ≤ fuel) :
    ∃ g1 g2,
      syncHierarchy fuel
        (setTranslationOpt (setTranslationOpt (setTranslationOpt
          (runOps (freshHeap : Heap R) [TreeOp.attach r a, TreeOp.attach a b]) r tr) a ta)
          b tb) r = some g1 ∧
      getWorldTranslation g1 r = translationOf tr ∧
      getWorldTranslation g1 a = translationOf tr + translationOf ta ∧
      getWorldTranslation g1 b = translationOf tr + translationOf ta + translationOf tb ∧
      syncHierarchy fuel (setLocalTranslation g1 a x y z) r = some g2 ∧
      getWorldTranslation g2 b = translationOf tr + ![x, y, z] + translationOf tb ∧
      (translationOf tr = ![0, 0, 0] →
        getWorldTranslation g2 b = ![x, y, z] + translationOf tb ∧
        (g2 r).wtm = mat4Identity) := by
  have hmr : r ∈ (Forest.cons r (Forest.cons a (Forest.cons b Forest.nil Forest.nil)
      Forest.nil) Forest.nil).ids := by simp [Forest.ids]
  have hma : a ∈ (Forest.cons r (Forest.cons a (Forest.cons b Forest.nil Forest.nil)
      Forest.nil) Forest.nil).ids := by simp [Forest.ids]
  have hmb : b ∈ (Forest.cons r (Forest.cons a (Forest.cons b Forest.nil Forest.nil)
      Forest.nil) Forest.nil).ids := by simp [Forest.ids]
  have hnodup : (Forest.cons r (Forest.cons a (Forest.cons b Forest.nil Forest.nil)
      Forest.nil) Forest.nil).ids.Nodup := by
    simp [Forest.ids, hra, hrb, hab]
  have hheight : (Forest.cons r (Forest.cons a (Forest.cons b Forest.nil Forest.nil)
      Forest.nil) Forest.nil).height ≤ fuel := by
    simp only [Forest.height]
    omega
  -- the heap before the first synchronization
  have hsh2 := shaped_congr _ _ _ none (fun n _ => setTranslationOpt_links _ b tb n)
    (shaped_congr _ _ _ none (fun n _ => setTranslationOpt_links _ a ta n)
      (shaped_congr _ _ _ none (fun n _ => setTranslationOpt_links _ r tr n)
        (chain_shaped (R := R) r a b hra hrb hab)))
  have hinv2 := inv_transfer _ _ _ none none false false
    (fun n _ => setTranslationOpt_stale _ b tb n) (Or.inr (Or.inl ⟨rfl, rfl⟩))
    (inv_transfer _ _ _ none none false false
      (fun n _ => setTranslationOpt_stale _ a ta n) (Or.inr (Or.inl ⟨rfl, rfl⟩))
      (inv_transfer _ _ _ none none false false
        (fun n _ => setTranslationOpt_stale _ r tr n) (Or.inr (Or.inl ⟨rfl, rfl⟩))
        (chain_inv (R := R) r a b)))
  have hrs2 : ∀ n, (setTranslationOpt (setTranslationOpt (setTranslationOpt
      (runOps (freshHeap : Heap R) [TreeOp.attach r a, TreeOp.attach a b]) r tr) a ta)
      b tb n).rotation = ![0, 0, 0, 1] ∧
      (setTranslationOpt (setTranslationOpt (setTranslationOpt
      (runOps (freshHeap : Heap R) [TreeOp.attach r a, TreeOp.attach a b]) r tr) a ta)
      b tb n).scale = ![1, 1, 1] := by
    intro n
    rw [(setTranslationOpt_trs _ b tb n).2.1, (setTranslationOpt_trs _ b tb n).2.2,
      (setTranslationOpt_trs _ a ta n).2.1, (setTranslationOpt_trs _ a ta n).2.2,
      (setTranslationOpt_trs _ r tr n).2.1, (setTranslationOpt_trs _ r tr n).2.2]
    exact (chain_trs r a b n).2
  have htr2 : (setTranslationOpt (setTranslationOpt (setTranslationOpt
      (runOps (freshHeap : Heap R) [TreeOp.attach r a, TreeOp.attach a b]) r tr) a ta)
      b tb r).translation = translationOf tr := by
    rw [setTranslationOpt_translation_other _ b r tb hrb,
      setTranslationOpt_translation_other _ a r ta hra]
    exact setTranslationOpt_translation_self _ r tr (chain_trs r a b r).1
  have hta2 : (setTranslationOpt (setTranslationOpt (setTranslationOpt
      (runOps (freshHeap : Heap R) [TreeOp.attach r a, TreeOp.attach a b]) r tr) a ta)
      b tb a).translation = translationOf ta := by
    rw [setTranslationOpt_translation_other _ b a tb hab]
    apply setTranslationOpt_translation_self _ a ta
    rw [setTranslationOpt_translation_other _ r a tr (Ne.symm hra)]
    exact (chain_trs r a b a).1
  have htb2 : (setTranslationOpt (setTranslationOpt (setTranslationOpt
      (runOps (freshHeap : Heap R) [TreeOp.attach r a, TreeOp.attach a b]) r tr) a ta)
      b tb b).translation = translationOf tb := by
    apply setTranslationOpt_translation_self _ b tb
    rw [setTranslationOpt_translation_other _ a b ta (Ne.symm hab),
      setTranslationOpt_translation_other _ r b tr (Ne.symm hrb)]
    exact (chain_trs r a b b).1
  -- the first synchronization
  obtain ⟨g1, hrun1, _, hsame1, hclean1, hinv1⟩ :=
    syncForest _ _ none fuel hheight hsh2 hnodup
      (fun p hp => Option.noConfusion hp) (fun p hp => Option.noConfusion hp) hinv2
  have hfr1 : ∀ n, n ∈ (Forest.cons r (Forest.cons a (Forest.cons b Forest.nil Forest.nil)
      Forest.nil) Forest.nil).ids →
      (g1 n).rotation = ![0, 0, 0, 1] ∧ (g1 n).scale = ![1, 1, 1] := by
    intro n hn
    obtain ⟨_, _, hrot, hsc, _, _, _, _⟩ := hsame1 n hn
    rw [hrot, hsc]
    exact hrs2 n
  have htr1 : (g1 r).translation = translationOf tr := by
    rw [(hsame1 r hmr).2.1]; exact htr2
  have hta1 : (g1 a).translation = translationOf ta := by
    rw [(hsame1 a hma).2.1]; exact hta2
  have htb1 : (g1 b).translation = translationOf tb := by
    rw [(hsame1 b hmb).2.1]; exact htb2
  obtain ⟨hwr1, hwa1, hwb1⟩ := chain_world g1 r a b hinv1
    (hclean1 r hmr) (hclean1 a hma) (hclean1 b hmb)
    (hfr1 r hmr).1 (hfr1 r hmr).2 (hfr1 a hma).1 (hfr1 a hma).2 (hfr1 b hmb).1 (hfr1 b hmb).2
  rw [htr1, hta1, htb1] at hwb1
  rw [htr1, hta1] at hwa1
  rw [htr1] at hwr1
  -- the second synchronization
  have hsh1 : Shaped g1 none (Forest.cons r (Forest.cons a (Forest.cons b Forest.nil
      Forest.nil) Forest.nil) Forest.nil) :=
    shaped_congr _ _ g1 none (fun n hn => sameFrame_links (hsame1 n hn)) hsh2
  obtain ⟨g2, hrun2, _, hsame2, hclean2, hinv2'⟩ :=
    syncForest _ (setLocalTranslation g1 a x y z) none fuel hheight
      (shaped_congr _ g1 _ none (fun n _ => setLocalTranslation_links g1 a x y z n) hsh1)
      hnodup (fun p hp => Option.noConfusion hp) (fun p hp => Option.noConfusion hp)
      (inv_transfer _ g1 _ none none false false
        (fun n _ => setLocalTranslation_stale g1 a x y z n) (Or.inr (Or.inl ⟨rfl, rfl⟩)) hinv1)
  have hfr2 : ∀ n, n ∈ (Forest.cons r (Forest.cons a (Forest.cons b Forest.nil Forest.nil)
      Forest.nil) Forest.nil).ids →
      (g2 n).rotation = ![0, 0, 0, 1] ∧ (g2 n).scale = ![1, 1, 1] := by
    intro n hn
    obtain ⟨_, _, hrot, hsc, _, _, _, _⟩ := hsame2 n hn
    rw [hrot, hsc, (setLocalTranslation_trs g1 a x y z n).2.1,
      (setLocalTranslation_trs g1 a x y z n).2.2]
    exact hfr1 n hn
  have htr3 : (g2 r).translation = translationOf tr := by
    rw [(hsame2 r hmr).2.1, (setLocalTranslation_trs g1 a x y z r).1, if_neg hra]
    exact htr1
  have hta3 : (g2 a).translation = ![x, y, z] := by
    rw [(hsame2 a hma).2.1, (setLocalTranslation_trs g1 a x y z a).1, if_pos rfl]
  have htb3 : (g2 b).translation = translationOf tb := by
    rw [(hsame2 b hmb).2.1, (setLocalTranslation_trs g1 a x y z b).1, if_neg (Ne.symm hab)]
    exact htb1
  obtain ⟨hwr2, _, hwb2⟩ := chain_world g2 r a b hinv2'
    (hclean2 r hmr) (hclean2 a hma) (hclean2 b hmb)
    (hfr2 r hmr).1 (hfr2 r hmr).2 (hfr2 a hma).1 (hfr2 a hma).2 (hfr2 b hmb).1 (hfr2 b hmb).2
  rw [htr3, hta3, htb3] at hwb2
  rw [htr3] at hwr2
  refine ⟨g1, g2, syncHierarchy_of_single fuel _ g1 r hrun1,
    getWorldTranslation_of_translationArray g1 r _ hwr1,
    getWorldTranslation_of_translationArray g1 a _ hwa1,
    getWorldTranslation_of_translationArray g1 b _ hwb1,
    syncHierarchy_of_single fuel _ g2 r hrun2,
    getWorldTranslation_of_translationArray g2 b _ hwb2, ?_⟩
  intro hzero
  constructor
  · rw [getWorldTranslation_of_translationArray g2 b _ hwb2, hzero, zero_add_vec3]
  · rw [hwr2, hzero, translationArray_zero]

/-- C12, at a concrete input: the witness of the claim, with `r` not translated,
`a` at `(1, 0, 0)`, `b` at `(0, 2, 0)`, and then `a` at `(5, 0, 0)`. -/
theorem world_translation_chain_witness :
    ∃ g1 g2 : Heap ℤ,
      syncHierarchy 3
        (setTranslationOpt (setTranslationOpt (setTranslationOpt
          (runOps (freshHeap : Heap ℤ) [TreeOp.attach 0 1, TreeOp.attach 1 2]) 0 none) 1
          (some (1, 0, 0))) 2 (some (0, 2, 0))) 0 = some g1 ∧
      getWorldTranslation g1 1 = ![1, 0, 0] ∧
      getWorldTranslation g1 2 = ![1, 2, 0] ∧
      syncHierarchy 3 (setLocalTranslation g1 1 5 0 0) 0 = some g2 ∧
      getWorldTranslation g2 2 = ![5, 2, 0] ∧
      (g2 0).wtm = mat4Identity := by
  obtain ⟨g1, g2, h1, _, ha, hb, h2, _, hz⟩ :=
    world_translation_chain (R := ℤ) 0 1 2 (by decide) (by decide) (by decide)
      none (some (1, 0, 0)) (some (0, 2, 0)) 5 0 0 3 (by decide)
  exact ⟨g1, g2, h1, ha.trans (by decide), hb.trans (by decide), h2,
    (hz rfl).1.trans (by decide), (hz rfl).2⟩

/-- C13 fails on the code: `lookAt` overwrites the rotation and keeps the
translation but never sets `dirtyLocal`.  On a fresh node, with a look-at
quaternion `(1, 0, 0, 0)`, the flag stays clear, the following `sync` changes
nothing, and the local matrix stays the identity, which is not the matrix of
the new rotation. -/
theorem lookAt_leaves_clean :
    (lookAt (fun _ _ _ => mat4Identity) (fun _ => ![1, 0, 0, 0])
        (freshHeap : Heap ℤ) 0 ![0, 0, 1] ![0, 1, 0] 0).rotation = ![1, 0, 0, 0] ∧
    (lookAt (fun _ _ _ => mat4Identity) (fun _ => ![1, 0, 0, 0])
        (freshHeap : Heap ℤ) 0 ![0, 0, 1] ![0, 1, 0] 0).dirtyLocal = false ∧
    sync (lookAt (fun _ _ _ => mat4Identity) (fun _ => ![1, 0, 0, 0])
        (freshHeap : Heap ℤ) 0 ![0, 0, 1] ![0, 1, 0]) 0
      = lookAt (fun _ _ _ => mat4Identity) (fun _ => ![1, 0, 0, 0])
        (freshHeap : Heap ℤ) 0 ![0, 0, 1] ![0, 1, 0] ∧
    (sync (lookAt (fun _ _ _ => mat4Identity) (fun _ => ![1, 0, 0, 0])
        (freshHeap : Heap ℤ) 0 ![0, 0, 1] ![0, 1, 0]) 0 0).ltm 5 = 1 ∧
    localFromTRS (![0, 0, 0] : Vec3 ℤ) ![1, 0, 0, 0] ![1, 1, 1] 5 = -1 := by
  refine ⟨by decide, by decide, ?_, by decide, by decide⟩
  exact sync_clean _ 0 (by decide) (by decide)

/-- C14 as stated fails: with old rotation `q = (1, 0, 0, 0)` and a delta
`(0, 1, 0, 0)` (a half turn about the y axis), the rotation after `rotate` is
`q × delta = (0, 0, 1, 0)`, not `delta × q = (0, 0, -1, 0)`. -/
theorem rotate_not_premultiplied :
    (rotate (fun _ _ _ => ![0, 1, 0, 0])
        (setLocalRotation (freshHeap : Heap ℤ) 0 ![1, 0, 0, 0]) 0 0 180 0 0).rotation
      = ![0, 0, 1, 0] ∧
    quatMultiply (![0, 1, 0, 0] : Quat ℤ)
        (setLocalRotation (freshHeap : Heap ℤ) 0 ![1, 0, 0, 0] 0).rotation
      = ![0, 0, -1, 0] ∧
    (rotate (fun _ _ _ => ![0, 1, 0, 0])
        (setLocalRotation (freshHeap : Heap ℤ) 0 ![1, 0, 0, 0]) 0 0 180 0 0).rotation
      ≠ quatMultiply (![0, 1, 0, 0] : Quat ℤ)
          (setLocalRotation (freshHeap : Heap ℤ) 0 ![1, 0, 0, 0] 0).rotation := by
  decide

/-- C14, amended: for every node with rotation `q` and every Euler triple with
`delta = setFromEulers(x, y, z)`, after `rotate(x, y, z)` the rotation is the
product `q × delta` (the delta multiplied onto the old rotation from the
right), `dirtyLocal` is set, and nothing else changes: translation, scale and
every other field of the node, and every other node. -/
theorem rotate_spec (setFromEulers : R → R → R → Quat R) (h : Heap R) (self : Nat)
    (x y z : R) :
    toQuaternion (rotate setFromEulers h self x y z self).rotation
      = toQuaternion (h self).rotation * toQuaternion (setFromEulers x y z) ∧
    (rotate setFromEulers h self x y z self).dirtyLocal = true ∧
    rotate setFromEulers h self x y z self
      = { h self with
          rotation := (rotate setFromEulers h self x y z self).rotation,
          dirtyLocal := true } ∧
    ∀ n, n ≠ self → rotate setFromEulers h self x y z n = h n := by
  refine ⟨?_, ?_, ?_, ?_⟩
  · rw [← toQuaternion_quatMultiply]
    simp [rotate]
  · simp [rotate]
  · simp [rotate]
  · intro n hn
    simp [rotate, Function.update_noteq hn]

/-- C14, amended, at a concrete input: a fresh node rotated by a half turn about
the y axis, while node 1 is left alone. -/
theorem rotate_spec_witness :
    (rotate (fun _ _ _ => ![0, 1, 0, 0]) (freshHeap : Heap ℤ) 0 0 180 0 0).dirtyLocal = true ∧
    rotate (fun _ _ _ => ![0, 1, 0, 0]) (freshHeap : Heap ℤ) 0 0 180 0 1
      = (freshHeap : Heap ℤ) 1 :=
  ⟨(rotate_spec (fun _ _ _ => ![0, 1, 0, 0]) (freshHeap : Heap ℤ) 0 0 180 0).2.1,
   (rotate_spec (fun _ _ _ => ![0, 1, 0, 0]) (freshHeap : Heap ℤ) 0 0 180 0).2.2.2 1
     (by decide)⟩

/-- C15 (translate): in the three-scalar and in the single-vector form, with the
space omitted or `LOCAL` the node's translation becomes the component-wise
sum, `dirtyLocal` is set and nothing else changes; with the space `WORLD` the
whole heap is unchanged. -/
theorem translate_spec (h : Heap R) (self : Nat) (x y z : R) (v : Vec3 R) :
    (∀ space, space = none ∨ space = some Space.LOCAL →
      translate h self x y z space self
        = { h self with
            translation := ![(h self).translation 0 + x, (h self).translation 1 + y,
              (h self).translation 2 + z],
            dirtyLocal := true } ∧
      translateVec h self v space self
        = { h self with
            translation := ![(h self).translation 0 + v 0, (h self).translation 1 + v 1,
              (h self).translation 2 + v 2],
            dirtyLocal := true } ∧
      ∀ n, n ≠ self → translate h self x y z space n = h n ∧
        translateVec h self v space n = h n) ∧
    translate h self x y z (some Space.WORLD) = h ∧
    translateVec h self v (some Space.WORLD) = h := by
  refine ⟨?_, ?_, ?_⟩
  · intro space hs
    refine ⟨?_, ?_, ?_⟩
    · simp [translate, hs]
    · simp [translateVec, hs]
    · intro n hn
      simp [translate, translateVec, hs, Function.update_noteq hn]
  · simp [translate]
  · simp [translateVec]

/-- C15, at a concrete input: a fresh node translated by `(1, 2, 3)` in local
space. -/
theorem translate_spec_witness :
    (translate (freshHeap : Heap ℤ) 0 1 2 3 (some Space.LOCAL) 0).translation
      = ![0 + 1, 0 + 2, 0 + 3] :=
  congrArg GraphNode.translation
    (((translate_spec (freshHeap : Heap ℤ) 0 1 2 3 ![1, 2, 3]).1
      (some Space.LOCAL) (Or.inr rfl)).1)

/-- C16 (absolute setters): `setLocalTranslation` and `setLocalScale` (both
forms) and `setLocalRotation` (quaternion form) write the given components to
their TRS field and set `dirtyLocal`; every other field of the node and every
other node are unchanged, and the single-vector form gives the result of the
three-scalar form on the components of the vector. -/
theorem setters_spec (h : Heap R) (self : Nat) (x y z : R) (v : Vec3 R) (q : Quat R) :
    (setLocalTranslation h self x y z self
        = { h self with translation := ![x, y, z], dirtyLocal := true } ∧
      setLocalScale h self x y z self
        = { h self with scale := ![x, y, z], dirtyLocal := true } ∧
      setLocalRotation h self q self
        = { h self with rotation := ![q 0, q 1, q 2, q 3], dirtyLocal := true }) ∧
    (∀ n, n ≠ self → setLocalTranslation h self x y z n = h n ∧
      setLocalScale h self x y z n = h n ∧ setLocalRotation h self q n = h n) ∧
    setLocalTranslationVec h self v = setLocalTranslation h self (v 0) (v 1) (v 2) ∧
    setLocalScaleVec h self v = setLocalScale h self (v 0) (v 1) (v 2) := by
  refine ⟨⟨?_, ?_, ?_⟩, ?_, rfl, rfl⟩
  · simp [setLocalTranslation]
  · simp [setLocalScale]
  · simp [setLocalRotation]
  · intro n hn
    simp [setLocalTranslation, setLocalScale, setLocalRotation, Function.update_noteq hn]

/-- C16, at a concrete input: the scale of a fresh node is set to `(2, 3, 4)`
while node 1 is left alone. -/
theorem setters_spec_witness :
    setLocalScale (freshHeap : Heap ℤ) 0 2 3 4 1 = (freshHeap : Heap ℤ) 1 :=
  (((setters_spec (freshHeap : Heap ℤ) 0 2 3 4 ![2, 3, 4] ![0, 0, 0, 1]).2.1) 1
    (by decide)).2.1

/-- C17 (findByName): on a heap holding the tree with root `root` and children
forest `kids`, `findByName` returns (with any fuel not below the height of the
tree) the first node of the depth-first pre-order listing whose name is
`name`, and returns `null` exactly when no node of the tree has that name.
(`findByName` writes nothing: it yields only the node.) -/
theorem findByName_preorder (h : Heap R) (root : Nat) (kids : Forest) (po : Option Nat)
    (hshape : Shaped h po (Forest.cons root kids Forest.nil)) (name : String)
    (fuel : Nat) (hfuel : (Forest.cons root kids Forest.nil).height ≤ fuel) :
    findByName fuel h root name
      = some ((Forest.cons root kids Forest.nil).ids.find?
          fun n => decide ((h n).name = name)) ∧
    (findByName fuel h root name = some none
      ↔ ∀ n, n ∈ (Forest.cons root kids Forest.nil).ids → (h n).name ≠ name) := by
  have hfind : findByName fuel h root name
      = some ((Forest.cons root kids Forest.nil).ids.find?
          fun n => decide ((h n).name = name)) :=
    firstMatch_tree h (fun n => (h n).name = name)
      (fun fuel n => findByName fuel h n name) (fun fuel n => findByName_succ h name fuel n)
      root kids po fuel hfuel hshape
  refine ⟨hfind, ?_⟩
  rw [hfind]
  constructor
  · intro hnone n hn
    have hnone' := Option.some.inj hnone
    rw [List.find?_eq_none] at hnone'
    simpa using hnone' n hn
  · intro hall
    congr 1
    rw [List.find?_eq_none]
    intro n hn
    simpa using hall n hn

/-- C17, at a concrete input: the tree 0 -> 1 -> 2 with node 2 named `target`. -/
theorem findByName_preorder_witness :
    Shaped (setName (runOps (freshHeap : Heap ℤ) [TreeOp.attach 0 1, TreeOp.attach 1 2])
        2 "target") none
      (Forest.cons 0 (Forest.cons 1 (Forest.cons 2 Forest.nil Forest.nil) Forest.nil)
        Forest.nil) ∧
    findByName 3 (setName (runOps (freshHeap : Heap ℤ)
        [TreeOp.attach 0 1, TreeOp.attach 1 2]) 2 "target") 0 "target" = some (some 2) ∧
    findByName 3 (setName (runOps (freshHeap : Heap ℤ)
        [TreeOp.attach 0 1, TreeOp.attach 1 2]) 2 "target") 0 "missing" = some none :=
  have hs : Shaped (setName (runOps (freshHeap : Heap ℤ)
        [TreeOp.attach 0 1, TreeOp.attach 1 2]) 2 "target") none
      (Forest.cons 0 (Forest.cons 1 (Forest.cons 2 Forest.nil Forest.nil) Forest.nil)
        Forest.nil) := by
    simp only [Shaped]; decide
  ⟨hs,
   (findByName_preorder _ 0 _ none hs "target" 3 (by decide)).1.trans (by decide),
   (findByName_preorder _ 0 _ none hs "missing" 3 (by decide)).1.trans (by decide)⟩

/-- C18 fails on the code.  The attribute is looked up by name among all the
members of the node and a function is called without arguments: searched by
the name `translate`, `find` and `findOne` throw the `TypeError` of line 664
at the first node, whatever the fuel and the value, and return no sequence.
A field that is falsy is skipped by the test of line 85: on the fresh node,
whose `_name` is the empty string, `find("_name", "")` returns the empty
sequence although `find("getName", "")` returns the node. -/
theorem find_throws_on_translate :
    (∀ fuel value,
      find (fuel + 1) (freshHeap : Heap ℤ) 0 "translate" value = some Completion.typeError) ∧
    (∀ fuel value,
      findOne (fuel + 1) (freshHeap : Heap ℤ) 0 "translate" value
        = some Completion.typeError) ∧
    ((freshHeap : Heap ℤ) 0).name = "" ∧
    find 1 (freshHeap : Heap ℤ) 0 "_name" (Value.string "")
      = some (Completion.normal freshHeap []) ∧
    find 1 (freshHeap : Heap ℤ) 0 "getName" (Value.string "")
      = some (Completion.normal freshHeap [0]) :=
  ⟨fun _ _ => rfl, fun _ _ => rfl, rfl, rfl, rfl⟩

/-- C18 (find / findOne), amended: on a heap holding the tree with root `root`
and children forest `kids`, for every value and every attribute name that is
not one of the functions of the node other than its getters, `find` returns
(with any fuel not below the height of the tree) without writing to the heap,
and its result is the pre-order listing of the tree filtered to the nodes that
match: the nodes on which `attr` is a field whose value is truthy and identical
to `value`, or a getter whose result is identical to `value`.  `findOne` returns,
also without writing, the first element of that sequence, or `null` when the
sequence is empty. -/
theorem find_findOne_agree (h : Heap R) (root : Nat) (kids : Forest) (po : Option Nat)
    (hshape : Shaped h po (Forest.cons root kids Forest.nil)) (attr : String) (value : Value)
    (hattr : attr ∉ nonGetters)
    (fuel : Nat) (hfuel : (Forest.cons root kids Forest.nil).height ≤ fuel) :
    find fuel h root attr value
      = some (Completion.normal h ((Forest.cons root kids Forest.nil).ids.filter
          fun n => matchesAttr h n attr value)) ∧
    findOne fuel h root attr value
      = some (Completion.normal h (((Forest.cons root kids Forest.nil).ids.filter
          fun n => matchesAttr h n attr value).head?)) := by
  have hheight : kids.height + 1 ≤ fuel := by
    simp only [Forest.height] at hfuel
    omega
  obtain ⟨fuel', hfuel'⟩ : ∃ k, fuel = k + 1 := ⟨fuel - 1, by omega⟩
  constructor
  · rw [hfuel', find_succ_getter h attr value hattr, hshape.2.1,
      find_forest h attr value hattr kids (some root) fuel' _ (by omega) hshape.2.2.1]
    by_cases hm : matchesAttr h root attr value = true
    · simp [hm, Forest.ids, List.filter_cons]
    · simp [hm, Forest.ids, List.filter_cons]
  · rw [hfuel', findOne_succ_getter h attr value hattr, hshape.2.1,
      findOne_forest h attr value hattr kids (some root) fuel' (by omega) hshape.2.2.1]
    by_cases hm : matchesAttr h root attr value = true
    · simp [hm, Forest.ids, List.filter_cons]
    · simp [hm, Forest.ids, List.filter_cons, List.filter_head?]

/-- C18, at a concrete input: the tree 0 -> 1 -> 2 with nodes 1 and 2 named
`target`, searched by the getter `getName`. -/
theorem find_findOne_agree_witness :
    Shaped (setName (setName (runOps (freshHeap : Heap ℤ)
        [TreeOp.attach 0 1, TreeOp.attach 1 2]) 1 "target") 2 "target") none
      (Forest.cons 0 (Forest.cons 1 (Forest.cons 2 Forest.nil Forest.nil) Forest.nil)
        Forest.nil) ∧
    find 3 (setName (setName (runOps (freshHeap : Heap ℤ)
          [TreeOp.attach 0 1, TreeOp.attach 1 2]) 1 "target") 2 "target") 0 "getName"
        (Value.string "target")
      = some (Completion.normal (setName (setName (runOps (freshHeap : Heap ℤ)
          [TreeOp.attach 0 1, TreeOp.attach 1 2]) 1 "target") 2 "target") [1, 2]) ∧
    findOne 3 (setName (setName (runOps (freshHeap : Heap ℤ)
          [TreeOp.attach 0 1, TreeOp.attach 1 2]) 1 "target") 2 "target") 0 "getName"
        (Value.string "target")
      = some (Completion.normal (setName (setName (runOps (freshHeap : Heap ℤ)
          [TreeOp.attach 0 1, TreeOp.attach 1 2]) 1 "target") 2 "target") (some 1)) :=
  have hs : Shaped (setName (setName (runOps (freshHeap : Heap ℤ)
        [TreeOp.attach 0 1, TreeOp.attach 1 2]) 1 "target") 2 "target") none
      (Forest.cons 0 (Forest.cons 1 (Forest.cons 2 Forest.nil Forest.nil) Forest.nil)
        Forest.nil) := by
    simp only [Shaped]; decide
  ⟨hs,
   (find_findOne_agree _ 0 _ none hs "getName" (Value.string "target") (by decide) 3
      (by decide)).1.trans
     (congrArg (fun l => some (Completion.normal _ l)) (by decide)),
   (find_findOne_agree _ 0 _ none hs "getName" (Value.string "target") (by decide) 3
      (by decide)).2.trans
     (congrArg (fun l => some (Completion.normal _ l)) (by decide))⟩

/-- C19 fails on the code: `hasLabel` looks the label up in the object
`_labels`, which inherits from `Object.prototype`.  On a fresh node, which has
no label, `hasLabel("toString")` is true, and it is still true after
`removeLabel("toString")`; after `addLabel("__proto__")` the sequence returned
by `getLabels` does not hold `__proto__`. -/
theorem hasLabel_inherited_name :
    getLabels (freshHeap : Heap ℤ) 0 = [] ∧
    hasLabel (freshHeap : Heap ℤ) 0 "toString" = true ∧
    hasLabel (removeLabel (freshHeap : Heap ℤ) 0 "toString") 0 "toString" = true ∧
    getLabels (addLabel (freshHeap : Heap ℤ) 0 "__proto__") 0 = [] := by
  decide

/-- C20 (findByLabel): on a heap holding the tree with root `root` and children
forest `kids`, `findByLabel` returns the sequence passed in (the empty sequence
when none is passed) followed by the pre-order listing of the tree filtered to
the nodes for which `hasLabel(label)` is true. -/
theorem findByLabel_preorder (h : Heap R) (root : Nat) (kids : Forest) (po : Option Nat)
    (hshape : Shaped h po (Forest.cons root kids Forest.nil)) (label : String)
    (results : Option (List Nat))
    (fuel : Nat) (hfuel : (Forest.cons root kids Forest.nil).height ≤ fuel) :
    findByLabel fuel h root label results
      = some (results.getD [] ++ (Forest.cons root kids Forest.nil).ids.filter
          fun n => hasLabel h n label) := by
  have hheight : kids.height + 1 ≤ fuel := by
    simp only [Forest.height] at hfuel
    omega
  obtain ⟨fuel', hfuel'⟩ : ∃ k, fuel = k + 1 := ⟨fuel - 1, by omega⟩
  rw [hfuel']
  simp only [findByLabel]
  rw [hshape.2.1, findByLabel_forest h label kids (some root) fuel' _ (by omega) hshape.2.2.1]
  by_cases hm : hasLabel h root label = true
  · simp [hm, Forest.ids, List.filter_cons]
  · simp [hm, Forest.ids, List.filter_cons]

/-- C20, at a concrete input: the tree 0 -> 1 -> 2 with the label `enemy` on
nodes 0 and 2, searched with the sequence `[7]` passed in. -/
theorem findByLabel_preorder_witness :
    Shaped (addLabel (addLabel (runOps (freshHeap : Heap ℤ)
        [TreeOp.attach 0 1, TreeOp.attach 1 2]) 0 "enemy") 2 "enemy") none
      (Forest.cons 0 (Forest.cons 1 (Forest.cons 2 Forest.nil Forest.nil) Forest.nil)
        Forest.nil) ∧
    findByLabel 3 (addLabel (addLabel (runOps (freshHeap : Heap ℤ)
        [TreeOp.attach 0 1, TreeOp.attach 1 2]) 0 "enemy") 2 "enemy") 0 "enemy" (some [7])
      = some [7, 0, 2] :=
  have hs : Shaped (addLabel (addLabel (runOps (freshHeap : Heap ℤ)
        [TreeOp.attach 0 1, TreeOp.attach 1 2]) 0 "enemy") 2 "enemy") none
      (Forest.cons 0 (Forest.cons 1 (Forest.cons 2 Forest.nil Forest.nil) Forest.nil)
        Forest.nil) := by
    simp only [Shaped]; decide
  ⟨hs, (findByLabel_preorder _ 0 _ none hs "enemy" (some [7]) 3 (by decide)).trans
    (by decide)⟩

/-- C21 as stated fails: after `addChild(0, 0)` on a fresh node and
`setLocalTranslation(1, 0, 0)`, node 0 is dirty, is its own parent and its own
direct child; after `sync` its `dirtyWorld` is clear although it is a direct
child, and its world matrix is not its parent's world matrix times its local
matrix (entry 12 is 1, that of the product is 2). -/
theorem sync_step_self_child :
    (setLocalTranslation (addChild (freshHeap : Heap ℤ) 0 0).heap 0 1 0 0 0).dirtyLocal = true ∧
    0 ∈ (setLocalTranslation (addChild (freshHeap : Heap ℤ) 0 0).heap 0 1 0 0 0).children ∧
    (sync (setLocalTranslation (addChild (freshHeap : Heap ℤ) 0 0).heap 0 1 0 0) 0 0).dirtyWorld
      = false ∧
    (sync (setLocalTranslation (addChild (freshHeap : Heap ℤ) 0 0).heap 0 1 0 0) 0 0).parent
      = some 0 ∧
    (sync (setLocalTranslation (addChild (freshHeap : Heap ℤ) 0 0).heap 0 1 0 0) 0 0).wtm 12
      = 1 ∧
    mat4Multiply
      (sync (setLocalTranslation (addChild (freshHeap : Heap ℤ) 0 0).heap 0 1 0 0) 0 0).wtm
      (sync (setLocalTranslation (addChild (freshHeap : Heap ℤ) 0 0).heap 0 1 0 0) 0 0).ltm 12
      = 2 := by
  decide

/-- C21, amended: for every node with `dirtyLocal` or `dirtyWorld` set that is
neither its own parent nor among its own children, after `sync` both flags of
the node are clear, the local matrix is the one just recomputed (when
`dirtyLocal` was set) or the old one, the world matrix is the parent's world
matrix times the local matrix, or the local matrix when there is no parent, and
every direct child is its old record with `dirtyWorld` set; the other fields of
the node and every node that is neither the node nor a direct child are
unchanged. -/
theorem sync_step (h : Heap R) (self : Nat)
    (hd : (h self).dirtyLocal = true ∨ (h self).dirtyWorld = true)
    (hchild : self ∉ (h self).children) (hpar : (h self).parent ≠ some self) :
    (sync h self self).dirtyLocal = false ∧ (sync h self self).dirtyWorld = false ∧
    (sync h self self).ltm
      = (if (h self).dirtyLocal = true
          then localFromTRS (h self).translation (h self).rotation (h self).scale
          else (h self).ltm) ∧
    (match (h self).parent with
      | none => (sync h self self).wtm = (sync h self self).ltm
      | some p =>
        (sync h self self).wtm = mat4Multiply (sync h self p).wtm (sync h self self).ltm) ∧
    SameFrame (h self) (sync h self self) ∧
    (∀ c, c ∈ (h self).children → sync h self c = { h c with dirtyWorld := true }) ∧
    (∀ n, n ≠ self → n ∉ (h self).children → sync h self n = h n) := by
  have hdirty := dirty_of_flags (h self) hd
  have hself := sync_self_of_dirty h self hdirty
  refine ⟨?_, ?_, ?_, ?_, sync_sameFrame h self self, ?_, ?_⟩
  · rw [hself]; exact syncLocal_dirtyLocal _
  · rw [hself]
  · rw [hself]; exact syncLocal_ltm _
  · cases hp : (h self).parent with
    | none =>
      rw [hself]
      simp [hp, expectWorld, mat4Copy]
    | some p =>
      have hne : p ≠ self := fun hh => hpar (by rw [hp, hh])
      show (sync h self self).wtm = mat4Multiply (sync h self p).wtm (sync h self self).ltm
      rw [(sync_wtm_of_ne h self p hne).1, hself]
      simp [hp, expectWorld]
  · intro c hc
    have hne : c ≠ self := fun hh => hchild (hh ▸ hc)
    rw [sync_of_ne h self c hne, if_pos ⟨hdirty, hc⟩]
  · intro n hn hc
    exact sync_frame h self n hn hc

/-- C21, amended, at a concrete input: node 1 of the chain 0 -> 1 -> 2 after its
translation was set. -/
theorem sync_step_witness :
    (sync (setLocalTranslation (runOps (freshHeap : Heap ℤ)
        [TreeOp.attach 0 1, TreeOp.attach 1 2]) 1 1 0 0) 1 1).dirtyLocal = false ∧
    (sync (setLocalTranslation (runOps (freshHeap : Heap ℤ)
        [TreeOp.attach 0 1, TreeOp.attach 1 2]) 1 1 0 0) 1 1).dirtyWorld = false :=
  ⟨(sync_step (setLocalTranslation (runOps (freshHeap : Heap ℤ)
      [TreeOp.attach 0 1, TreeOp.attach 1 2]) 1 1 0 0) 1
      (Or.inl (by decide)) (by decide) (by decide)).1,
   (sync_step (setLocalTranslation (runOps (freshHeap : Heap ℤ)
      [TreeOp.attach 0 1, TreeOp.attach 1 2]) 1 1 0 0) 1
      (Or.inl (by decide)) (by decide) (by decide)).2.1⟩

/-- C22 as stated fails: after `addChild(0, 0)` on a fresh node and
`setLocalTranslation(1, 0, 0)` the invariant holds on the whole heap, and after
`sync` on node 0 it does not: node 0 is its own parent, all four flags are
clear, and its world matrix is not its parent's world matrix times its local
matrix. -/
theorem dirtyInv_broken_by_self_parent :
    DirtyInv (setLocalTranslation (addChild (freshHeap : Heap ℤ) 0 0).heap 0 1 0 0) ∧
    ¬ DirtyInv (sync (setLocalTranslation (addChild (freshHeap : Heap ℤ) 0 0).heap 0 1 0 0) 0) := by
  constructor
  · apply dirtyInv_of_touch (addChild (freshHeap : Heap ℤ) 0 0).heap _ 0
    · intro n hn
      simp [setLocalTranslation, Function.update_noteq hn]
    · decide
    · intro n
      rw [nodeInv_iff]
      obtain ⟨par, ch, hn⟩ := addChild_heap_apply (freshHeap : Heap ℤ) 0 0 n
      by_cases h0 : n = 0
      · subst h0
        exact ⟨fun _ => by decide, fun hp => absurd hp (by decide),
          fun p hp => Or.inl (by
            have hp0 : p = 0 := by
              have h1 : ((addChild (freshHeap : Heap ℤ) 0 0).heap 0).parent = some 0 := by
                decide
              rw [h1] at hp
              exact (Option.some.inj hp).symm
            subst hp0
            decide)⟩
      · have hpar : ((addChild (freshHeap : Heap ℤ) 0 0).heap n).parent = none := by
          rw [addChild_parent _ 0 0 n rfl, if_neg h0]
          rfl
        refine ⟨fun _ => ?_, fun _ => Or.inl ?_, fun p hp => ?_⟩
        · rw [hn]
          show mat4Identity = localFromTRS ![0, 0, 0] ![0, 0, 0, 1] ![1, 1, 1]
          rw [localFromTRS_translation, translationArray_zero]
        · rw [hn]; rfl
        · rw [hpar] at hp
          exact Option.noConfusion hp
  · intro hinv
    have h0 := (nodeInv_iff _ 0).mp (hinv 0)
    rcases h0.2.2 0 (by decide) with ho | ho | ho | ho | ho
    · have h12 := congrFun ho 12
      revert h12
      decide
    · revert ho; decide
    · revert ho; decide
    · revert ho; decide
    · revert ho; decide

/-- C22, amended: the dirty-flag invariant `Inv` of the claim holds for freshly
constructed nodes and is preserved by the TRS setters, `translate` and `rotate`
on every heap; it is preserved by `sync`, and by `syncHierarchy` on a subtree
(which returns), on heaps in which no node is its own parent and every node
with a parent is among the children of that parent; and whenever `Inv` holds
on a tree whose root has no parent, `syncHierarchy` on the root returns and
leaves every node of the tree with both flags clear and every node with a
parent with a world matrix equal to its parent's world matrix times its local
matrix. -/
theorem dirtyInv_spec (setFromEulers : R → R → R → Quat R) :
    DirtyInv (freshHeap : Heap R) ∧
    (∀ (h : Heap R) (n : Nat) (op : TRSOp R),
      DirtyInv h → DirtyInv (applyTRSOp setFromEulers h n op)) ∧
    (∀ (h : Heap R) (n : Nat), DirtyInv h → LinksOk h → DirtyInv (sync h n)) ∧
    (∀ (h : Heap R) (node : Nat) (kids : Forest) (po : Option Nat) (fuel : Nat),
      DirtyInv h → LinksOk h → Shaped h po (Forest.cons node kids Forest.nil) →
      (Forest.cons node kids Forest.nil).height ≤ fuel →
      ∃ g, syncHierarchy fuel h node = some g ∧ DirtyInv g) ∧
    (∀ (h : Heap R) (root : Nat) (kids : Forest) (fuel : Nat),
      Shaped h none (Forest.cons root kids Forest.nil) →
      (Forest.cons root kids Forest.nil).ids.Nodup →
      (∀ n, n ∈ (Forest.cons root kids Forest.nil).ids → NodeInv h n) →
      (Forest.cons root kids Forest.nil).height ≤ fuel →
      ∃ g, syncHierarchy fuel h root = some g ∧
        ∀ n, n ∈ (Forest.cons root kids Forest.nil).ids →
          (g n).dirtyLocal = false ∧ (g n).dirtyWorld = false ∧
          ∀ p, (g n).parent = some p →
            (g n).wtm = mat4Multiply (g p).wtm (g n).ltm) := by
  refine ⟨dirtyInv_fresh, fun h n op hinv => dirtyInv_applyTRSOp setFromEulers h n op hinv,
    fun h n hinv hok => dirtyInv_sync h n hinv hok, ?_, ?_⟩
  · intro h node kids po fuel hinv hok hsh hfuel
    obtain ⟨g, hrun, hg, _, _⟩ :=
      syncForest_good (Forest.cons node kids Forest.nil) h po fuel hfuel hsh hinv hok
    exact ⟨g, syncHierarchy_of_single fuel h g node hrun, hg⟩
  · intro h root kids fuel hsh hnd hall hfuel
    obtain ⟨g, hrun, _, hsame, hclean, hinvg⟩ :=
      syncForest (Forest.cons root kids Forest.nil) h none fuel hfuel hsh hnd
        (fun p hp => Option.noConfusion hp) (fun p hp => Option.noConfusion hp)
        (inv_of_nodeInv _ h none hsh hall)
    have hshg : Shaped g none (Forest.cons root kids Forest.nil) :=
      shaped_congr _ h g none (fun n hn => sameFrame_links (hsame n hn)) hsh
    refine ⟨g, syncHierarchy_of_single fuel h g root hrun, ?_⟩
    intro n hn
    have hcn := hclean n hn
    simp only [GraphNode.dirty, Bool.or_eq_false_iff] at hcn
    exact ⟨hcn.1, hcn.2,
      world_of_parent _ g none none hshg hinvg hclean (fun p hp => Option.noConfusion hp) n hn⟩

/-- C22, amended, at a concrete input: the chain 0 -> 1 -> 2 of fresh nodes after
the translation of node 1 was set. -/
theorem dirtyInv_spec_witness :
    DirtyInv (applyTRSOp (fun _ _ _ => ![0, 0, 0, 1]) (freshHeap : Heap ℤ) 1
      (TRSOp.setTranslation 1 0 0)) ∧
    DirtyInv (sync (freshHeap : Heap ℤ) 0) :=
  ⟨(dirtyInv_spec (R := ℤ) (fun _ _ _ => ![0, 0, 0, 1])).2.1 freshHeap 1
      (TRSOp.setTranslation 1 0 0) (dirtyInv_spec (R := ℤ) (fun _ _ _ => ![0, 0, 0, 1])).1,
   (dirtyInv_spec (R := ℤ) (fun _ _ _ => ![0, 0, 0, 1])).2.2.1 freshHeap 0
      (dirtyInv_spec (R := ℤ) (fun _ _ _ => ![0, 0, 0, 1])).1
      ⟨fun n => by show (none : Option Nat) ≠ some n; simp,
       fun m p hp => by
        have hp' : (none : Option Nat) = some p := hp
        exact Option.noConfusion hp'⟩⟩

/-- C23 (unchanged subtrees): on a heap holding the tree with root `node`, when
every node of the tree has both flags clear `syncHierarchy` returns the heap
unchanged; on any tree a second `syncHierarchy` right after the first returns
the heap of the first; and on a fully synchronized tree, after a TRS method is
called on a node `N` of the tree, `syncHierarchy` on the root returns a heap in
which every node outside the subtree of `N` is as it was before the call. -/
theorem untouched_subtrees (setFromEulers : R → R → R → Quat R) :
    (∀ (h : Heap R) (node : Nat) (kids : Forest) (po : Option Nat) (fuel : Nat),
      Shaped h po (Forest.cons node kids Forest.nil) →
      (∀ n, n ∈ (Forest.cons node kids Forest.nil).ids →
        (h n).dirtyLocal = false ∧ (h n).dirtyWorld = false) →
      (Forest.cons node kids Forest.nil).height ≤ fuel →
      syncHierarchy fuel h node = some h) ∧
    (∀ (h : Heap R) (node : Nat) (kids : Forest) (po : Option Nat) (fuel : Nat),
      Shaped h po (Forest.cons node kids Forest.nil) →
      (Forest.cons node kids Forest.nil).ids.Nodup →
      (Forest.cons node kids Forest.nil).height ≤ fuel →
      ∃ g, syncHierarchy fuel h node = some g ∧ syncHierarchy fuel g node = some g) ∧
    (∀ (h : Heap R) (root : Nat) (kids : Forest) (N : Nat) (op : TRSOp R) (fuel : Nat),
      Shaped h none (Forest.cons root kids Forest.nil) →
      (Forest.cons root kids Forest.nil).ids.Nodup →
      Synced h none (Forest.cons root kids Forest.nil) →
      N ∈ (Forest.cons root kids Forest.nil).ids →
      (Forest.cons root kids Forest.nil).height ≤ fuel →
      ∃ g, syncHierarchy fuel (applyTRSOp setFromEulers h N op) root = some g ∧
        ∀ n, n ∉ (Forest.cons root kids Forest.nil).subtreeIds N →
          g n = h n ∧ (g n).ltm = (h n).ltm ∧ (g n).wtm = (h n).wtm ∧
          (g n).dirtyLocal = (h n).dirtyLocal ∧ (g n).dirtyWorld = (h n).dirtyWorld) := by
  have hnoop : ∀ (h : Heap R) (node : Nat) (kids : Forest) (po : Option Nat) (fuel : Nat),
      Shaped h po (Forest.cons node kids Forest.nil) →
      (∀ n, n ∈ (Forest.cons node kids Forest.nil).ids → (h n).dirty = false) →
      (Forest.cons node kids Forest.nil).height ≤ fuel →
      syncHierarchy fuel h node = some h := by
    intro h node kids po fuel hsh hclean hfuel
    exact syncHierarchy_of_single fuel h h node
      (syncForest_noop (Forest.cons node kids Forest.nil) h po fuel hfuel hsh hclean)
  refine ⟨?_, ?_, ?_⟩
  · intro h node kids po fuel hsh hclean hfuel
    apply hnoop h node kids po fuel hsh _ hfuel
    intro n hn
    simp [GraphNode.dirty, (hclean n hn).1, (hclean n hn).2]
  · intro h node kids po fuel hsh hnd hfuel
    obtain ⟨g, hrun, _, hl, hclean⟩ :=
      syncForest_clean (Forest.cons node kids Forest.nil) h po fuel hfuel hsh hnd
    exact ⟨g, syncHierarchy_of_single fuel h g node hrun,
      hnoop g node kids po fuel (shaped_congr _ h g po (fun n _ => hl n) hsh) hclean hfuel⟩
  · intro h root kids N op fuel hsh hnd hsynced hN hfuel
    obtain ⟨hframe, _, _, _, hpar, hch, _⟩ := applyTRSOp_touch setFromEulers h N op
    have hlinks : ∀ n, (applyTRSOp setFromEulers h N op n).parent = (h n).parent ∧
        (applyTRSOp setFromEulers h N op n).children = (h n).children := by
      intro n
      by_cases hn : n = N
      · subst hn; exact ⟨hpar, hch⟩
      · rw [hframe n hn]; exact ⟨rfl, rfl⟩
    obtain ⟨_, hclean⟩ := inv_of_synced _ h none hsynced
    have hNsub := mem_subtreeIds_self N _ hN
    obtain ⟨g, hrun, hout⟩ :=
      syncForest_local N (Forest.cons root kids Forest.nil) (applyTRSOp setFromEulers h N op)
        none fuel hfuel (shaped_congr _ h _ none (fun n _ => hlinks n) hsh) hnd (by
          intro n hn hns
          have hnN : n ≠ N := fun hh => hns (hh ▸ hNsub)
          rw [hframe n hnN]
          exact hclean n hn)
    refine ⟨g, syncHierarchy_of_single fuel _ g root hrun, ?_⟩
    intro n hns
    have hnN : n ≠ N := fun hh => hns (hh ▸ hNsub)
    have heq : g n = h n := by rw [hout n hns, hframe n hnN]
    exact ⟨heq, by rw [heq], by rw [heq], by rw [heq], by rw [heq]⟩

/-- C23, at a concrete input: on the clean chain 0 -> 1 -> 2 of fresh nodes
`syncHierarchy` on the root changes nothing. -/
theorem untouched_subtrees_witness :
    Shaped (runOps (freshHeap : Heap ℤ) [TreeOp.attach 0 1, TreeOp.attach 1 2]) none
      (Forest.cons 0 (Forest.cons 1 (Forest.cons 2 Forest.nil Forest.nil) Forest.nil)
        Forest.nil) ∧
    syncHierarchy 3 (runOps (freshHeap : Heap ℤ) [TreeOp.attach 0 1, TreeOp.attach 1 2]) 0
      = some (runOps (freshHeap : Heap ℤ) [TreeOp.attach 0 1, TreeOp.attach 1 2]) :=
  have hs : Shaped (runOps (freshHeap : Heap ℤ) [TreeOp.attach 0 1, TreeOp.attach 1 2]) none
      (Forest.cons 0 (Forest.cons 1 (Forest.cons 2 Forest.nil Forest.nil) Forest.nil)
        Forest.nil) := by
    simp only [Shaped]; decide
  ⟨hs, (untouched_subtrees (R := ℤ) (fun _ _ _ => ![0, 0, 0, 1])).1 _ 0 _ none 3 hs
    (by
      intro n hn
      simp only [Forest.ids, List.append_nil, List.mem_cons, List.not_mem_nil, or_false,
        List.nil_append] at hn
      rcases hn with hn | hn | hn <;> subst hn <;> decide)
    (by decide)⟩

/-- C24 (clone): the node made by `clone` at a new reference `c` has the name,
local matrix, world matrix and graph id of the original, no parent, no
children, both flags clear and the identity TRS; its labels are the value of
`pc.extend(this._lables, {})`, which does not come from the labels of the
original; every other node, the original included, is unchanged.  For an
original translated to `(1, 0, 0)` and synchronized, the local matrix of the
clone is not the composition of the TRS of the clone. -/
theorem clone_spec (extendLables : List String) (h : Heap R) (self c : Nat)
    (hc : c ≠ self) :
    (clone extendLables h self c c).name = (h self).name ∧
    (clone extendLables h self c c).ltm = (h self).ltm ∧
    (clone extendLables h self c c).wtm = (h self).wtm ∧
    (clone extendLables h self c c).graphId = (h self).graphId ∧
    (clone extendLables h self c c).parent = none ∧
    (clone extendLables h self c c).children = [] ∧
    (clone extendLables h self c c).dirtyLocal = false ∧
    (clone extendLables h self c c).dirtyWorld = false ∧
    (clone extendLables h self c c).translation = ![0, 0, 0] ∧
    (clone extendLables h self c c).rotation = ![0, 0, 0, 1] ∧
    (clone extendLables h self c c).scale = ![1, 1, 1] ∧
    (clone extendLables h self c c).labels = extendLables ∧
    clone extendLables h self c self = h self ∧
    (∀ n, n ≠ c → clone extendLables h self c n = h n) ∧
    (clone extendLables (sync (setLocalTranslation (freshHeap : Heap ℤ) 0 1 0 0) 0) 0 1 1).ltm
      ≠ localFromTRS
        (clone extendLables (sync (setLocalTranslation (freshHeap : Heap ℤ) 0 1 0 0) 0)
          0 1 1).translation
        (clone extendLables (sync (setLocalTranslation (freshHeap : Heap ℤ) 0 1 0 0) 0)
          0 1 1).rotation
        (clone extendLables (sync (setLocalTranslation (freshHeap : Heap ℤ) 0 1 0 0) 0)
          0 1 1).scale := by
  have hframe : ∀ n, n ≠ c → clone extendLables h self c n = h n := by
    intro n hn
    simp [clone, Function.update_noteq hn]
  refine ⟨?_, ?_, ?_, ?_, ?_, ?_, ?_, ?_, ?_, ?_, ?_, ?_, hframe self (Ne.symm hc), hframe, ?_⟩
  all_goals first
    | (simp [clone, cloneInternal, GraphNode.create, mat4Copy]; done)
    | (intro hh
       have h12 := congrFun hh 12
       revert h12
       simp [clone, cloneInternal, GraphNode.create, mat4Copy]
       decide)

/-- C24, at a concrete input: the clone of a translated, labelled node. -/
theorem clone_spec_witness :
    (clone [] (addLabel (sync (setLocalTranslation (freshHeap : Heap ℤ) 0 1 0 0) 0) 0 "enemy")
        0 1 1).translation = ![0, 0, 0] ∧
    (clone [] (addLabel (sync (setLocalTranslation (freshHeap : Heap ℤ) 0 1 0 0) 0) 0 "enemy")
        0 1 1).labels = [] ∧
    clone [] (addLabel (sync (setLocalTranslation (freshHeap : Heap ℤ) 0 1 0 0) 0) 0 "enemy")
        0 1 0
      = addLabel (sync (setLocalTranslation (freshHeap : Heap ℤ) 0 1 0 0) 0) 0 "enemy" 0 :=
  ⟨(clone_spec [] (addLabel (sync (setLocalTranslation (freshHeap : Heap ℤ) 0 1 0 0) 0) 0
      "enemy") 0 1 (by decide)).2.2.2.2.2.2.2.2.1,
   (clone_spec [] (addLabel (sync (setLocalTranslation (freshHeap : Heap ℤ) 0 1 0 0) 0) 0
      "enemy") 0 1 (by decide)).2.2.2.2.2.2.2.2.2.2.2.1,
   (clone_spec [] (addLabel (sync (setLocalTranslation (freshHeap : Heap ℤ) 0 1 0 0) 0) 0
      "enemy") 0 1 (by decide)).2.2.2.2.2.2.2.2.2.2.2.2.1⟩

end Claims


end Scene
